import Mathlib

/-! The `input` format matcher: tokenizer, kinds, placeholder extraction and scoring.

A shallow embedding of `input.go`, `kind.go` and the template engine
`internal/ft/template.go`.

* Go strings are modelled as lists of Unicode code points (`Str`); every index is a
  code point index.  Only well-formed UTF-8 text is covered.
* A Go `any` value is a `Value`; a run-time panic is a `Fault` returned through `Except`.
* The closure handed to `strings.FieldsFunc` mutates three captured variables; it is
  modelled by explicit state passing (`SplitState`).
-/

namespace Hyprstereo

/-- Go string, as its sequence of code points. -/
abbrev Str := List Char

/-! ## Tokenizer (`Split`, input.go 186-217) -/

/-- The three variables captured by the closure in `Split`. -/
structure SplitState where
  canSplit : Bool
  inString : Bool
  lvl : Nat
  deriving DecidableEq, Repr

/-- Values of `canSplit`, `inString`, `lvl` when the scan starts. -/
def SplitState.init : SplitState := { canSplit := true, inString := false, lvl := 0 }

/-- The apostrophe character. -/
def chApos : Char := Char.ofNat 39

/-- The double quote character. -/
def chQuote : Char := Char.ofNat 34

/-- The closure passed to `strings.FieldsFunc` by `Split`: one call on rune `r` in state
`st` gives the updated captured variables and the returned boolean. -/
def splitFn (st : SplitState) (r : Char) : SplitState × Bool :=
  let st1 : SplitState :=
    if r = '{' ∨ r = '[' then
      { st with lvl := st.lvl + 1, canSplit := false }
    else if r = '}' ∨ r = ']' then
      let l := if st.lvl > 0 then st.lvl - 1 else st.lvl
      { st with lvl := l, canSplit := decide (l = 0) }
    else st
  let st2 : SplitState :=
    if r = chApos ∨ r = chQuote then { st1 with inString := !st1.inString } else st1
  if st2.canSplit then
    (st2, decide (r = ' ' ∨ r = ',' ∨ r = ':') && !st2.inString)
  else
    (st2, false)

/-- Go `strings.FieldsFunc`, for a callback with captured state.  The library function
(in every Go release that has the type `any`, which the package uses) makes one pass over
the string and calls the callback once on every code point, left to right; `cur` is the
field being collected (empty when no field is open).  A field is closed by a code point on
which the callback answers true, or by the end of the string. -/
def FieldsFuncAux {σ : Type} (f : σ → Char → σ × Bool) : σ → Str → Str → List Str
  | _, cur, [] => if cur = [] then [] else [cur]
  | st, cur, c :: cs =>
    if (f st c).2 then
      if cur = [] then FieldsFuncAux f (f st c).1 [] cs
      else cur :: FieldsFuncAux f (f st c).1 [] cs
    else FieldsFuncAux f (f st c).1 (cur ++ [c]) cs

/-- Go `strings.FieldsFunc(s, f)` with the initial captured state `st`. -/
def FieldsFunc {σ : Type} (s : Str) (f : σ → Char → σ × Bool) (st : σ) : List Str :=
  FieldsFuncAux f st [] s

/-- Go `unicode.IsSpace`. -/
def isSpace (r : Char) : Bool :=
  let n := r.toNat
  (9 ≤ n && n ≤ 13) || n = 32 || n = 0x85 || n = 0xA0 || n = 0x1680 ||
  (0x2000 ≤ n && n ≤ 0x200a) || n = 0x2028 || n = 0x2029 || n = 0x202f ||
  n = 0x205f || n = 0x3000

/-- Go `strings.TrimSpace`: leading and trailing white space removed. -/
def TrimSpace (s : Str) : Str :=
  ((s.dropWhile isSpace).reverse.dropWhile isSpace).reverse

/-- Function `Split` (input.go 186-217): fields cut by the stateful closure, then the fields that
are empty after `TrimSpace` are left out. -/
def Split (value : Str) : List Str :=
  let tags := FieldsFunc value splitFn SplitState.init
  tags.filter (fun t => decide (TrimSpace t ≠ []))

/-! ## Kind system (kind.go) -/

/-- Go `type Kind = uint8`; the constants `Null` ... `RGBHex` of kind.go are `Kind.Null` ...
`Kind.RGBHex`. -/
abbrev Kind := Nat

def Kind.Null : Kind := 0
def Kind.Bool : Kind := 1
def Kind.Int : Kind := 2
def Kind.Uint : Kind := 3
def Kind.Float : Kind := 4
def Kind.Byte : Kind := 5
def Kind.String : Kind := 6
def Kind.Map : Kind := 7
def Kind.Array : Kind := 8
def Kind.Any : Kind := 9
def Kind.RGBHex : Kind := 10

/-- Go `reflect.Kind`, in the order of its declaration (so that the position is the
numeric value: `Invalid = 0`, ..., `UnsafePointer = 26`). -/
inductive ReflectKind where
  | Invalid | Bool | Int | Int8 | Int16 | Int32 | Int64
  | Uint | Uint8 | Uint16 | Uint32 | Uint64 | Uintptr
  | Float32 | Float64 | Complex64 | Complex128
  | Array | Chan | Func | Interface | Map | Pointer | Slice | String | Struct
  | UnsafePointer
  deriving DecidableEq, Repr

/-- Numeric value of a `reflect.Kind`. -/
def ReflectKind.toNat : ReflectKind → Nat
  | .Invalid => 0 | .Bool => 1 | .Int => 2 | .Int8 => 3 | .Int16 => 4 | .Int32 => 5
  | .Int64 => 6 | .Uint => 7 | .Uint8 => 8 | .Uint16 => 9 | .Uint32 => 10 | .Uint64 => 11
  | .Uintptr => 12 | .Float32 => 13 | .Float64 => 14 | .Complex64 => 15
  | .Complex128 => 16 | .Array => 17 | .Chan => 18 | .Func => 19 | .Interface => 20
  | .Map => 21 | .Pointer => 22 | .Slice => 23 | .String => 24 | .Struct => 25
  | .UnsafePointer => 26

/-- A float64: not a number, an infinity, or a finite value, kept as the rational it
denotes. -/
inductive F64 where
  | nan
  | posInf
  | negInf
  | fin (q : ℚ)
  deriving DecidableEq

/-- Rounding of a rational to an integer, to the nearest one and to the even one on a
tie. -/
def roundHalfEven (y : ℚ) : ℤ :=
  if y - (⌊y⌋ : ℚ) < 1 / 2 then ⌊y⌋
  else if 1 / 2 < y - (⌊y⌋ : ℚ) then ⌊y⌋ + 1
  else if ⌊y⌋ % 2 = 0 then ⌊y⌋ else ⌊y⌋ + 1

/-- The float64 nearest to a positive rational `x` of the normal range (ties to the even
significand): `x` is scaled to 53 binary digits, rounded and scaled back. -/
def F64.roundPos (x : ℚ) : ℚ :=
  (roundHalfEven (x / (2 : ℚ) ^ (Int.log 2 x - 52)) : ℚ) * (2 : ℚ) ^ (Int.log 2 x - 52)

/-- The float64 nearest to a rational of the normal range, as a rational (IEEE 754
binary64, round to nearest, ties to even).  Subnormal results and overflow are not
modelled: they do not occur for a Go `int`, whose size is below `2^63`, nor for the
quotient of two such conversions. -/
def F64.roundQ (x : ℚ) : ℚ :=
  if x = 0 then 0 else if 0 < x then F64.roundPos x else -F64.roundPos (-x)

/-- Go `float64(a) / float64(b)` for two non-negative counters: `0/0` is NaN and `a/0`
with `a > 0` is `+Inf` (IEEE 754, no panic); otherwise each conversion rounds and the
division returns the float64 nearest to the quotient of the two converted values. -/
def F64.divNat (a b : Nat) : F64 :=
  if b = 0 then (if a = 0 then F64.nan else F64.posInf)
  else F64.fin (F64.roundQ (F64.roundQ (a : ℚ) / F64.roundQ (b : ℚ)))

/-- A Go `any` value, by dynamic type.  `other k tag` stands for a value of any dynamic
type that is none of `bool`, `int`, `float64`, `string`, `[]any`, `map[string]any`;
`k` is the `reflect.Kind` of that type and `tag` identifies the value. -/
inductive Value where
  | nil
  | bool (b : Bool)
  | int (n : Int)
  | float (f : F64)
  | str (s : Str)
  | slice (xs : List Value)
  | map (kvs : List (Str × Value))
  | other (k : ReflectKind) (tag : Nat)

/-- Go `reflect.TypeOf(v)` followed by `.Kind()`; `none` when `v` is the nil interface
(then `reflect.TypeOf` returns nil and the method call dereferences nil). -/
def Value.reflectKind : Value → Option ReflectKind
  | .nil => none
  | .bool _ => some .Bool
  | .int _ => some .Int
  | .float _ => some .Float64
  | .str _ => some .String
  | .slice _ => some .Slice
  | .map _ => some .Map
  | .other k _ => some k

/-- A run-time panic of the Go program. -/
inductive Fault where
  | indexOutOfRange (index length : Nat)
  | typeAssertion
  | nilDereference
  deriving DecidableEq, Repr

/-- Function `KindString` (kind.go 35-59); the default branch is `fmt.Sprint` of the uint8. -/
def KindString (typ : Kind) : Str :=
  if typ = Kind.RGBHex then "RGBHex".toList
  else if typ = Kind.Null then "Null".toList
  else if typ = Kind.Int then "Int".toList
  else if typ = Kind.Byte then "Uint32".toList
  else if typ = Kind.Bool then "Bool".toList
  else if typ = Kind.Float then "Float".toList
  else if typ = Kind.Map then "Map".toList
  else if typ = Kind.Array then "Array".toList
  else if typ = Kind.Any then "Any".toList
  else Nat.toDigits 10 typ

/-- Function `kindOf` (kind.go 61-88): a switch on the reflect kind of the dynamic type; the nil
interface has no type and the call faults. -/
def kindOf (v : Value) : Except Fault Kind :=
  match v.reflectKind with
  | none => .error Fault.nilDereference
  | some tv =>
    .ok (match tv with
      | .Array => Kind.Array
      | .Bool => Kind.Bool
      | .Float64 => Kind.Float
      | .Float32 => Kind.Float
      | .Int | .Int8 | .Int16 | .Int32 | .Int64 => Kind.Int
      | .Uint | .Uint16 | .Uint8 | .Uint32 | .Uint64 => Kind.Uint
      | .Map => Kind.Map
      | .Interface => Kind.Any
      | .Slice => Kind.Byte
      | .String => Kind.String
      | k => k.toNat % 256)

/-- Function `StringToKind` (kind.go 90-119); a name outside the switch leaves the zero value. -/
def StringToKind (typ : Str) : Kind :=
  if typ = "String".toList then Kind.String
  else if typ = "RGBHex".toList then Kind.RGBHex
  else if typ = "Null".toList then Kind.Null
  else if typ = "Int".toList then Kind.Int
  else if typ = "Uint".toList then Kind.Uint
  else if typ = "Byte".toList then Kind.Byte
  else if typ = "Bool".toList then Kind.Bool
  else if typ = "Float".toList then Kind.Float
  else if typ = "Float32".toList then Kind.Float
  else if typ = "Map".toList then Kind.Map
  else if typ = "Array".toList then Kind.Array
  else if typ = "Any".toList then Kind.Any
  else 0

/-- Function `KindFmtSymbol` (kind.go 121-137); a kind outside the switch leaves the empty string. -/
def KindFmtSymbol (k : Kind) : Str :=
  if k = Kind.Int then "%d".toList
  else if k = Kind.Float then "%f".toList
  else if k = Kind.String then "%s".toList
  else if k = Kind.Bool then "%t".toList
  else if k = Kind.Any ∨ k = Kind.Map ∨ k = Kind.Array ∨ k = Kind.Byte then "%v".toList
  else if k = Kind.RGBHex then "%02x%02x%02x".toList
  else []

/-- Type `Var` (kind.go 174-180); `Value` starts as the nil interface. -/
structure Var where
  Pos : Nat
  Name : Str
  fmtValue : Str
  expectedKind : Kind
  Value : Value

/-! ## Placeholder extraction (input.go 156-184) -/

/-- Go `strings.HasPrefix`. -/
def HasPrefix (s p : Str) : Bool := p.isPrefixOf s

/-- Go `strings.HasSuffix`. -/
def HasSuffix (s p : Str) : Bool := p.isSuffixOf s

/-- Go `strings.TrimPrefix`. -/
def TrimPrefix (s p : Str) : Str := if HasPrefix s p then s.drop p.length else s

/-- Go `strings.TrimSuffix`. -/
def TrimSuffix (s p : Str) : Str :=
  if HasSuffix s p then s.take (s.length - p.length) else s

/-- Worker of `stringsSplit`: `cur` is the piece being collected. -/
def stringsSplitAux (sep : Char) : Str → Str → List Str
  | cur, [] => [cur]
  | cur, c :: cs =>
    if c = sep then cur :: stringsSplitAux sep [] cs
    else stringsSplitAux sep (cur ++ [c]) cs

/-- Go `strings.Split(s, sep)` for a separator of one character: every piece between
separators, the empty ones included. -/
def stringsSplit (s : Str) (sep : Char) : List Str := stringsSplitAux sep [] s

/-- Function `isVar` (input.go 156-161). -/
def isVar (v : Str) : Bool := HasPrefix v "$\x7b".toList && HasSuffix v "\x7d".toList

/-- Function `extractVar` (input.go 163-184).  `toks[0]` and `toks[1]` are in range because the
text contains a colon (`stringsSplit_length`). -/
def extractVar (v : Str) (pos : Nat) : Var :=
  let v1 := TrimPrefix v "$\x7b".toList
  let v2 := TrimSuffix v1 "\x7d".toList
  if v2.contains ':' then
    let toks := stringsSplit v2 ':'
    let knd := StringToKind (toks.getD 1 [])
    { Name := toks.getD 0 [], Pos := pos, expectedKind := knd, fmtValue := KindFmtSymbol knd,
      Value := Value.nil }
  else
    { Name := v2, Pos := pos, expectedKind := Kind.Any, fmtValue := KindFmtSymbol Kind.Any,
      Value := Value.nil }

/-! ## Matching (input.go 13-154, 219-230) -/

/-- Function `SplitArgs` (input.go 219-230).  `ev` is the external evaluator `expr.Eval(t, nil)`:
`some out` when it returns `out` with a nil error, `none` when it returns an error. -/
def SplitArgs (ev : Str → Option Value) (value : Str) : List Value :=
  (Split value).map (fun t => match ev t with
    | some out => out
    | none => Value.str t)

/-- Go map `map[string]*Var`, as an association list with distinct keys. -/
abbrev VarMap := List (Str × Var)

/-- Go `m[k] = v`. -/
def VarMap.insert (m : VarMap) (k : Str) (v : Var) : VarMap :=
  (k, v) :: m.filter (fun e => decide (e.1 ≠ k))

/-- Go `m[k]`, `none` for the nil pointer returned on a missing key. -/
def VarMap.get (m : VarMap) (k : Str) : Option Var :=
  (m.find? (fun e => decide (e.1 = k))).map (fun e => e.2)

/-- Type `Input` (input.go 24-28). -/
structure Input where
  line : Str
  fmtValue : Str
  vars : VarMap

/-- The value `&Input\x7b\x7d`. -/
def Input.zero : Input := { line := [], fmtValue := [], vars := [] }

/-- Local variables of `Input.Read` that change in the loop.  `score` is the named float64
result (it only ever holds a small whole number before the final assignment). -/
structure ReadState where
  vars : VarMap
  matchers : List Str
  cnt : Nat
  scores : Nat
  score : Nat

/-- Go `outs[x]` on a slice. -/
def indexAny (outs : List Value) (x : Nat) : Except Fault Value :=
  match outs[x]? with
  | some v => .ok v
  | none => .error (Fault.indexOutOfRange x outs.length)

/-- Go `o.([]any)[0]`: the type assertion, then the index. -/
def firstOfSlice (o : Value) : Except Fault Value :=
  match o with
  | .slice xs => indexAny xs 0
  | _ => .error Fault.typeAssertion

/-- Go `words[x] == outs[x]` between a string and an `any`: true exactly when the dynamic
type is `string` and the text is the same. -/
def strEqAny (w : Str) (o : Value) : Bool :=
  match o with
  | .str s => decide (w = s)
  | _ => false

/-- One iteration of the loop of `Input.Read` (input.go 41-67) at index `x`, on the format
token `w = words[x]`.  In the Array branch the first `kindOf` is the argument of the
`fmt.Println` call (its output is not modelled). -/
def readStep (outs : List Value) (x : Nat) (w : Str) (s : ReadState) :
    Except Fault ReadState :=
  if isVar w then
    let v := extractVar w s.cnt
    if v.expectedKind = Kind.Array then
      match indexAny outs x with
      | .error e => .error e
      | .ok o =>
        match kindOf o with
        | .error e => .error e
        | .ok printed =>
          let _ := KindString printed
          match kindOf o with
          | .error e => .error e
          | .ok k =>
            match (if k = Kind.String then Except.ok o else firstOfSlice o) with
            | .error e => .error e
            | .ok val =>
              let v1 : Var := { v with Value := val }
              .ok { s with scores := s.scores + 1, vars := s.vars.insert v1.Name v1,
                           matchers := s.matchers ++ [v1.fmtValue], cnt := s.cnt + 1 }
    else
      match indexAny outs x with
      | .error e => .error e
      | .ok o =>
        match kindOf o with
        | .error e => .error e
        | .ok k =>
          let sc := if v.expectedKind = k then s.score + 1 else s.score
          let v1 : Var := { v with Value := o }
          .ok { s with score := sc, vars := s.vars.insert v1.Name v1,
                       matchers := s.matchers ++ [v1.fmtValue], cnt := s.cnt + 1 }
  else
    match indexAny outs x with
    | .error e => .error e
    | .ok o =>
      let sc := if strEqAny w o then s.scores + 1 else s.scores
      .ok { s with scores := sc, matchers := s.matchers ++ [w] }

/-- The loop `for x := 0; x < len(words); x++` of `Input.Read`, from index `x` over the
remaining format tokens. -/
def readLoop (outs : List Value) : Nat → List Str → ReadState → Except Fault ReadState
  | _, [], s => .ok s
  | x, w :: ws, s =>
    match readStep outs x w s with
    | .error e => .error e
    | .ok s1 => readLoop outs (x + 1) ws s1

/-- State of the locals when the loop of `Input.Read` starts. -/
def ReadState.init : ReadState :=
  { vars := [], matchers := [], cnt := 0, scores := 0, score := 0 }

/-- Go `strings.Join(elems, " ")`. -/
def joinSpace (elems : List Str) : Str := List.intercalate [' '] elems

/-- Method `(*Input).Read` (input.go 30-73) on a reader holding the text `r`.  The result is the
receiver after the call and the returned score; a panic gives no result. -/
def Input.Read (ev : Str → Option Value) (i : Input) (format : Str) (r : Str) :
    Except Fault (Input × F64) :=
  let i1 : Input := { i with vars := [] }
  let words := Split format
  let i2 : Input := { i1 with line := r }
  let outs := SplitArgs ev r
  match readLoop outs 0 words ReadState.init with
  | .error e => .error e
  | .ok s =>
    .ok ({ i2 with vars := s.vars, fmtValue := joinSpace s.matchers },
         F64.divNat s.scores words.length)

/-- Package function `Read` (input.go 13-17). -/
def Read (ev : Str → Option Value) (format : Str) (r : Str) : Except Fault (Input × F64) :=
  Input.Read ev Input.zero format r

/-- Method `(*Input).Line` (input.go 120-123). -/
def Input.Line (i : Input) : Str := i.fmtValue

/-- Method `(*Input).Get` (input.go 125-128). -/
def Input.Get (i : Input) (n : Str) : Option Var := i.vars.get n

/-- Method `(*Input).All` (input.go 147-154): the map from name to bound value. -/
def Input.All (i : Input) : List (Str × Value) := i.vars.map (fun e => (e.1, e.2.Value))

/-- Go `m[k]` on the map returned by `All`. -/
def allGet (m : List (Str × Value)) (k : Str) : Option Value :=
  (m.find? (fun e => decide (e.1 = k))).map (fun e => e.2)

/-! ## Literal evaluator

The repository evaluates an input token with the external `expr.Eval`; the matcher above
takes that evaluator as the parameter `ev`.  For concrete runs the literal grammar that
the specification describes is used. -/

/-- Decimal digits to a number; `none` unless the text is a non-empty run of digits. -/
def parseNat (s : Str) : Option Nat :=
  if s = [] ∨ s.all Char.isDigit = false then none
  else some (s.foldl (fun n c => 10 * n + (c.toNat - 48)) 0)

/-- An integer literal: digits with an optional leading minus sign. -/
def parseInt (s : Str) : Option Int :=
  match s with
  | '-' :: r => (parseNat r).map (fun n => -(n : Int))
  | _ => (parseNat s).map (fun n => (n : Int))

/-- A floating-point literal `digits.digits` with an optional leading minus sign. -/
def parseFloat (s : Str) : Option F64 :=
  let neg := HasPrefix s ['-']
  let body := TrimPrefix s ['-']
  match stringsSplit body '.' with
  | [a, b] =>
    match parseNat a, parseNat b with
    | some x, some y =>
      let q : ℚ := (x : ℚ) + (y : ℚ) / (10 : ℚ) ^ b.length
      some (F64.fin (if neg then -q else q))
    | _, _ => none
  | _ => none

/-- Worker of `splitTop`: `d` is the bracket depth, `q` the open quote if any. -/
def splitTopAux (sep : Char) : Nat → Option Char → Str → Str → List Str
  | _, _, cur, [] => [cur]
  | d, q, cur, c :: cs =>
    match q with
    | some o => splitTopAux sep d (if c = o then none else some o) (cur ++ [c]) cs
    | none =>
      if c = chApos ∨ c = chQuote then splitTopAux sep d (some c) (cur ++ [c]) cs
      else if c = '[' ∨ c = '{' then splitTopAux sep (d + 1) none (cur ++ [c]) cs
      else if c = ']' ∨ c = '}' then splitTopAux sep (d - 1) none (cur ++ [c]) cs
      else if c = sep ∧ d = 0 then cur :: splitTopAux sep 0 none [] cs
      else splitTopAux sep d none (cur ++ [c]) cs

/-- The pieces of `s` between the occurrences of `sep` that lie outside brackets and
quotes. -/
def splitTop (sep : Char) (s : Str) : List Str := splitTopAux sep 0 none [] s

/-- A quoted string without escapes: the text between two equal quote characters. -/
def parseQuoted (s : Str) : Option Str :=
  match s with
  | q :: r =>
    if (q = chApos ∨ q = chQuote) ∧ r.getLast? = some q ∧ ¬ q ∈ r.dropLast ∧
        ¬ Char.ofNat 92 ∈ r.dropLast then some r.dropLast
    else none
  | [] => none

/-- A map key: a quoted string or a bare word of letters, digits and underscores. -/
def parseKey (s : Str) : Option Str :=
  match parseQuoted s with
  | some k => some k
  | none =>
    if s ≠ [] ∧ s.all (fun c => c.isAlphanum || c = '_') = true then some s else none

/-- Modelled from the spec: the Literal Evaluator of section 4.3 (the repository calls the
external `expr.Eval(t, nil)`, which is not among its sources).  The token is read as a
literal: `nil`, a boolean, an integer, a floating-point number, a quoted string, a
bracketed array of literals or a bracketed map of literal pairs; anything else fails and
`SplitArgs` falls back to the raw text.  `fuel` bounds the nesting depth. -/
def evalLitAux : Nat → Str → Option Value
  | 0, _ => none
  | fuel + 1, t =>
    let s := TrimSpace t
    if s = "nil".toList then some Value.nil
    else if s = "true".toList then some (Value.bool true)
    else if s = "false".toList then some (Value.bool false)
    else
      match parseInt s with
      | some n => some (Value.int n)
      | none =>
        match parseFloat s with
        | some f => some (Value.float f)
        | none =>
          match parseQuoted s with
          | some x => some (Value.str x)
          | none =>
            match s with
            | '[' :: r =>
              if r.getLast? = some ']' then
                if TrimSpace r.dropLast = [] then some (Value.slice [])
                else ((splitTop ',' r.dropLast).mapM (evalLitAux fuel)).map Value.slice
              else none
            | '{' :: r =>
              if r.getLast? = some '}' then
                if TrimSpace r.dropLast = [] then some (Value.map [])
                else
                  ((splitTop ',' r.dropLast).mapM (fun e =>
                    match splitTop ':' e with
                    | k :: v :: rest =>
                      match parseKey (TrimSpace k),
                            evalLitAux fuel (List.intercalate [':'] (v :: rest)) with
                      | some key, some val => some (key, val)
                      | _, _ => none
                    | _ => none)).map Value.map
              else none
            | _ => none

/-- The literal evaluator on a token. -/
def evalLit (t : Str) : Option Value := evalLitAux (t.length + 1) t

/-! ## Reference tokenization (specification, section 4.1) -/

/-- One of the three separator characters: space, comma, colon. -/
def isSep (c : Char) : Bool := decide (c = ' ' ∨ c = ',' ∨ c = ':')

/-- Bracket depth after one more character: up on an opening bracket, down (not below
zero) on a closing one. -/
def refDepthStep (d : Nat) (c : Char) : Nat :=
  if c = '{' ∨ c = '[' then d + 1 else if c = '}' ∨ c = ']' then d - 1 else d

/-- Bracket depth after the text `pre`. -/
def refDepth (pre : Str) : Nat := pre.foldl refDepthStep 0

/-- Quote flag after one more character: toggled by either quote character. -/
def refQuoteStep (q : Bool) (c : Char) : Bool :=
  if c = chApos ∨ c = chQuote then !q else q

/-- Quote flag after the text `pre`. -/
def refQuote (pre : Str) : Bool := pre.foldl refQuoteStep false

/-- The character `c`, met after the text `pre`, is a boundary: a separator at depth 0
outside quotes. -/
def refBoundary (pre : Str) (c : Char) : Bool :=
  isSep c && decide (refDepth pre = 0) && !refQuote pre

/-- Runs of non-boundary characters of the text that follows `pre`, the empty runs
included; `cur` is the run being collected. -/
def refRunsAux : Str → Str → Str → List Str
  | _, cur, [] => [cur]
  | pre, cur, c :: cs =>
    if refBoundary pre c then cur :: refRunsAux (pre ++ [c]) [] cs
    else refRunsAux (pre ++ [c]) (cur ++ [c]) cs

/-- The reference tokenization: the maximal runs of non-boundary characters, in order,
with only the empty runs discarded. -/
def refTokenize (text : Str) : List Str :=
  (refRunsAux [] [] text).filter (fun t => decide (t ≠ []))

/-- Predicate `Tiling ok afterTok pre rest toks`: the text `rest`, which follows `pre`,
consists of the tokens `toks` in this order and of single characters around them (gap
characters), each of which satisfies `ok` together with the text that precedes it.  Two
tokens never touch: when `afterTok` is true a token has just ended, and `rest` is empty or
starts with a gap character. -/
inductive Tiling (ok : Str → Char → Prop) : Bool → Str → Str → List Str → Prop
  | done (afterTok : Bool) (pre : Str) : Tiling ok afterTok pre [] []
  | gap (afterTok : Bool) (pre : Str) (c : Char) (rest : Str) (toks : List Str) :
      ok pre c → Tiling ok false (pre ++ [c]) rest toks →
      Tiling ok afterTok pre (c :: rest) toks
  | tok (pre t rest : Str) (toks : List Str) :
      t ≠ [] → Tiling ok true (pre ++ t) rest toks →
      Tiling ok false pre (t ++ rest) (t :: toks)

/-- A character outside the tokens as the tokenizer contract words it: a separator met at
depth 0 outside quotes. -/
def gapStated (pre : Str) (c : Char) : Prop :=
  isSep c = true ∧ refDepth pre = 0 ∧ refQuote pre = false

/-- A character outside the tokens as the code leaves it: a separator or a white-space
character, met at depth 0 outside quotes. -/
def gapActual (pre : Str) (c : Char) : Prop :=
  (isSep c = true ∨ isSpace c = true) ∧ refDepth pre = 0 ∧ refQuote pre = false

/-- The tokens occur in the text one after the other, without overlap. -/
def InOrder : List Str → Str → Prop
  | [], _ => True
  | t :: ts, text => ∃ pre post, text = pre ++ t ++ post ∧ InOrder ts post

/-- The captured variables of the closure after it has been called on every character of
`pre`. -/
def stateOf (pre : Str) : SplitState :=
  { canSplit := decide (refDepth pre = 0), inString := refQuote pre, lvl := refDepth pre }

/-- The name that the placeholder token `w` declares. -/
def declaredName (w : Str) : Str := (extractVar w 0).Name

/-- The kind that the placeholder token `w` declares. -/
def declaredKind (w : Str) : Kind := (extractVar w 0).expectedKind

/-! ## Example texts -/

/-- The format of the example program: `${command:String}: ${args:Int}, name:${n:String}`. -/
def exampleFormat : Str := "$\x7bcommand:String\x7d: $\x7bargs:Int\x7d, name:$\x7bn:String\x7d".toList

/-- An input line for `exampleFormat`: `run: 3, name:bob`. -/
def exampleLine : Str := "run: 3, name:bob".toList

/-- The placeholder token `${n:Int}`. -/
def phInt : Str := "$\x7bn:Int\x7d".toList

/-- The placeholder token `${xs:Array}`. -/
def phArray : Str := "$\x7bxs:Array\x7d".toList

/-- The text `a`, tab, `b` with a space on either side of the tab. -/
def tabText : Str := ['a', ' ', Char.ofNat 9, ' ', 'b']

/-! ## Reference descriptions of the results of `Input.Read` -/

instance : Inhabited Value := ⟨Value.nil⟩

instance : Inhabited Var :=
  ⟨{ Pos := 0, Name := [], fmtValue := [], expectedKind := Kind.Null, Value := Value.nil }⟩

/-- What a format token contributes to the normalized format: a literal token itself, a
placeholder token the format symbol of its declared kind. -/
def fmtToken (w : Str) : Str := if isVar w then KindFmtSymbol (declaredKind w) else w

/-- What a format token adds to the counter of matched tokens when it meets the evaluated
input token `o`: an Array placeholder 1, any other placeholder 0, a literal token 1 when it
equals `o`. -/
def matchedOne (w : Str) (o : Value) : Nat :=
  if isVar w then (if declaredKind w = Kind.Array then 1 else 0)
  else (if strEqAny w o then 1 else 0)

/-- The value that a placeholder of declared kind `k` binds when it meets the evaluated
input token `o`: for the kind Array the first element of a list that has one, in every
other case `o` itself. -/
def bindingOf (k : Kind) (o : Value) : Value :=
  if k = Kind.Array then
    match o with
    | .slice (y :: _) => y
    | _ => o
  else o

/-- The `Var` that the placeholder token `w` leaves in the table when it is the `pos`-th
placeholder of the format (counted from 0) and meets the evaluated input token `o`. -/
def varOf (w : Str) (pos : Nat) (o : Value) : Var :=
  { Pos := pos, Name := declaredName w, fmtValue := KindFmtSymbol (declaredKind w),
    expectedKind := declaredKind w, Value := bindingOf (declaredKind w) o }

/-- The placeholder token `w` at index `x` of `words` is the last one that declares its
name. -/
def LastDecl (words : List Str) (x : Nat) (w : Str) : Prop :=
  words[x]? = some w ∧ isVar w = true ∧
  ∀ (y : Nat) (w1 : Str), x < y → words[y]? = some w1 → isVar w1 = true →
    declaredName w1 ≠ declaredName w

/-- The text of `body` before its first colon (all of it when there is none). -/
def beforeColon (body : Str) : Str := body.takeWhile (fun c => decide (c ≠ ':'))

/-- The text of `body` after its first colon (empty when there is none). -/
def afterColon (body : Str) : Str := (body.dropWhile (fun c => decide (c ≠ ':'))).drop 1

/-- The placeholder token with the text `body` between the markers. -/
def placeholder (body : Str) : Str := "$\x7b".toList ++ body ++ "\x7d".toList

/-- The kind names that `StringToKind` recognizes. -/
def kindNames : List Str :=
  ["String".toList, "RGBHex".toList, "Null".toList, "Int".toList, "Uint".toList,
   "Byte".toList, "Bool".toList, "Float".toList, "Float32".toList, "Map".toList,
   "Array".toList, "Any".toList]

/-- The eleven kinds of the enumeration. -/
def allKinds : List Kind :=
  [Kind.Null, Kind.Bool, Kind.Int, Kind.Uint, Kind.Float, Kind.Byte, Kind.String, Kind.Map,
   Kind.Array, Kind.Any, Kind.RGBHex]

/-- Reads a display name back: the nine names that `KindString` writes out, and a decimal
numeral for every other kind. -/
def kindOfDisplay (s : Str) : Nat :=
  if s = "RGBHex".toList then Kind.RGBHex
  else if s = "Null".toList then Kind.Null
  else if s = "Int".toList then Kind.Int
  else if s = "Uint32".toList then Kind.Byte
  else if s = "Bool".toList then Kind.Bool
  else if s = "Float".toList then Kind.Float
  else if s = "Map".toList then Kind.Map
  else if s = "Array".toList then Kind.Array
  else if s = "Any".toList then Kind.Any
  else (parseNat s).getD 0

/-- The number that the format tokens `ws`, which start at index `x`, add to the counter of
matched tokens against the evaluated input tokens `outs`. -/
def matchedCount (outs : List Value) : Nat → List Str → Nat
  | _, [] => 0
  | x, w :: ws =>
    (match outs[x]? with
      | some o => matchedOne w o
      | none => 0) + matchedCount outs (x + 1) ws

/-- A format of two Array placeholders: `${xs:Array} ${ys:Array}`. -/
def twoArrays : Str := "$\x7bxs:Array\x7d $\x7bys:Array\x7d".toList

/-- A format that declares the name `a` twice: `${a:Int} ${a:String}`. -/
def twiceA : Str := "$\x7ba:Int\x7d $\x7ba:String\x7d".toList

/-! ## Dynamic types -/

/-- The dynamic type of a Go value is a concrete type: `reflect.TypeOf` never returns an
interface type, so the reflect kind of a value is never `Interface`. -/
def Value.Concrete (v : Value) : Prop := v.reflectKind ≠ some ReflectKind.Interface

/-- One of the two quote characters. -/
def isQuoteChar (c : Char) : Bool := decide (c = chApos ∨ c = chQuote)

/-! ## Template engine (internal/ft/template.go)

The text of a template is a `Str`.  The only writer that the string functions hand to
`ExecuteFunc` is a byte buffer, whose `Write` appends and returns no error; it is modelled
by the text written so far.  The byte counts that the functions return next to the error
are dropped by every string function and are not modelled. -/

/-- Go `bytes.Index(s, sep)`: the position of the first occurrence of `sep` in `s`, `none`
for the result -1. -/
def bytesIndex : Str → Str → Option Nat
  | [], sep => if sep = [] then some 0 else none
  | c :: t, sep =>
    if sep.isPrefixOf (c :: t) then some 0 else (bytesIndex t sep).map (fun n => n + 1)

/-- Worker of `bytesCount`: the loop of Go `bytes.Count` for a non-empty separator. -/
def bytesCountAux (sep : Str) : Nat → Str → Nat
  | 0, _ => 0
  | fuel + 1, s =>
    match bytesIndex s sep with
    | none => 0
    | some i => 1 + bytesCountAux sep fuel (s.drop (i + sep.length))

/-- Go `bytes.Count(s, sep)`: the number of non-overlapping occurrences of `sep` in `s`
(one more than the number of code points for the empty separator). -/
def bytesCount (s sep : Str) : Nat :=
  if sep = [] then s.length + 1 else bytesCountAux sep (s.length + 1) s

/-- What stops a template function: a panic, the error that `Reset` returns, or a loop
that does not end. -/
inductive TplFault where
  | emptyStartTag
  | emptyEndTag
  | noEndTag (rest : Str)
  | unexpectedValue (tag : Str)
  | unexpectedError (err : Str)
  | indexOutOfRange
  | noTermination
  deriving DecidableEq

/-- Go `TagFunc`, by what a call on a tag writes to the writer and the error it returns. -/
abbrev TagFunc := Str → Str × Option Str

/-- A value of the substitution map, by dynamic type: nil, `[]byte`, `string`, `TagFunc`,
or any other type. -/
inductive TplValue where
  | nil
  | bytes (v : Str)
  | str (v : Str)
  | func (f : TagFunc)
  | other

/-- Go `map[string]interface{}` by its lookup: `none` for a missing key. -/
abbrev TplMap := Str → Option TplValue

/-- A callback of `ExecuteFunc` with the writer made explicit: from the text written so
far and the tag to the text written afterwards and the returned error, or a panic. -/
abbrev TagWriter := Str → Str → Except TplFault (Str × Option Str)

/-- Function `stdTagFunc` (template.go 464-479). -/
def stdTagFunc (w : Str) (tag : Str) (m : TplMap) : Except TplFault (Str × Option Str) :=
  match m tag with
  | none => .ok (w, none)
  | some .nil => .ok (w, none)
  | some (.bytes value) => .ok (w ++ value, none)
  | some (.str value) => .ok (w ++ value, none)
  | some (.func value) => .ok (w ++ (value tag).1, (value tag).2)
  | some .other => .error (TplFault.unexpectedValue tag)

/-- Function `keepUnknownTagFunc` (template.go 481-511). -/
def keepUnknownTagFunc (w : Str) (startTag endTag tag : Str) (m : TplMap) :
    Except TplFault (Str × Option Str) :=
  match m tag with
  | none => .ok (w ++ startTag ++ tag ++ endTag, none)
  | some .nil => .ok (w, none)
  | some (.bytes value) => .ok (w ++ value, none)
  | some (.str value) => .ok (w ++ value, none)
  | some (.func value) => .ok (w ++ (value tag).1, (value tag).2)
  | some .other => .error (TplFault.unexpectedValue tag)

/-- The loop of the package function `ExecuteFunc` (template.go 25-55) on the rest `s` of
the template, with `w` written so far; the final `w.Write(s)` is included.  The fuel runs
out only on a run that does not end. -/
def ExecuteFuncLoop (a b : Str) (f : TagWriter) : Nat → Str → Str →
    Except TplFault (Str × Option Str)
  | 0, _, _ => .error TplFault.noTermination
  | fuel + 1, s, w =>
    match bytesIndex s a with
    | none => .ok (w ++ s, none)
    | some n =>
      let w1 := w ++ s.take n
      let s1 := s.drop (n + a.length)
      match bytesIndex s1 b with
      | none => .ok (w1 ++ a ++ s1, none)
      | some n2 =>
        match f w1 (s1.take n2) with
        | .error e => .error e
        | .ok (w2, some err) => .ok (w2, some err)
        | .ok (w2, none) => ExecuteFuncLoop a b f fuel (s1.drop (n2 + b.length)) w2

/-- Package function `ExecuteFunc` (template.go 17-56). -/
def ExecuteFunc (template startTag endTag : Str) (w : Str) (f : TagWriter) :
    Except TplFault (Str × Option Str) :=
  ExecuteFuncLoop startTag endTag f (template.length + 1) template w

/-- Package function `ExecuteFuncStringWithErr` (template.go 108-124). -/
def ExecuteFuncStringWithErr (template startTag endTag : Str) (f : TagWriter) :
    Except TplFault (Str × Option Str) :=
  if bytesCount template startTag = 0 then .ok (template, none)
  else
    match ExecuteFunc template startTag endTag [] f with
    | .error e => .error e
    | .ok (_, some err) => .ok ([], some err)
    | .ok (bb, none) => .ok (bb, none)

/-- Package function `ExecuteFuncString` (template.go 97-103): an error becomes a panic. -/
def ExecuteFuncString (template startTag endTag : Str) (f : TagWriter) :
    Except TplFault Str :=
  match ExecuteFuncStringWithErr template startTag endTag f with
  | .error e => .error e
  | .ok (_, some err) => .error (TplFault.unexpectedError err)
  | .ok (s, none) => .ok s

/-- Package function `ExecuteString` (template.go 138-140). -/
def ExecuteString (template startTag endTag : Str) (m : TplMap) : Except TplFault Str :=
  ExecuteFuncString template startTag endTag (fun w tag => stdTagFunc w tag m)

/-- Package function `ExecuteStringStd` (template.go 152-154). -/
def ExecuteStringStd (template startTag endTag : Str) (m : TplMap) : Except TplFault Str :=
  ExecuteFuncString template startTag endTag
    (fun w tag => keepUnknownTagFunc w startTag endTag tag m)

/-- Type `Template` (template.go 158-166), without the user definitions and the buffer
pool. -/
structure Template where
  template : Str
  startTag : Str
  endTag : Str
  texts : List Str
  tags : List Str

/-- The value of `var t Template`. -/
def Template.zero : Template :=
  { template := [], startTag := [], endTag := [], texts := [], tags := [] }

/-- The loop of `(*Template).Reset` (template.go 246-262) on the rest `s` of the template. -/
def Template.ResetLoop (a b : Str) : Nat → Str → List Str → List Str →
    Except TplFault (List Str × List Str)
  | 0, _, _, _ => .error TplFault.noTermination
  | fuel + 1, s, texts, tags =>
    match bytesIndex s a with
    | none => .ok (texts ++ [s], tags)
    | some n =>
      let s1 := s.drop (n + a.length)
      match bytesIndex s1 b with
      | none => .error (TplFault.noEndTag s1)
      | some n2 =>
        Template.ResetLoop a b fuel (s1.drop (n2 + b.length)) (texts ++ [s.take n])
          (tags ++ [s1.take n2])

/-- Method `(*Template).Reset` (template.go 213-265): the template after the call; an
empty tag panics, a start tag without end tag is returned as an error. -/
def Template.Reset (t : Template) (template startTag endTag : Str) :
    Except TplFault Template :=
  let t1 : Template :=
    { t with template := template, startTag := startTag, endTag := endTag, texts := [],
             tags := [] }
  if startTag = [] then .error TplFault.emptyStartTag
  else if endTag = [] then .error TplFault.emptyEndTag
  else if bytesCount template startTag = 0 then .ok t1
  else
    match Template.ResetLoop startTag endTag (template.length + 1) template [] [] with
    | .error e => .error e
    | .ok (texts, tags) => .ok { t1 with texts := texts, tags := tags }

/-- Function `NewTemplate` (template.go 189-196). -/
def NewTemplate (template startTag endTag : Str) : Except TplFault Template :=
  Template.Reset Template.zero template startTag endTag

/-- The loop `for i := 0; i < n; i++` of `(*Template).ExecuteFunc` (template.go 313-325)
with `k` iterations left, at index `i`. -/
def Template.ExecuteFuncLoop (t : Template) (f : TagWriter) : Nat → Nat → Str →
    Except TplFault (Str × Option Str)
  | 0, _, w => .ok (w, none)
  | k + 1, i, w =>
    match t.texts[i]? with
    | none => .error TplFault.indexOutOfRange
    | some text =>
      match t.tags[i]? with
      | none => .error TplFault.indexOutOfRange
      | some tag =>
        match f (w ++ text) tag with
        | .error e => .error e
        | .ok (w2, some err) => .ok (w2, some err)
        | .ok (w2, none) => Template.ExecuteFuncLoop t f k (i + 1) w2

/-- Method `(*Template).ExecuteFunc` (template.go 304-329). -/
def Template.ExecuteFunc (t : Template) (w : Str) (f : TagWriter) :
    Except TplFault (Str × Option Str) :=
  if t.texts.length = 0 then .ok (w ++ t.template, none)
  else
    let n := t.texts.length - 1
    match Template.ExecuteFuncLoop t f n 0 w with
    | .error e => .error e
    | .ok (w1, some err) => .ok (w1, some err)
    | .ok (w1, none) =>
      match t.texts[n]? with
      | none => .error TplFault.indexOutOfRange
      | some text => .ok (w1 ++ text, none)

/-- Method `(*Template).ExecuteFuncStringWithErr` (template.go 423-434). -/
def Template.ExecuteFuncStringWithErr (t : Template) (f : TagWriter) :
    Except TplFault (Str × Option Str) :=
  match Template.ExecuteFunc t [] f with
  | .error e => .error e
  | .ok (_, some err) => .ok ([], some err)
  | .ok (bb, none) => .ok (bb, none)

/-- Method `(*Template).ExecuteFuncString` (template.go 408-414). -/
def Template.ExecuteFuncString (t : Template) (f : TagWriter) : Except TplFault Str :=
  match Template.ExecuteFuncStringWithErr t f with
  | .error e => .error e
  | .ok (_, some err) => .error (TplFault.unexpectedError err)
  | .ok (s, none) => .ok s

/-- Method `(*Template).ExecuteString` (template.go 446-448). -/
def Template.ExecuteString (t : Template) (m : TplMap) : Except TplFault Str :=
  Template.ExecuteFuncString t (fun w tag => stdTagFunc w tag m)

/-- The texts and the values of the tags written in turn: what both engines produce from
the parsed template. -/
def render (f : TagWriter) : List Str → List Str → Str → Except TplFault (Str × Option Str)
  | [], _, w => .ok (w, none)
  | [text], _, w => .ok (w ++ text, none)
  | text :: _, [], w => .ok (w ++ text, none)
  | text :: texts, tag :: tags, w =>
    match f (w ++ text) tag with
    | .error e => .error e
    | .ok (w2, some err) => .ok (w2, some err)
    | .ok (w2, none) => render f texts tags w2

/-- The empty substitution map. -/
def emptyMap : TplMap := fun _ => none

/-- A substitution map with the single key `k`, bound to the string `V`. -/
def mapK : TplMap := fun tag => if tag = ['k'] then some (TplValue.str ['V']) else none

/-- Predicate `Layout canStart pre rest toks`: the text `rest`, which follows `pre`, is
laid out as the code cuts it.  It consists of boundary characters (a separator met at
depth 0 outside quotes) and, between two boundaries or a boundary and an end of the text,
of runs of two sorts: a discarded run, all of whose characters are white space, are no
separators and are met at depth 0 outside quotes; and a token of `toks`, which has a
character that is not white space and no character that is a boundary where it stands.
The tokens are `toks`, in this order.  A run starts only where `canStart` is true, which
is at position `pre` of the top call and after a boundary character. -/
inductive Layout : Bool → Str → Str → List Str → Prop
  | done (canStart : Bool) (pre : Str) : Layout canStart pre [] []
  | sep (canStart : Bool) (pre : Str) (c : Char) (rest : Str) (toks : List Str) :
      gapStated pre c → Layout true (pre ++ [c]) rest toks →
      Layout canStart pre (c :: rest) toks
  | dropped (pre run rest : Str) (toks : List Str) :
      run ≠ [] →
      (∀ (a : Str) (c : Char) (b : Str), run = a ++ c :: b →
        isSpace c = true ∧ isSep c = false ∧
        refDepth (pre ++ a) = 0 ∧ refQuote (pre ++ a) = false) →
      Layout false (pre ++ run) rest toks →
      Layout true pre (run ++ rest) toks
  | tok (pre t rest : Str) (toks : List Str) :
      (∃ c ∈ t, isSpace c = false) →
      (∀ (a : Str) (c : Char) (b : Str), t = a ++ c :: b →
        refBoundary (pre ++ a) c = false) →
      Layout false (pre ++ t) rest toks →
      Layout true pre (t ++ rest) (t :: toks)

/-- The tags that the loop of `ExecuteFunc` cuts out of the rest `s` of a template, in
order: after each start tag the text up to the next end tag; the scan goes on behind that
end tag and stops at a start tag without end tag. -/
def tagsLoop (a b : Str) : Nat → Str → List Str
  | 0, _ => []
  | fuel + 1, s =>
    match bytesIndex s a with
    | none => []
    | some n =>
      let s1 := s.drop (n + a.length)
      match bytesIndex s1 b with
      | none => []
      | some n2 => s1.take n2 :: tagsLoop a b fuel (s1.drop (n2 + b.length))

/-- The tags that occur in a template: those that `ExecuteFunc` hands to its callback
when every call returns without error, and the field `tags` of the parsed template when
`NewTemplate` succeeds. -/
def templateTags (template startTag endTag : Str) : List Str :=
  tagsLoop startTag endTag (template.length + 1) template

/-- The format `${xs:Array} b`. -/
def arrayThenWord : Str := "$\x7bxs:Array\x7d b".toList

/-! ## Placeholder extraction: the indices are in range -/

theorem stringsSplitAux_length_pos (sep : Char) (s : Str) :
    ∀ cur : Str, 1 ≤ (stringsSplitAux sep cur s).length := by
  induction s with
  | nil => intro cur; simp [stringsSplitAux]
  | cons c cs ih =>
    intro cur
    by_cases h : c = sep
    · simp [stringsSplitAux, h]
    · simpa [stringsSplitAux, h] using ih (cur ++ [c])

theorem stringsSplitAux_length (sep : Char) (s : Str) :
    ∀ cur : Str, sep ∈ s → 2 ≤ (stringsSplitAux sep cur s).length := by
  induction s with
  | nil => intro cur h; simp at h
  | cons c cs ih =>
    intro cur h
    by_cases hc : c = sep
    · have := stringsSplitAux_length_pos sep cs []
      simp only [stringsSplitAux, hc, if_true, List.length_cons]
      omega
    · have hm : sep ∈ cs := by
        rcases List.mem_cons.mp h with h1 | h1
        · exact absurd h1.symm hc
        · exact h1
      simpa [stringsSplitAux, hc] using ih (cur ++ [c]) hm

/-- The text splits into at least two pieces when it contains the separator, so `toks[0]`
and `toks[1]` in `extractVar` are in range. -/
theorem stringsSplit_length (v : Str) (sep : Char) (h : v.contains sep = true) :
    2 ≤ (stringsSplit v sep).length := by
  have hm : sep ∈ v := by simpa using h
  exact stringsSplitAux_length sep v [] hm

/-! ## Tokenizer: simulation of the closure by the reference scan -/

theorem refDepth_snoc (pre : Str) (c : Char) :
    refDepth (pre ++ [c]) = refDepthStep (refDepth pre) c := by
  simp [refDepth, List.foldl_append]

theorem refQuote_snoc (pre : Str) (c : Char) :
    refQuote (pre ++ [c]) = refQuoteStep (refQuote pre) c := by
  simp [refQuote, List.foldl_append]

theorem isSep_not_bracket (c : Char) (h : isSep c = true) :
    c ≠ '{' ∧ c ≠ '[' ∧ c ≠ '}' ∧ c ≠ ']' ∧ c ≠ chApos ∧ c ≠ chQuote := by
  simp only [isSep, decide_eq_true_eq] at h
  rcases h with h | h | h <;> subst h <;> decide

theorem isSpace_not_bracket (c : Char) (h : isSpace c = true) :
    c ≠ '{' ∧ c ≠ '[' ∧ c ≠ '}' ∧ c ≠ ']' ∧ c ≠ chApos ∧ c ≠ chQuote := by
  refine ⟨?_, ?_, ?_, ?_, ?_, ?_⟩ <;> (intro hc; subst hc; revert h; decide)

theorem state_keep (pre : Str) (c : Char)
    (h : c ≠ '{' ∧ c ≠ '[' ∧ c ≠ '}' ∧ c ≠ ']' ∧ c ≠ chApos ∧ c ≠ chQuote) :
    refDepth (pre ++ [c]) = refDepth pre ∧ refQuote (pre ++ [c]) = refQuote pre := by
  obtain ⟨h1, h2, h3, h4, h5, h6⟩ := h
  simp [refDepth_snoc, refQuote_snoc, refDepthStep, refQuoteStep, h1, h2, h3, h4, h5, h6]

theorem splitFn_stateOf (pre : Str) (c : Char) :
    splitFn (stateOf pre) c = (stateOf (pre ++ [c]), refBoundary pre c) := by
  by_cases hs : isSep c = true
  · obtain ⟨h1, h2, h3, h4, h5, h6⟩ := isSep_not_bracket c hs
    have hk := state_keep pre c ⟨h1, h2, h3, h4, h5, h6⟩
    have hs2 : (c = ' ' ∨ c = ',' ∨ c = ':') := by simpa [isSep] using hs
    simp only [splitFn, stateOf, refBoundary, hk.1, hk.2, h1, h2, h3, h4, h5, h6, hs, hs2,
      or_self, if_false, ite_false]
    by_cases hd : refDepth pre = 0 <;> simp [hd]
  · have hs2 : ¬ (c = ' ' ∨ c = ',' ∨ c = ':') := by simpa [isSep] using hs
    have hb : refBoundary pre c = false := by simp [refBoundary, hs]
    rw [hb]
    simp only [splitFn, stateOf, refDepth_snoc, refQuote_snoc, refDepthStep, refQuoteStep]
    by_cases ho : (c = '{' ∨ c = '[')
    · by_cases hq : (c = chApos ∨ c = chQuote) <;> simp [ho, hq, hs2]
    · by_cases hc : (c = '}' ∨ c = ']')
      · by_cases hq : (c = chApos ∨ c = chQuote) <;>
          by_cases hd : refDepth pre = 0 <;> simp [ho, hc, hq, hs2, hd] <;>
          (have hp : 0 < refDepth pre := by omega) <;> simp [hp]
      · by_cases hq : (c = chApos ∨ c = chQuote) <;>
          by_cases hd : refDepth pre = 0 <;> simp [ho, hc, hq, hs2, hd]

theorem stateOf_nil : stateOf [] = SplitState.init := by
  simp [stateOf, SplitState.init, refDepth, refQuote]

/-- The fields cut with the closure are the non-empty reference runs. -/
theorem FieldsFuncAux_eq_refRuns (rest : Str) :
    ∀ pre cur : Str, FieldsFuncAux splitFn (stateOf pre) cur rest =
      (refRunsAux pre cur rest).filter (fun t => decide (t ≠ [])) := by
  induction rest with
  | nil =>
    intro pre cur
    by_cases hc : cur = [] <;> simp [FieldsFuncAux, refRunsAux, hc]
  | cons c cs ih =>
    intro pre cur
    simp only [FieldsFuncAux, refRunsAux, splitFn_stateOf]
    by_cases hb : refBoundary pre c = true
    · by_cases hc : cur = [] <;> simp [hb, hc, ih, List.filter_cons]
    · simp [hb, ih]

theorem FieldsFunc_eq_refTokenize (text : Str) :
    FieldsFunc text splitFn SplitState.init = refTokenize text := by
  simp only [FieldsFunc, refTokenize, ← stateOf_nil, FieldsFuncAux_eq_refRuns]

theorem TrimSpace_eq_nil_iff (t : Str) : TrimSpace t = [] ↔ ∀ c ∈ t, isSpace c = true := by
  simp only [TrimSpace, List.reverse_eq_nil_iff, List.dropWhile_eq_nil_iff, List.mem_reverse]
  constructor
  · intro h
    have hd : t.dropWhile isSpace = [] := by
      by_contra hne
      have h1 := List.head_dropWhile_not isSpace t hne
      have h2 := h _ (List.head_mem hne)
      simp [h2] at h1
    exact List.dropWhile_eq_nil_iff.mp hd
  · intro h c hc
    exact h c ((List.dropWhile_sublist isSpace).subset hc)

theorem TrimSpace_ne_nil_iff (t : Str) :
    TrimSpace t ≠ [] ↔ t.any (fun c => !isSpace c) = true := by
  rw [Ne, TrimSpace_eq_nil_iff]
  simp

/-! ## Tokenizer: where the text is cut -/

theorem Tiling.mono {ok1 ok2 : Str → Char → Prop} (h : ∀ p c, ok1 p c → ok2 p c)
    {f : Bool} {pre rest : Str} {toks : List Str} (t : Tiling ok1 f pre rest toks) :
    Tiling ok2 f pre rest toks := by
  induction t with
  | done f pre => exact Tiling.done f pre
  | gap f pre c rest toks hok _ ih => exact Tiling.gap f pre c rest toks (h _ _ hok) ih
  | tok pre t rest toks hne _ ih => exact Tiling.tok pre t rest toks hne ih

/-- A run of white space met at depth 0 outside quotes consists of gap characters. -/
theorem Tiling.spaces (rest : Str) (toks : List Str) (cur : Str) :
    ∀ pre : Str, refDepth pre = 0 → refQuote pre = false →
      (∀ c ∈ cur, isSpace c = true) →
      (∀ f, Tiling gapActual f (pre ++ cur) rest toks) →
      ∀ f, Tiling gapActual f pre (cur ++ rest) toks := by
  induction cur with
  | nil => intro pre _ _ _ h f; simpa using h f
  | cons c cs ih =>
    intro pre hd hq hsp h f
    have hc : isSpace c = true := hsp c (List.mem_cons_self _ _)
    have hk := state_keep pre c (isSpace_not_bracket c hc)
    refine Tiling.gap f pre c (cs ++ rest) toks ⟨Or.inr hc, hd, hq⟩ ?_
    apply ih (pre ++ [c]) (hk.1.trans hd) (hk.2.trans hq)
      (fun x hx => hsp x (List.mem_cons_of_mem _ hx))
    intro f1
    simpa using h f1

/-- A closed field followed by a tiling: kept as a token, or dropped as white space. -/
theorem Tiling.field (pre cur rest : Str) (toks : List Str)
    (hd : refDepth pre = 0) (hq : refQuote pre = false)
    (h : ∀ f, Tiling gapActual f (pre ++ cur) rest toks) :
    Tiling gapActual false pre (cur ++ rest)
      (if TrimSpace cur ≠ [] then cur :: toks else toks) := by
  by_cases hk : TrimSpace cur = []
  · simp only [hk, ne_eq, not_true_eq_false, if_false]
    exact Tiling.spaces rest toks cur pre hd hq ((TrimSpace_eq_nil_iff cur).mp hk) h false
  · simp only [hk, ne_eq, not_false_eq_true, if_true]
    have hne : cur ≠ [] := by
      intro h0; subst h0; exact hk (by simp [TrimSpace])
    exact Tiling.tok pre cur rest toks hne (h true)

theorem Tiling.scan (rest : Str) :
    ∀ pre cur : Str, refDepth pre = 0 → refQuote pre = false →
      Tiling gapActual false pre (cur ++ rest)
        ((FieldsFuncAux splitFn (stateOf (pre ++ cur)) cur rest).filter
          (fun t => decide (TrimSpace t ≠ []))) := by
  induction rest with
  | nil =>
    intro pre cur hd hq
    have h := Tiling.field pre cur [] [] hd hq (fun f => Tiling.done f _)
    by_cases hc : cur = []
    · subst hc; simpa [FieldsFuncAux, TrimSpace] using h
    · by_cases hk : TrimSpace cur = [] <;> simpa [FieldsFuncAux, hc, hk] using h
  | cons c cs ih =>
    intro pre cur hd hq
    simp only [FieldsFuncAux, splitFn_stateOf]
    by_cases hb : refBoundary (pre ++ cur) c = true
    · have hb2 := hb
      simp only [refBoundary, Bool.and_eq_true, decide_eq_true_eq, Bool.not_eq_true',
        ] at hb2
      obtain ⟨⟨hs, hd2⟩, hq2⟩ := hb2
      have hk := state_keep (pre ++ cur) c (isSep_not_bracket c hs)
      have h1 := ih (pre ++ cur ++ [c]) [] (hk.1.trans hd2) (hk.2.trans hq2)
      simp only [List.append_nil, List.nil_append] at h1
      have h2 : ∀ f, Tiling gapActual f (pre ++ cur) (c :: cs) _ :=
        fun f => Tiling.gap f (pre ++ cur) c cs _ ⟨Or.inl hs, hd2, hq2⟩ h1
      have h3 := Tiling.field pre cur (c :: cs) _ hd hq h2
      by_cases hc : cur = []
      · subst hc
        have hb1 : refBoundary pre c = true := by simpa using hb
        simpa [hb1, TrimSpace] using h3
      · by_cases hkk : TrimSpace cur = [] <;> simpa [hb, hc, hkk, List.filter_cons] using h3
    · have h1 := ih pre (cur ++ [c]) hd hq
      simpa [hb, List.append_assoc] using h1

/-- The text is tiled by the tokens of `Split` and by gap characters. -/
theorem Split_tiling (text : Str) : Tiling gapActual false [] text (Split text) := by
  have h := Tiling.scan text [] [] (by simp [refDepth]) (by simp [refQuote])
  simpa [Split, FieldsFunc, stateOf_nil] using h

theorem InOrder.cons_text (c : Char) :
    ∀ (toks : List Str) (text : Str), InOrder toks text → InOrder toks (c :: text) := by
  intro toks text h
  cases toks with
  | nil => trivial
  | cons t ts =>
    obtain ⟨pre, post, he, ho⟩ := h
    exact ⟨c :: pre, post, by simp [he], ho⟩

theorem Tiling.inOrder {ok : Str → Char → Prop} {f : Bool} {pre rest : Str}
    {toks : List Str} (t : Tiling ok f pre rest toks) : InOrder toks rest := by
  induction t with
  | done f pre => trivial
  | gap f pre c rest toks _ _ ih => exact InOrder.cons_text c toks rest ih
  | tok pre t rest toks _ _ ih => exact ⟨[], rest, by simp, ih⟩

/-- In a tiling every character of the text lies in a token or is a gap character. -/
theorem Tiling.mem_cases {ok : Str → Char → Prop} {f : Bool} {pre rest : Str}
    {toks : List Str} (t : Tiling ok f pre rest toks) :
    ∀ c ∈ rest, (∃ t ∈ toks, c ∈ t) ∨ ∃ p, ok p c := by
  induction t with
  | done f pre => intro c hc; simp at hc
  | gap f pre c0 rest toks hok _ ih =>
    intro c hc
    rcases List.mem_cons.mp hc with h | h
    · subst h; exact Or.inr ⟨pre, hok⟩
    · exact ih c h
  | tok pre t rest toks _ _ ih =>
    intro c hc
    rcases List.mem_append.mp hc with h | h
    · exact Or.inl ⟨t, List.mem_cons_self _ _, h⟩
    · rcases ih c h with ⟨t1, ht1, hc1⟩ | h2
      · exact Or.inl ⟨t1, List.mem_cons_of_mem _ ht1, hc1⟩
      · exact Or.inr h2

/-- In a tiling the character at any position is a gap character there, or the position
lies inside an occurrence of a token. -/
theorem Tiling.position {ok : Str → Char → Prop} {f : Bool} {pre rest : Str}
    {toks : List Str} (t : Tiling ok f pre rest toks) :
    ∀ (p : Str) (c : Char) (r : Str), rest = p ++ c :: r →
      ok (pre ++ p) c ∨
      ∃ a t b, rest = a ++ t ++ b ∧ t ∈ toks ∧ a.length ≤ p.length ∧
        p.length < a.length + t.length := by
  induction t with
  | done f pre => intro p c r h; simp at h
  | gap f pre c0 rest toks hok _ ih =>
    intro p c r h
    cases p with
    | nil =>
      simp only [List.nil_append, List.cons.injEq] at h
      obtain ⟨h1, _⟩ := h
      subst h1
      left; simpa using hok
    | cons d p1 =>
      simp only [List.cons_append, List.cons.injEq] at h
      obtain ⟨h1, h2⟩ := h
      subst h1
      rcases ih p1 c r h2 with h3 | ⟨a, t, b, he, ht, hl1, hl2⟩
      · left; simpa [List.append_assoc] using h3
      · right
        exact ⟨c0 :: a, t, b, by simp [he], ht, by simp; omega, by simp; omega⟩
  | tok pre t rest toks hne _ ih =>
    intro p c r h
    by_cases hlt : p.length < t.length
    · right
      exact ⟨[], t, rest, by simp, List.mem_cons_self _ _, by simp, by simpa using hlt⟩
    · have hle : t.length ≤ p.length := by omega
      obtain ⟨p1, hp1, hr1⟩ : ∃ p1, p = t ++ p1 ∧ rest = p1 ++ c :: r := by
        rcases List.append_eq_append_iff.mp h with ⟨a1, ha1, ha2⟩ | ⟨c1, hc1, hc2⟩
        · exact ⟨a1, ha1, ha2⟩
        · have hl := congrArg List.length hc1
          simp only [List.length_append] at hl
          have : c1 = [] := List.length_eq_zero.mp (by omega)
          subst this
          refine ⟨[], by simpa using hc1.symm, ?_⟩
          simpa using hc2.symm
      subst hp1
      rcases ih p1 c r hr1 with h3 | ⟨a, t1, b, he, ht, hl1, hl2⟩
      · left; simpa [List.append_assoc] using h3
      · right
        refine ⟨t ++ a, t1, b, by simp [he, List.append_assoc], List.mem_cons_of_mem _ ht, ?_, ?_⟩
        · simp only [List.length_append]; omega
        · simp only [List.length_append]; omega

/-! ## Matching: the loop of `Input.Read` -/

theorem SplitArgs_length (ev : Str → Option Value) (value : Str) :
    (SplitArgs ev value).length = (Split value).length := by
  simp [SplitArgs]

theorem extractVar_Name (w : Str) (p : Nat) : (extractVar w p).Name = declaredName w := by
  simp only [extractVar, declaredName]; split <;> rfl

theorem extractVar_expectedKind (w : Str) (p : Nat) :
    (extractVar w p).expectedKind = declaredKind w := by
  simp only [extractVar, declaredKind]; split <;> rfl

theorem extractVar_fmtValue (w : Str) (p : Nat) :
    (extractVar w p).fmtValue = KindFmtSymbol (declaredKind w) := by
  simp only [extractVar, declaredKind]; split <;> rfl

theorem extractVar_Pos (w : Str) (p : Nat) : (extractVar w p).Pos = p := by
  simp only [extractVar]; split <;> rfl

theorem indexAny_eq_ok {outs : List Value} {x : Nat} {o : Value}
    (h : indexAny outs x = .ok o) : outs[x]? = some o := by
  unfold indexAny at h
  split at h
  · rename_i v hv; cases h; exact hv
  · cases h

theorem indexAny_out_of_range (outs : List Value) (x : Nat) (h : outs.length ≤ x) :
    indexAny outs x = .error (Fault.indexOutOfRange x outs.length) := by
  have : outs[x]? = none := List.getElem?_eq_none h
  simp [indexAny, this]

/-- Every branch of the loop body reads `outs[x]` first. -/
theorem readStep_out_of_range (outs : List Value) (x : Nat) (w : Str) (s : ReadState)
    (h : outs.length ≤ x) :
    readStep outs x w s = .error (Fault.indexOutOfRange x outs.length) := by
  have hi := indexAny_out_of_range outs x h
  unfold readStep
  split
  · simp only []
    split <;> simp [hi]
  · simp [hi]

/-- What a successful iteration on a literal token does. -/
theorem readStep_literal {outs : List Value} {x : Nat} {w : Str} {s s1 : ReadState}
    (hv : isVar w = false) (h : readStep outs x w s = .ok s1) :
    ∃ o, outs[x]? = some o ∧
      s1 = { s with scores := if strEqAny w o then s.scores + 1 else s.scores,
                    matchers := s.matchers ++ [w] } := by
  simp only [readStep, hv, Bool.false_eq_true, if_false] at h
  cases hi : indexAny outs x with
  | error e => simp [hi] at h
  | ok o =>
    simp only [hi, Except.ok.injEq] at h
    exact ⟨o, indexAny_eq_ok hi, h.symm⟩

/-- What a successful iteration on a placeholder whose kind is not Array does. -/
theorem readStep_var {outs : List Value} {x : Nat} {w : Str} {s s1 : ReadState}
    (hv : isVar w = true) (hk : declaredKind w ≠ Kind.Array)
    (h : readStep outs x w s = .ok s1) :
    ∃ o k, outs[x]? = some o ∧ kindOf o = .ok k ∧
      s1 = { s with score := if declaredKind w = k then s.score + 1 else s.score,
                    vars := s.vars.insert (declaredName w)
                      { Pos := s.cnt, Name := declaredName w,
                        fmtValue := KindFmtSymbol (declaredKind w),
                        expectedKind := declaredKind w, Value := o },
                    matchers := s.matchers ++ [KindFmtSymbol (declaredKind w)],
                    cnt := s.cnt + 1 } := by
  simp only [readStep, hv, if_true, extractVar_expectedKind, hk, if_false] at h
  cases hi : indexAny outs x with
  | error e => simp [hi] at h
  | ok o =>
    cases hko : kindOf o with
    | error e => simp [hi, hko] at h
    | ok k =>
      simp only [hi, hko, Except.ok.injEq, extractVar_Name, extractVar_fmtValue,
        extractVar_Pos, extractVar_expectedKind] at h
      exact ⟨o, k, indexAny_eq_ok hi, hko, h.symm⟩

/-- What a successful iteration on an Array placeholder does. -/
theorem readStep_array {outs : List Value} {x : Nat} {w : Str} {s s1 : ReadState}
    (hv : isVar w = true) (hk : declaredKind w = Kind.Array)
    (h : readStep outs x w s = .ok s1) :
    ∃ o k val, outs[x]? = some o ∧ kindOf o = .ok k ∧
      (if k = Kind.String then Except.ok o else firstOfSlice o) = Except.ok val ∧
      s1 = { s with scores := s.scores + 1,
                    vars := s.vars.insert (declaredName w)
                      { Pos := s.cnt, Name := declaredName w,
                        fmtValue := KindFmtSymbol (declaredKind w),
                        expectedKind := Kind.Array, Value := val },
                    matchers := s.matchers ++ [KindFmtSymbol (declaredKind w)],
                    cnt := s.cnt + 1 } := by
  simp only [readStep, hv, if_true, extractVar_expectedKind, hk] at h
  cases hi : indexAny outs x with
  | error e => simp [hi] at h
  | ok o =>
    cases hko : kindOf o with
    | error e => simp [hi, hko] at h
    | ok k =>
      cases hval : (if k = Kind.String then Except.ok o else firstOfSlice o) with
      | error e => simp [hi, hko, hval] at h
      | ok val =>
        simp only [hi, hko, hval, Except.ok.injEq, extractVar_Name, extractVar_fmtValue,
          extractVar_Pos, extractVar_expectedKind] at h
        exact ⟨o, k, val, indexAny_eq_ok hi, hko, hval, h.symm⟩

theorem readLoop_append (outs : List Value) (ws1 ws2 : List Str) :
    ∀ (x : Nat) (s : ReadState),
      readLoop outs x (ws1 ++ ws2) s =
        match readLoop outs x ws1 s with
        | .error e => .error e
        | .ok s1 => readLoop outs (x + ws1.length) ws2 s1 := by
  induction ws1 with
  | nil => intro x s; simp [readLoop]
  | cons w ws ih =>
    intro x s
    simp only [List.cons_append, readLoop, List.length_cons]
    cases hs : readStep outs x w s with
    | error e => simp
    | ok s1 =>
      have : x + (ws.length + 1) = x + 1 + ws.length := by omega
      rw [this]
      exact ih (x + 1) s1

/-- With fewer input values than format tokens left, the loop ends in a fault. -/
theorem readLoop_short (outs : List Value) (ws : List Str) :
    ∀ (x : Nat) (s : ReadState), x ≤ outs.length → outs.length < x + ws.length →
      ∃ e, readLoop outs x ws s = .error e := by
  induction ws with
  | nil =>
    intro x s h1 h2
    simp only [List.length_nil, Nat.add_zero] at h2
    omega
  | cons w ws ih =>
    intro x s h1 h2
    simp only [readLoop]
    cases hs : readStep outs x w s with
    | error e => exact ⟨e, rfl⟩
    | ok s1 =>
      simp only [List.length_cons] at h2
      have hx : x < outs.length := by
        by_contra hge
        rw [readStep_out_of_range outs x w s (by omega)] at hs
        cases hs
      exact ih (x + 1) s1 (by omega) (by omega)

/-- The counter `scores` grows by at most one per format token. -/
theorem readLoop_scores_le (outs : List Value) (ws : List Str) :
    ∀ (x : Nat) (s s1 : ReadState), readLoop outs x ws s = .ok s1 →
      s1.scores ≤ s.scores + ws.length := by
  induction ws with
  | nil =>
    intro x s s1 h
    simp only [readLoop, Except.ok.injEq] at h
    subst h; simp
  | cons w ws ih =>
    intro x s s1 h
    simp only [readLoop] at h
    cases hs : readStep outs x w s with
    | error e => simp [hs] at h
    | ok s2 =>
      simp only [hs] at h
      have h2 := ih (x + 1) s2 s1 h
      have h3 : s2.scores ≤ s.scores + 1 := by
        by_cases hv : isVar w = true
        · by_cases hk : declaredKind w = Kind.Array
          · obtain ⟨o, k, val, _, _, _, he⟩ := readStep_array hv hk hs
            subst he; simp
          · obtain ⟨o, k, _, _, he⟩ := readStep_var hv hk hs
            subst he; simp
        · obtain ⟨o, _, he⟩ := readStep_literal (by simpa using hv) hs
          subst he; simp only []; split <;> omega
      simp only [List.length_cons]; omega

/-! ### The binding table -/

theorem VarMap.get_insert_self (m : VarMap) (k : Str) (v : Var) :
    (m.insert k v).get k = some v := by
  simp [VarMap.insert, VarMap.get]

theorem find?_filter_ne {β : Type} (m : List (Str × β)) (k n : Str) (h : k ≠ n) :
    (m.filter (fun e => decide (e.1 ≠ k))).find? (fun e => decide (e.1 = n)) =
      m.find? (fun e => decide (e.1 = n)) := by
  induction m with
  | nil => rfl
  | cons e es ih =>
    by_cases he : e.1 = k
    · have hn : ¬ e.1 = n := by rw [he]; exact h
      rw [List.filter_cons_of_neg (by simpa using he),
        List.find?_cons_of_neg _ (by simpa using hn)]
      exact ih
    · rw [List.filter_cons_of_pos (by simpa using he)]
      by_cases hn : e.1 = n
      · rw [List.find?_cons_of_pos _ (by simpa using hn),
          List.find?_cons_of_pos _ (by simpa using hn)]
      · rw [List.find?_cons_of_neg _ (by simpa using hn),
          List.find?_cons_of_neg _ (by simpa using hn)]
        exact ih

theorem VarMap.get_insert_ne (m : VarMap) (k n : Str) (v : Var) (h : k ≠ n) :
    (m.insert k v).get n = m.get n := by
  unfold VarMap.insert VarMap.get
  rw [List.find?_cons_of_neg _ (by simpa using h), find?_filter_ne m k n h]

theorem allGet_All (i : Input) (n : Str) :
    allGet i.All n = (i.Get n).map Var.Value := by
  unfold allGet Input.All Input.Get VarMap.get
  induction i.vars with
  | nil => rfl
  | cons e es ih =>
    by_cases he : e.1 = n
    · rw [List.map_cons, List.find?_cons_of_pos _ (by simpa using he),
        List.find?_cons_of_pos _ (by simpa using he)]
      rfl
    · rw [List.map_cons, List.find?_cons_of_neg _ (by simpa using he),
        List.find?_cons_of_neg _ (by simpa using he)]
      exact ih

/-- An iteration leaves the entry of every name other than the one it declares. -/
theorem readStep_get_other {outs : List Value} {x : Nat} {w : Str} {s s1 : ReadState}
    (n : Str) (h : readStep outs x w s = .ok s1)
    (hn : isVar w = true → declaredName w ≠ n) : s1.vars.get n = s.vars.get n := by
  by_cases hv : isVar w = true
  · by_cases hk : declaredKind w = Kind.Array
    · obtain ⟨o, k, val, _, _, _, he⟩ := readStep_array hv hk h
      subst he; exact VarMap.get_insert_ne _ _ _ _ (hn hv)
    · obtain ⟨o, k, _, _, he⟩ := readStep_var hv hk h
      subst he; exact VarMap.get_insert_ne _ _ _ _ (hn hv)
  · obtain ⟨o, _, he⟩ := readStep_literal (by simpa using hv) h
    subst he; rfl

theorem readLoop_get_other (outs : List Value) (n : Str) (ws : List Str) :
    ∀ (x : Nat) (s s1 : ReadState), readLoop outs x ws s = .ok s1 →
      (∀ w ∈ ws, isVar w = true → declaredName w ≠ n) → s1.vars.get n = s.vars.get n := by
  induction ws with
  | nil =>
    intro x s s1 h _
    simp only [readLoop, Except.ok.injEq] at h
    subst h; rfl
  | cons w ws ih =>
    intro x s s1 h hn
    simp only [readLoop] at h
    cases hs : readStep outs x w s with
    | error e => simp [hs] at h
    | ok s2 =>
      simp only [hs] at h
      rw [ih (x + 1) s2 s1 h (fun w1 hw1 => hn w1 (List.mem_cons_of_mem _ hw1))]
      exact readStep_get_other n hs (hn w (List.mem_cons_self _ _))

/-- The value bound by a placeholder that is not of kind Array and whose name does not
come again later is the evaluated input token at the same index. -/
theorem readLoop_binds (outs : List Value) (ws : List Str) :
    ∀ (x : Nat) (s s1 : ReadState), readLoop outs x ws s = .ok s1 →
      ∀ (j : Nat) (w : Str), ws[j]? = some w → isVar w = true →
        declaredKind w ≠ Kind.Array →
        (∀ (y : Nat) (w1 : Str), j < y → ws[y]? = some w1 → isVar w1 = true →
          declaredName w1 ≠ declaredName w) →
        ∃ o, outs[x + j]? = some o ∧
          (s1.vars.get (declaredName w)).map Var.Value = some o := by
  induction ws with
  | nil => intro x s s1 _ j w hj; simp at hj
  | cons w0 ws ih =>
    intro x s s1 h j w hj hv hk hlast
    simp only [readLoop] at h
    cases hs : readStep outs x w0 s with
    | error e => simp [hs] at h
    | ok s2 =>
      simp only [hs] at h
      cases j with
      | zero =>
        simp only [List.getElem?_cons_zero, Option.some.injEq] at hj
        subst hj
        obtain ⟨o, k, ho, _, he⟩ := readStep_var hv hk hs
        refine ⟨o, by simpa using ho, ?_⟩
        rw [readLoop_get_other outs (declaredName w0) ws (x + 1) s2 s1 h]
        · subst he; simp [VarMap.get_insert_self]
        · intro w1 hw1 hv1
          obtain ⟨y, hy, hy2⟩ := List.getElem_of_mem hw1
          exact hlast (y + 1) w1 (by omega)
            (by simp [List.getElem?_cons_succ, List.getElem?_eq_getElem hy, hy2]) hv1
      | succ j1 =>
        simp only [List.getElem?_cons_succ] at hj
        obtain ⟨o, ho, hb⟩ := ih (x + 1) s2 s1 h j1 w hj hv hk
          (fun y w1 hy hw1 hv1 => hlast (y + 1) w1 (by omega)
            (by simpa [List.getElem?_cons_succ] using hw1) hv1)
        exact ⟨o, by rw [← ho]; congr 1; omega, hb⟩

/-! ## Tokenizer: the exact layout of the tokens -/

/-- White space leaves the bracket depth and the quote flag as they are. -/
theorem state_keep_spaces (a : Str) :
    ∀ pre : Str, (∀ c ∈ a, isSpace c = true) →
      refDepth (pre ++ a) = refDepth pre ∧ refQuote (pre ++ a) = refQuote pre := by
  induction a with
  | nil => intro pre _; simp
  | cons c cs ih =>
    intro pre h
    have hk := state_keep pre c (isSpace_not_bracket c (h c (List.mem_cons_self _ _)))
    have h2 := ih (pre ++ [c]) (fun x hx => h x (List.mem_cons_of_mem _ hx))
    simp only [List.append_assoc, List.singleton_append] at h2
    exact ⟨h2.1.trans hk.1, h2.2.trans hk.2⟩

/-- A closed field followed by a layout: kept as a token, or dropped as white space. -/
theorem Layout.closeField (pre cur rest : Str) (toks : List Str)
    (hd : refDepth pre = 0) (hq : refQuote pre = false)
    (hnb : ∀ (a : Str) (c : Char) (b : Str), cur = a ++ c :: b →
      refBoundary (pre ++ a) c = false)
    (h : ∀ f, Layout f (pre ++ cur) rest toks) :
    Layout true pre (cur ++ rest) (if TrimSpace cur ≠ [] then cur :: toks else toks) := by
  by_cases hk : TrimSpace cur = []
  · simp only [hk, ne_eq, not_true_eq_false, if_false]
    by_cases hc : cur = []
    · subst hc; simpa using h true
    · have hsp := (TrimSpace_eq_nil_iff cur).mp hk
      refine Layout.dropped pre cur rest toks hc ?_ (h false)
      intro a c b he
      have hc1 : isSpace c = true := hsp c (by rw [he]; simp)
      have hst := state_keep_spaces a pre (fun x hx => hsp x (by rw [he]; simp [hx]))
      have hb := hnb a c b he
      have hd1 : refDepth (pre ++ a) = 0 := hst.1.trans hd
      have hq1 : refQuote (pre ++ a) = false := hst.2.trans hq
      refine ⟨hc1, ?_, hd1, hq1⟩
      simpa [refBoundary, hd1, hq1] using hb
  · simp only [hk, ne_eq, not_false_eq_true, if_true]
    have hex : ∃ c ∈ cur, isSpace c = false := by
      by_contra hno
      apply hk
      rw [TrimSpace_eq_nil_iff]
      intro c hc
      by_contra hs
      exact hno ⟨c, hc, by simpa using hs⟩
    exact Layout.tok pre cur rest toks hex hnb (h false)

theorem Layout.scanFields (rest : Str) :
    ∀ pre cur : Str, refDepth pre = 0 → refQuote pre = false →
      (∀ (a : Str) (c : Char) (b : Str), cur = a ++ c :: b →
        refBoundary (pre ++ a) c = false) →
      Layout true pre (cur ++ rest)
        ((FieldsFuncAux splitFn (stateOf (pre ++ cur)) cur rest).filter
          (fun t => decide (TrimSpace t ≠ []))) := by
  induction rest with
  | nil =>
    intro pre cur hd hq hnb
    have h := Layout.closeField pre cur [] [] hd hq hnb (fun f => Layout.done f _)
    by_cases hc : cur = []
    · subst hc; simpa [FieldsFuncAux, TrimSpace] using h
    · by_cases hk : TrimSpace cur = [] <;> simpa [FieldsFuncAux, hc, hk] using h
  | cons c cs ih =>
    intro pre cur hd hq hnb
    simp only [FieldsFuncAux, splitFn_stateOf]
    by_cases hb : refBoundary (pre ++ cur) c = true
    · have hb2 := hb
      simp only [refBoundary, Bool.and_eq_true, decide_eq_true_eq, Bool.not_eq_true',
        ] at hb2
      obtain ⟨⟨hs, hd2⟩, hq2⟩ := hb2
      have hk := state_keep (pre ++ cur) c (isSep_not_bracket c hs)
      have h1 := ih (pre ++ cur ++ [c]) [] (hk.1.trans hd2) (hk.2.trans hq2)
        (fun a x b he => by simp at he)
      simp only [List.append_nil, List.nil_append] at h1
      have h2 : ∀ f, Layout f (pre ++ cur) (c :: cs) _ :=
        fun f => Layout.sep f (pre ++ cur) c cs _ ⟨hs, hd2, hq2⟩ h1
      have h3 := Layout.closeField pre cur (c :: cs) _ hd hq hnb h2
      by_cases hc : cur = []
      · subst hc
        have hb1 : refBoundary pre c = true := by simpa using hb
        simpa [hb1, TrimSpace] using h3
      · by_cases hkk : TrimSpace cur = [] <;> simpa [hb, hc, hkk, List.filter_cons] using h3
    · have hnb2 : ∀ (a : Str) (x : Char) (b : Str), cur ++ [c] = a ++ x :: b →
          refBoundary (pre ++ a) x = false := by
        intro a x b he
        rcases List.eq_nil_or_concat b with hb0 | ⟨b1, y, hb1⟩
        · subst hb0
          have h1 := List.append_inj' he rfl
          obtain ⟨h2, h3⟩ := h1
          simp only [List.cons.injEq, and_true] at h3
          subst h2; subst h3
          simpa using hb
        · subst hb1
          have he2 : cur ++ [c] = (a ++ x :: b1) ++ [y] := by simp [he]
          have h1 := List.append_inj' he2 rfl
          exact hnb a x b1 h1.1
      have h1 := ih pre (cur ++ [c]) hd hq hnb2
      simpa [hb, List.append_assoc] using h1

/-- The text is laid out by `Split` as `Layout` says. -/
theorem Split_layout (text : Str) : Layout true [] text (Split text) := by
  have h := Layout.scanFields text [] [] (by simp [refDepth]) (by simp [refQuote])
    (fun a x b he => by simp at he)
  simpa [Split, FieldsFunc, stateOf_nil] using h

/-- A stretch of text without boundary, followed by more text, goes into the open run. -/
theorem refRunsAux_append_run (s : Str) (rest : Str) :
    ∀ pre cur : Str,
      (∀ (a : Str) (c : Char) (b : Str), s = a ++ c :: b → refBoundary (pre ++ a) c = false) →
      refRunsAux pre cur (s ++ rest) = refRunsAux (pre ++ s) (cur ++ s) rest := by
  induction s with
  | nil => intro pre cur _; simp
  | cons c cs ih =>
    intro pre cur hb
    have h0 : refBoundary pre c = false := by
      have := hb [] c cs rfl
      simpa using this
    have h1 := ih (pre ++ [c]) (cur ++ [c]) (fun r1 x r2 he => by
      have := hb (c :: r1) x r2 (by rw [he]; rfl)
      simpa [List.append_assoc] using this)
    simpa [refRunsAux, h0] using h1

/-- A layout determines the tokens: they are the runs of the reference scan that have a
character other than white space. -/
theorem Layout.runs {f : Bool} {pre rest : Str} {toks : List Str}
    (l : Layout f pre rest toks) :
    ∀ cur : Str, (f = true → cur = []) →
      (refRunsAux pre cur rest).filter (fun t => decide (TrimSpace t ≠ [])) =
        (if TrimSpace cur ≠ [] then [cur] else []) ++ toks := by
  induction l with
  | done f pre =>
    intro cur _
    by_cases hk : TrimSpace cur = [] <;> simp [refRunsAux, hk]
  | sep f pre c rest toks hg _ ih =>
    intro cur _
    obtain ⟨hs, hd, hq⟩ := hg
    have hb : refBoundary pre c = true := by simp [refBoundary, hs, hd, hq]
    have hnil : TrimSpace ([] : Str) = [] := rfl
    have h1 := ih [] (fun _ => rfl)
    rw [if_neg (by simp [hnil]), List.nil_append] at h1
    simp only [refRunsAux, hb, if_true, List.filter_cons, h1]
    by_cases hk : TrimSpace cur = [] <;> simp [hk]
  | dropped pre run rest toks hne hrun _ ih =>
    intro cur hcur
    have hc : cur = [] := hcur rfl
    subst hc
    have hnb : ∀ (a : Str) (c : Char) (b : Str), run = a ++ c :: b →
        refBoundary (pre ++ a) c = false := by
      intro a c b he
      have := (hrun a c b he).2.1
      simp [refBoundary, this]
    have hk : TrimSpace run = [] := by
      rw [TrimSpace_eq_nil_iff]
      intro c hc
      obtain ⟨a, b, he⟩ := List.append_of_mem hc
      exact (hrun a c b he).1
    have hnil : TrimSpace ([] : Str) = [] := rfl
    rw [refRunsAux_append_run run rest pre [] hnb, List.nil_append, ih run (fun h => by cases h),
      if_neg (by simp [hk]), if_neg (by simp [hnil])]
  | tok pre t rest toks hex hnb _ ih =>
    intro cur hcur
    have hc : cur = [] := hcur rfl
    subst hc
    have hk : TrimSpace t ≠ [] := by
      rw [Ne, TrimSpace_eq_nil_iff]
      intro hall
      obtain ⟨c, hc, hs⟩ := hex
      rw [hall c hc] at hs
      cases hs
    have hnil : TrimSpace ([] : Str) = [] := rfl
    rw [refRunsAux_append_run t rest pre [] hnb, List.nil_append, ih t (fun h => by cases h),
      if_pos hk, if_neg (by simp [hnil])]
    rfl

theorem Split_eq_runs_filter (text : Str) :
    Split text = (refRunsAux [] [] text).filter (fun t => decide (TrimSpace t ≠ [])) := by
  simp only [Split, FieldsFunc_eq_refTokenize, refTokenize, List.filter_filter]
  congr 1
  funext t
  by_cases ht : t = []
  · subst ht; simp [TrimSpace]
  · simp [ht]

/-- The layout of a text is unique: its tokens are those of `Split`. -/
theorem Layout.unique (text : Str) (toks : List Str) (l : Layout true [] text toks) :
    toks = Split text := by
  have h := Layout.runs l [] (fun _ => rfl)
  have hnil : TrimSpace ([] : Str) = [] := rfl
  rw [Split_eq_runs_filter, h, if_neg (by simp [hnil]), List.nil_append]

/-! ## Rounding to float64 -/

theorem roundHalfEven_bounds (y : ℚ) :
    ⌊y⌋ ≤ roundHalfEven y ∧ roundHalfEven y ≤ ⌊y⌋ + 1 := by
  unfold roundHalfEven
  split_ifs <;> constructor <;> omega

theorem roundHalfEven_intCast (n : ℤ) : roundHalfEven (n : ℚ) = n := by
  unfold roundHalfEven
  simp

theorem roundHalfEven_mono {y1 y2 : ℚ} (h : y1 ≤ y2) :
    roundHalfEven y1 ≤ roundHalfEven y2 := by
  have hf : ⌊y1⌋ ≤ ⌊y2⌋ := Int.floor_mono h
  rcases lt_or_eq_of_le hf with hlt | heq
  · have h1 := (roundHalfEven_bounds y1).2
    have h2 := (roundHalfEven_bounds y2).1
    omega
  · unfold roundHalfEven
    rw [← heq]
    split_ifs <;> first | omega | linarith

theorem two_zpow_cast (k : ℕ) : (((2 : ℤ) ^ k : ℤ) : ℚ) = (2 : ℚ) ^ (k : ℤ) := by
  rw [zpow_natCast]; push_cast; rfl

theorem two_zpow_scale (k : ℕ) (e d : ℤ) (h : (k : ℤ) + d = e) :
    (((2 : ℤ) ^ k : ℤ) : ℚ) * (2 : ℚ) ^ d = (2 : ℚ) ^ e := by
  rw [two_zpow_cast, ← zpow_add₀ (by norm_num : (2 : ℚ) ≠ 0), h]

theorem F64.roundPos_bounds {x : ℚ} (hx : 0 < x) :
    (2 : ℚ) ^ Int.log 2 x ≤ F64.roundPos x ∧
    F64.roundPos x ≤ (2 : ℚ) ^ (Int.log 2 x + 1) := by
  have h1 : ((2 : ℕ) : ℚ) ^ Int.log 2 x ≤ x := Int.zpow_log_le_self (by norm_num) hx
  have h2 : x < ((2 : ℕ) : ℚ) ^ (Int.log 2 x + 1) := Int.lt_zpow_succ_log_self (by norm_num) x
  simp only [Nat.cast_ofNat] at h1 h2
  set e := Int.log 2 x with he
  have hu : (0 : ℚ) < (2 : ℚ) ^ (e - 52) := by positivity
  have hlo : (((2 : ℤ) ^ 52 : ℤ) : ℚ) ≤ x / (2 : ℚ) ^ (e - 52) := by
    rw [le_div_iff₀ hu]
    have : (((2 : ℤ) ^ 52 : ℤ) : ℚ) * (2 : ℚ) ^ (e - 52) = (2 : ℚ) ^ e :=
      two_zpow_scale 52 e (e - 52) (by omega)
    rw [this]; exact h1
  have hhi : x / (2 : ℚ) ^ (e - 52) ≤ (((2 : ℤ) ^ 53 : ℤ) : ℚ) := by
    rw [div_le_iff₀ hu]
    have : (((2 : ℤ) ^ 53 : ℤ) : ℚ) * (2 : ℚ) ^ (e - 52) = (2 : ℚ) ^ (e + 1) :=
      two_zpow_scale 53 (e + 1) (e - 52) (by omega)
    rw [this]; exact le_of_lt h2
  have r1 : (2 : ℤ) ^ 52 ≤ roundHalfEven (x / (2 : ℚ) ^ (e - 52)) := by
    have := roundHalfEven_mono hlo
    rwa [roundHalfEven_intCast] at this
  have r2 : roundHalfEven (x / (2 : ℚ) ^ (e - 52)) ≤ (2 : ℤ) ^ 53 := by
    have := roundHalfEven_mono hhi
    rwa [roundHalfEven_intCast] at this
  have r1q : (((2 : ℤ) ^ 52 : ℤ) : ℚ) ≤ (roundHalfEven (x / (2 : ℚ) ^ (e - 52)) : ℚ) := by
    exact_mod_cast r1
  have r2q : (roundHalfEven (x / (2 : ℚ) ^ (e - 52)) : ℚ) ≤ (((2 : ℤ) ^ 53 : ℤ) : ℚ) := by
    exact_mod_cast r2
  unfold F64.roundPos
  rw [← he]
  constructor
  · have : (2 : ℚ) ^ e = (((2 : ℤ) ^ 52 : ℤ) : ℚ) * (2 : ℚ) ^ (e - 52) :=
      (two_zpow_scale 52 e (e - 52) (by omega)).symm
    rw [this]
    exact mul_le_mul_of_nonneg_right r1q (le_of_lt hu)
  · have : (2 : ℚ) ^ (e + 1) = (((2 : ℤ) ^ 53 : ℤ) : ℚ) * (2 : ℚ) ^ (e - 52) :=
      (two_zpow_scale 53 (e + 1) (e - 52) (by omega)).symm
    rw [this]
    exact mul_le_mul_of_nonneg_right r2q (le_of_lt hu)

theorem F64.roundPos_mono {x y : ℚ} (hx : 0 < x) (h : x ≤ y) :
    F64.roundPos x ≤ F64.roundPos y := by
  have hy : 0 < y := lt_of_lt_of_le hx h
  have hl : Int.log 2 x ≤ Int.log 2 y := Int.log_mono_right hx h
  rcases lt_or_eq_of_le hl with hlt | heq
  · calc F64.roundPos x ≤ (2 : ℚ) ^ (Int.log 2 x + 1) := (F64.roundPos_bounds hx).2
      _ ≤ (2 : ℚ) ^ Int.log 2 y := zpow_le_zpow_right₀ (by norm_num) (by omega)
      _ ≤ F64.roundPos y := (F64.roundPos_bounds hy).1
  · unfold F64.roundPos
    rw [heq]
    have hu : (0 : ℚ) < (2 : ℚ) ^ (Int.log 2 y - 52) := by positivity
    apply mul_le_mul_of_nonneg_right _ (le_of_lt hu)
    have : x / (2 : ℚ) ^ (Int.log 2 y - 52) ≤ y / (2 : ℚ) ^ (Int.log 2 y - 52) :=
      div_le_div_of_nonneg_right h (le_of_lt hu)
    exact_mod_cast roundHalfEven_mono this

theorem F64.roundPos_pos {x : ℚ} (hx : 0 < x) : 0 < F64.roundPos x :=
  lt_of_lt_of_le (by positivity) (F64.roundPos_bounds hx).1

theorem F64.roundQ_nonneg {x : ℚ} (hx : 0 ≤ x) : 0 ≤ F64.roundQ x := by
  unfold F64.roundQ
  rcases eq_or_lt_of_le hx with h | h
  · simp [← h]
  · simp [h.ne', h, le_of_lt (F64.roundPos_pos h)]

theorem F64.roundQ_pos {x : ℚ} (hx : 0 < x) : 0 < F64.roundQ x := by
  unfold F64.roundQ
  simp [hx.ne', hx, F64.roundPos_pos hx]

theorem F64.roundQ_mono {x y : ℚ} (hx : 0 ≤ x) (h : x ≤ y) : F64.roundQ x ≤ F64.roundQ y := by
  rcases eq_or_lt_of_le hx with h0 | h0
  · rw [← h0]
    have : F64.roundQ 0 = 0 := by simp [F64.roundQ]
    rw [this]
    exact F64.roundQ_nonneg (le_trans hx h)
  · have hy : 0 < y := lt_of_lt_of_le h0 h
    unfold F64.roundQ
    simp only [h0.ne', h0, hy.ne', hy, if_false, if_true]
    exact F64.roundPos_mono h0 h

theorem F64.roundQ_zero : F64.roundQ 0 = 0 := by simp [F64.roundQ]

theorem F64.roundQ_zpow (z : ℤ) : F64.roundQ ((2 : ℚ) ^ z) = (2 : ℚ) ^ z := by
  have hp : (0 : ℚ) < (2 : ℚ) ^ z := by positivity
  have hl : Int.log 2 ((2 : ℚ) ^ z) = z := by
    have := Int.log_zpow (R := ℚ) (b := 2) (by norm_num) z
    simpa using this
  unfold F64.roundQ F64.roundPos
  simp only [hp.ne', hp, if_false, if_true, hl]
  have hd : (2 : ℚ) ^ z / (2 : ℚ) ^ (z - 52) = (((2 : ℤ) ^ 52 : ℤ) : ℚ) := by
    rw [← zpow_sub₀ (by norm_num : (2 : ℚ) ≠ 0), two_zpow_cast]
    congr 1; omega
  rw [hd, roundHalfEven_intCast]
  exact two_zpow_scale 52 z (z - 52) (by omega)

theorem F64.roundQ_one : F64.roundQ 1 = 1 := by
  have := F64.roundQ_zpow 0
  simpa using this

theorem F64.roundQ_natCast_pos {n : Nat} (h : 0 < n) : 0 < F64.roundQ (n : ℚ) :=
  F64.roundQ_pos (by exact_mod_cast h)

theorem F64.divNat_self {n : Nat} (h : 0 < n) : F64.divNat n n = F64.fin 1 := by
  rw [F64.divNat, if_neg (by omega), div_self (F64.roundQ_natCast_pos h).ne', F64.roundQ_one]

theorem F64.divNat_zero {n : Nat} (h : 0 < n) : F64.divNat 0 n = F64.fin 0 := by
  rw [F64.divNat, if_neg (by omega)]
  simp [F64.roundQ_zero]

theorem F64.divNat_one_two : F64.divNat 1 2 = F64.fin (1 / 2) := by
  have h2 : F64.roundQ ((2 : Nat) : ℚ) = 2 := by
    have := F64.roundQ_zpow 1
    simpa using this
  have h1 : F64.roundQ ((1 : Nat) : ℚ) = 1 := by simpa using F64.roundQ_one
  have hh : F64.roundQ (1 / 2) = 1 / 2 := by
    have := F64.roundQ_zpow (-1)
    simpa using this
  rw [F64.divNat, if_neg (by omega), h1, h2, hh]

theorem F64.divNat_one_four : F64.divNat 1 4 = F64.fin (1 / 4) := by
  have h4 : F64.roundQ ((4 : Nat) : ℚ) = 4 := by
    have := F64.roundQ_zpow 2
    norm_num at this
    simpa using this
  have h1 : F64.roundQ ((1 : Nat) : ℚ) = 1 := by simpa using F64.roundQ_one
  have hh : F64.roundQ (1 / 4) = 1 / 4 := by
    have := F64.roundQ_zpow (-2)
    norm_num at this
    simpa using this
  rw [F64.divNat, if_neg (by omega), h1, h4, hh]

theorem F64.divNat_unit {a b : Nat} (hb : 0 < b) (hab : a ≤ b) :
    ∃ q : ℚ, F64.divNat a b = F64.fin q ∧ 0 ≤ q ∧ q ≤ 1 := by
  have hbq : 0 < F64.roundQ (b : ℚ) := F64.roundQ_natCast_pos hb
  have haq : 0 ≤ F64.roundQ (a : ℚ) := F64.roundQ_nonneg (by positivity)
  have hle : F64.roundQ (a : ℚ) ≤ F64.roundQ (b : ℚ) :=
    F64.roundQ_mono (by positivity) (by exact_mod_cast hab)
  have h0 : 0 ≤ F64.roundQ (a : ℚ) / F64.roundQ (b : ℚ) := div_nonneg haq (le_of_lt hbq)
  have h1 : F64.roundQ (a : ℚ) / F64.roundQ (b : ℚ) ≤ 1 := (div_le_one hbq).mpr hle
  refine ⟨_, by rw [F64.divNat, if_neg (by omega)], F64.roundQ_nonneg h0, ?_⟩
  have := F64.roundQ_mono h0 h1
  rwa [F64.roundQ_one] at this

theorem roundHalfEven_of_floor {y : ℚ} {f : ℤ} (h1 : (f : ℚ) ≤ y) (h2 : y - f < 1 / 2) :
    roundHalfEven y = f := by
  have hf : ⌊y⌋ = f := by
    rw [Int.floor_eq_iff]
    constructor
    · exact h1
    · linarith
  unfold roundHalfEven
  rw [hf, if_pos h2]

theorem F64.roundQ_three : F64.roundQ 3 = 3 := by
  have hl : Int.log 2 (3 : ℚ) = 1 := by
    have := Int.log_natCast (R := ℚ) 2 3
    have h2 : Nat.log 2 3 = 1 := by
      rw [Nat.log_eq_iff (by decide)]; decide
    rw [h2] at this
    simpa using this
  unfold F64.roundQ F64.roundPos
  rw [if_neg (by norm_num), if_pos (by norm_num), hl]
  have : (3 : ℚ) / 2 ^ ((1 : ℤ) - 52) = ((3 * 2 ^ 51 : ℤ) : ℚ) := by
    norm_num [zpow_neg]
  rw [this, roundHalfEven_intCast]
  norm_num [zpow_neg]

theorem F64.roundQ_third :
    F64.roundQ (1 / 3) = 6004799503160661 / 18014398509481984 := by
  have hl : Int.log 2 (1 / 3 : ℚ) = -2 := by
    have h := Int.log_inv (R := ℚ) 2 (3 : ℚ)
    have hc : Int.clog 2 (3 : ℚ) = 2 := by
      have := Int.clog_natCast (R := ℚ) 2 3
      have h2 : Nat.clog 2 3 = 2 := by
        simp [Nat.clog]
      rw [h2] at this
      simpa using this
    rw [hc] at h
    simpa using h
  unfold F64.roundQ F64.roundPos
  rw [if_neg (by norm_num), if_pos (by norm_num), hl]
  have hr : roundHalfEven ((1 / 3 : ℚ) / 2 ^ ((-2 : ℤ) - 52)) = 6004799503160661 := by
    apply roundHalfEven_of_floor <;> norm_num [zpow_neg]
  rw [hr]
  norm_num [zpow_neg]

/-- The quotient `float64(1) / float64(3)` is the float64 nearest to 1/3, which is
`6004799503160661 / 2^54` and prints as 0.3333333333333333; it is not 1/3. -/
theorem F64.divNat_one_three :
    F64.divNat 1 3 = F64.fin (6004799503160661 / 18014398509481984) ∧
    F64.divNat 1 3 ≠ F64.fin (1 / 3) := by
  have h3 : F64.roundQ ((3 : Nat) : ℚ) = 3 := by simpa using F64.roundQ_three
  have h1 : F64.roundQ ((1 : Nat) : ℚ) = 1 := by simpa using F64.roundQ_one
  have h : F64.divNat 1 3 = F64.fin (6004799503160661 / 18014398509481984) := by
    rw [F64.divNat, if_neg (by omega), h1, h3, F64.roundQ_third]
  refine ⟨h, ?_⟩
  rw [h]
  intro he
  rw [F64.fin.injEq] at he
  norm_num at he

/-! ## `Input.Read` as a whole -/

theorem Input.Read_of_loop (ev : Str → Option Value) (i : Input) (F I : Str) (s : ReadState)
    (h : readLoop (SplitArgs ev I) 0 (Split F) ReadState.init = .ok s) :
    Input.Read ev i F I =
      .ok ({ line := I, fmtValue := joinSpace s.matchers, vars := s.vars },
           F64.divNat s.scores (Split F).length) := by
  simp [Input.Read, h]

theorem Input.Read_ok_inv (ev : Str → Option Value) (i : Input) (F I : Str) (res : Input)
    (sc : F64) (h : Input.Read ev i F I = .ok (res, sc)) :
    ∃ s, readLoop (SplitArgs ev I) 0 (Split F) ReadState.init = .ok s ∧
      res = { line := I, fmtValue := joinSpace s.matchers, vars := s.vars } ∧
      sc = F64.divNat s.scores (Split F).length := by
  unfold Input.Read at h
  cases hl : readLoop (SplitArgs ev I) 0 (Split F) ReadState.init with
  | error e => simp [hl] at h
  | ok s =>
    simp only [hl, Except.ok.injEq, Prod.mk.injEq] at h
    exact ⟨s, rfl, h.1.symm, h.2.symm⟩

theorem Input.Read_error_of_loop (ev : Str → Option Value) (i : Input) (F I : Str) (e : Fault)
    (h : readLoop (SplitArgs ev I) 0 (Split F) ReadState.init = .error e) :
    Input.Read ev i F I = .error e := by
  simp [Input.Read, h]

/-! ## Main results -/

/-- C1: on the example format and the line `run: 3, name:bob` the tokens align, every
literal token is matched and every placeholder meets a value of its declared kind, and
yet `Read` returns the score 1/4: the three kind matches are added to the result variable
`score`, which the final assignment overwrites, not to the counter `scores`. -/
theorem Read_example_score :
    Split exampleFormat =
      ["$\x7bcommand:String\x7d".toList, "$\x7bargs:Int\x7d".toList, "name".toList,
        "$\x7bn:String\x7d".toList] ∧
    SplitArgs evalLit exampleLine =
      [Value.str "run".toList, Value.int 3, Value.str "name".toList,
        Value.str "bob".toList] ∧
    ∃ res, Read evalLit exampleFormat exampleLine = .ok (res, F64.fin (1 / 4)) := by
  refine ⟨by decide, by rfl, ?_⟩
  obtain ⟨s, hl, hs⟩ : ∃ s, readLoop (SplitArgs evalLit exampleLine) 0 (Split exampleFormat)
      ReadState.init = .ok s ∧ s.scores = 1 := ⟨_, rfl, rfl⟩
  have hn : (Split exampleFormat).length = 4 := by decide
  refine ⟨{ line := exampleLine, fmtValue := joinSpace s.matchers, vars := s.vars }, ?_⟩
  rw [Read, Input.Read_of_loop _ _ _ _ s hl, hs, hn, F64.divNat_one_four]

/-- C2: the format `level 3` has no placeholder and is matched against the identical text,
and `Read` returns the score 1/2: the literal token `3` is compared with the evaluated
input value, the integer 3, which is not a string. -/
theorem Read_same_text_score :
    (∀ w ∈ Split "level 3".toList, isVar w = false) ∧
    SplitArgs evalLit "level 3".toList = [Value.str "level".toList, Value.int 3] ∧
    ∃ res, Read evalLit "level 3".toList "level 3".toList = .ok (res, F64.fin (1 / 2)) := by
  refine ⟨by decide, by rfl, ?_⟩
  obtain ⟨s, hl, hs⟩ : ∃ s, readLoop (SplitArgs evalLit "level 3".toList) 0
      (Split "level 3".toList) ReadState.init = .ok s ∧ s.scores = 1 := ⟨_, rfl, rfl⟩
  have hn : (Split "level 3".toList).length = 2 := by decide
  refine ⟨{ line := "level 3".toList, fmtValue := joinSpace s.matchers, vars := s.vars }, ?_⟩
  rw [Read, Input.Read_of_loop _ _ _ _ s hl, hs, hn, F64.divNat_one_two]

/-- C3: after a successful `Read`, a placeholder token at index `x` whose declared kind is
not Array and whose name is not declared again at a later index is bound to the evaluated
input token at index `x`: that value is `Get(name).Value` and `All()[name]`, whatever its
inferred kind. -/
theorem Read_binds_evaluated_token (ev : Str → Option Value) (i : Input) (F I : Str)
    (res : Input) (sc : F64) (h : Input.Read ev i F I = .ok (res, sc))
    (x : Nat) (w : Str) (hw : (Split F)[x]? = some w) (hv : isVar w = true)
    (hk : declaredKind w ≠ Kind.Array)
    (hlast : ∀ (y : Nat) (w1 : Str), x < y → (Split F)[y]? = some w1 → isVar w1 = true →
      declaredName w1 ≠ declaredName w) :
    ∃ o, (SplitArgs ev I)[x]? = some o ∧
      (res.Get (declaredName w)).map Var.Value = some o ∧
      allGet res.All (declaredName w) = some o := by
  obtain ⟨s, hl, hres, _⟩ := Input.Read_ok_inv ev i F I res sc h
  obtain ⟨o, ho, hb⟩ := readLoop_binds (SplitArgs ev I) (Split F) 0 ReadState.init s hl x w
    hw hv hk hlast
  have hg : (res.Get (declaredName w)).map Var.Value = some o := by
    rw [hres]; exact hb
  exact ⟨o, by simpa using ho, hg, by rw [allGet_All]; exact hg⟩

/-- C3, witness: the placeholder `${n:Int}` against the token `42` binds `n` to the
integer 42, whose inferred kind is Int. -/
theorem Read_binds_evaluated_token_witness :
    ∃ res sc, Input.Read evalLit Input.zero phInt "42".toList = .ok (res, sc) ∧
      (res.Get "n".toList).map Var.Value = some (Value.int 42) ∧
      allGet res.All "n".toList = some (Value.int 42) ∧
      kindOf (Value.int 42) = .ok Kind.Int := by
  obtain ⟨res, sc, h⟩ : ∃ res sc,
      Input.Read evalLit Input.zero phInt "42".toList = .ok (res, sc) := ⟨_, _, rfl⟩
  obtain ⟨o, ho, hg, ha⟩ := Read_binds_evaluated_token evalLit Input.zero phInt "42".toList
    res sc h 0 phInt (by decide) (by decide) (by decide)
    (fun y w1 hy hw1 _ => by
      have hlen : (Split phInt).length = 1 := by decide
      have := List.getElem?_eq_none (l := Split phInt) (n := y) (by omega)
      rw [this] at hw1; cases hw1)
  have h42 : (SplitArgs evalLit "42".toList)[0]? = some (Value.int 42) := rfl
  have ho2 : o = Value.int 42 := by
    rw [h42] at ho; exact (Option.some.inj ho).symm
  subst ho2
  have hn : declaredName phInt = "n".toList := by decide
  rw [hn] at hg ha
  exact ⟨res, sc, h, hg, ha, rfl⟩

/-- C4, as stated, fails: against the format `${xs:Array} b` the input `3` has one token
where the format has two, and `Read` stops in the iteration at index 0, on the type
assertion of the Array placeholder: the out-of-range access at index 1 is not reached. -/
theorem Read_short_input_other_fault :
    (Split "3".toList).length = 1 ∧ (Split arrayThenWord).length = 2 ∧
    readLoop (SplitArgs evalLit "3".toList) 0 ((Split arrayThenWord).take 1) ReadState.init
      = .error Fault.typeAssertion ∧
    Read evalLit arrayThenWord "3".toList = .error Fault.typeAssertion ∧
    Read evalLit arrayThenWord "3".toList ≠ .error (Fault.indexOutOfRange 1 1) := by
  have h : Read evalLit arrayThenWord "3".toList = .error Fault.typeAssertion := rfl
  refine ⟨by decide, by decide, rfl, h, ?_⟩
  rw [h]
  intro h2
  cases h2

/-- C4, amended: when the input has fewer tokens than the format, `Read` ends in a fault
and returns neither a score nor a binding table; the fault is the out-of-range access
`outs[len(Split(I))]` when the iterations before that index run through. -/
theorem Read_fails_on_short_input (ev : Str → Option Value) (i : Input) (F I : Str)
    (h : (Split I).length < (Split F).length) :
    (∃ e, Input.Read ev i F I = .error e) ∧
    ((∃ s, readLoop (SplitArgs ev I) 0 ((Split F).take (Split I).length) ReadState.init
        = .ok s) →
      Input.Read ev i F I =
        .error (Fault.indexOutOfRange (Split I).length (Split I).length)) := by
  constructor
  · obtain ⟨e, he⟩ := readLoop_short (SplitArgs ev I) (Split F) 0 ReadState.init
      (Nat.zero_le _) (by simpa [SplitArgs_length] using h)
    exact ⟨e, Input.Read_error_of_loop ev i F I e he⟩
  · rintro ⟨s, hs⟩
    apply Input.Read_error_of_loop
    have hsplit : Split F = (Split F).take (Split I).length ++ (Split F).drop (Split I).length :=
      (List.take_append_drop _ _).symm
    have hlen : ((Split F).take (Split I).length).length = (Split I).length := by
      simp [List.length_take]; omega
    rw [hsplit, readLoop_append, hs]
    simp only [hlen, Nat.zero_add]
    cases hd : (Split F).drop (Split I).length with
    | nil =>
      have := congrArg List.length hd
      simp [List.length_drop] at this
      omega
    | cons w ws =>
      simp only [readLoop]
      rw [readStep_out_of_range (SplitArgs ev I) (Split I).length w s
        (by simp [SplitArgs_length])]
      simp [SplitArgs_length]

/-- C4, witness: a format of three tokens against an input of one token. -/
theorem Read_fails_on_short_input_witness :
    (Split "a b c".toList).length = 3 ∧ (Split "a".toList).length = 1 ∧
    (∃ e, Read evalLit "a b c".toList "a".toList = .error e) ∧
    Read evalLit "a b c".toList "a".toList = .error (Fault.indexOutOfRange 1 1) := by
  have h := Read_fails_on_short_input evalLit Input.zero "a b c".toList "a".toList
    (by decide)
  exact ⟨by decide, by decide, h.1, h.2 ⟨_, rfl⟩⟩

/-- C5: with as many input tokens as format tokens `Read` still faults: an Array
placeholder facing a number fails the type assertion, facing the empty list it indexes
out of range, and a placeholder facing nil dereferences nil in `kindOf`. -/
theorem Read_faults_with_enough_tokens :
    (Split phArray).length ≤ (Split "3".toList).length ∧
    Read evalLit phArray "3".toList = .error Fault.typeAssertion ∧
    Read evalLit phArray "[]".toList = .error (Fault.indexOutOfRange 0 0) ∧
    Read evalLit phArray "nil".toList = .error Fault.nilDereference ∧
    Read evalLit phInt "nil".toList = .error Fault.nilDereference := by
  refine ⟨by decide, rfl, rfl, rfl, rfl⟩

/-- The format `a b c` against the line `a x y`: one token of three is matched, and the
score is the float64 nearest to 1/3. -/
theorem Read_score_one_third :
    ∃ res, Read evalLit "a b c".toList "a x y".toList =
      .ok (res, F64.fin (6004799503160661 / 18014398509481984)) := by
  obtain ⟨s, hl, hs⟩ : ∃ s, readLoop (SplitArgs evalLit "a x y".toList) 0
      (Split "a b c".toList) ReadState.init = .ok s ∧ s.scores = 1 := ⟨_, rfl, rfl⟩
  have hn : (Split "a b c".toList).length = 3 := by decide
  refine ⟨{ line := "a x y".toList, fmtValue := joinSpace s.matchers, vars := s.vars }, ?_⟩
  rw [Read, Input.Read_of_loop _ _ _ _ s hl, hs, hn, F64.divNat_one_three.1]

/-- C6: for a format with at least one token, a successful `Read` returns as score the
float64 quotient of `m` and `len(words)` for a number `m` no larger than the number of
format tokens, and that float64, roundings included, lies between 0 and 1. -/
theorem Read_score_in_unit_interval (ev : Str → Option Value) (i : Input) (F I : Str)
    (res : Input) (sc : F64) (h : Input.Read ev i F I = .ok (res, sc))
    (hne : Split F ≠ []) :
    ∃ (m : Nat) (q : ℚ), m ≤ (Split F).length ∧
      q = F64.roundQ (F64.roundQ (m : ℚ) / F64.roundQ ((Split F).length : ℚ)) ∧
      sc = F64.fin q ∧ 0 ≤ q ∧ q ≤ 1 := by
  obtain ⟨s, hl, _, hsc⟩ := Input.Read_ok_inv ev i F I res sc h
  have hle := readLoop_scores_le (SplitArgs ev I) (Split F) 0 ReadState.init s hl
  have hle2 : s.scores ≤ (Split F).length := by simpa [ReadState.init] using hle
  have hpos : 0 < (Split F).length := List.length_pos.mpr hne
  obtain ⟨q, hq, h0, h1⟩ := F64.divNat_unit hpos hle2
  have hq2 := hq
  rw [F64.divNat, if_neg (by omega), F64.fin.injEq] at hq2
  exact ⟨s.scores, q, hle2, hq2.symm, by rw [hsc, hq], h0, h1⟩

/-- C6, witness: the format `a b c` against the line `a x y`, whose score is the float64
nearest to 1/3. -/
theorem Read_score_in_unit_interval_witness :
    ∃ res sc, Read evalLit "a b c".toList "a x y".toList = .ok (res, sc) ∧
      ∃ (m : Nat) (q : ℚ), m ≤ (Split "a b c".toList).length ∧
        q = F64.roundQ (F64.roundQ (m : ℚ) /
          F64.roundQ ((Split "a b c".toList).length : ℚ)) ∧
        sc = F64.fin q ∧ 0 ≤ q ∧ q ≤ 1 := by
  obtain ⟨res, sc, h⟩ : ∃ res sc,
      Input.Read evalLit Input.zero "a b c".toList "a x y".toList = .ok (res, sc) :=
    ⟨_, _, rfl⟩
  exact ⟨res, sc, h, Read_score_in_unit_interval evalLit Input.zero "a b c".toList
    "a x y".toList res sc h (by decide)⟩

/-- C7: for a format without tokens (the empty format, or separators only) `Read` does
not fault, and the score it returns is the quotient 0/0, which is NaN and not 0. -/
theorem Read_empty_format_nan (ev : Str → Option Value) (i : Input) (I : Str) :
    (∃ res, Input.Read ev i [] I = .ok (res, F64.nan)) ∧
    (∃ res, Input.Read ev i " ,: ".toList I = .ok (res, F64.nan)) ∧
    F64.nan ≠ F64.fin 0 := by
  refine ⟨⟨_, rfl⟩, ⟨_, rfl⟩, by decide⟩

/-- C8, as stated, fails: in the text `a`, space, tab, space, `b` the tab is a maximal run
of non-boundary characters, so the reference tokenization has three tokens, while `Split`
returns two. -/
theorem Split_ne_refTokenize_tab :
    refTokenize tabText = [['a'], [Char.ofNat 9], ['b']] ∧
    Split tabText = [['a'], ['b']] ∧
    Split tabText ≠ refTokenize tabText := by
  decide

/-- C8, amended: `Split` returns the maximal runs of non-boundary characters of the
reference scan, in order, without the empty runs and without the runs that consist of
white space only. -/
theorem Split_eq_refTokenize_filter (text : Str) :
    Split text = (refTokenize text).filter (fun t => t.any (fun c => !isSpace c)) := by
  have hf : (fun t : Str => decide (TrimSpace t ≠ [])) =
      (fun t : Str => t.any (fun c => !isSpace c)) := by
    funext t
    by_cases h : TrimSpace t ≠ []
    · rw [decide_eq_true h, (TrimSpace_ne_nil_iff t).mp h]
    · rw [decide_eq_false h]
      cases ha : t.any (fun c => !isSpace c) with
      | false => rfl
      | true => exact absurd ((TrimSpace_ne_nil_iff t).mpr ha) h
  simp only [Split, FieldsFunc_eq_refTokenize, hf]

/-- C9, as stated, fails: in the text `a`, space, tab, space, `b` the tab lies between the
two returned tokens and is not a space, comma or colon, so the text is not tiled by the
tokens and by separators met at depth 0 outside quotes. -/
theorem Split_tab_not_separator :
    Split tabText = [['a'], ['b']] ∧ ¬ Tiling gapStated false [] tabText (Split tabText) := by
  refine ⟨by decide, fun h => ?_⟩
  rcases Tiling.mem_cases h (Char.ofNat 9) (by decide) with ⟨t, ht, hc⟩ | ⟨p, hs, _⟩
  · have hsplit : Split tabText = [['a'], ['b']] := by decide
    rw [hsplit] at ht
    simp only [List.mem_cons, List.mem_singleton, List.not_mem_nil, or_false] at ht
    rcases ht with ht | ht <;> subst ht <;> revert hc <;> decide
  · revert hs; decide

/-- C9, amended: the text is laid out, in exactly one way, as boundary characters (a
space, comma or colon met at bracket depth 0 with the quote flag off) and, between two of
them or one of them and an end of the text, runs of two sorts: discarded runs, made only
of white-space characters that are no separators, each met at depth 0 with the quote flag
off, and the returned tokens, in order, each with a character that is not white space and
without a boundary character inside; and a separator met at depth above 0 or with the
quote flag on lies inside an occurrence of a returned token. -/
theorem Split_never_splits_inside (text : Str) :
    Layout true [] text (Split text) ∧
    (∀ toks : List Str, Layout true [] text toks → toks = Split text) ∧
    ∀ (p : Str) (c : Char) (r : Str), text = p ++ c :: r → isSep c = true →
      (0 < refDepth p ∨ refQuote p = true) →
      ∃ a t b, text = a ++ t ++ b ∧ t ∈ Split text ∧ a.length ≤ p.length ∧
        p.length < a.length + t.length := by
  refine ⟨Split_layout text, Layout.unique text, fun p c r he _ hin => ?_⟩
  rcases Tiling.position (Split_tiling text) p c r he with ⟨_, hd, hq⟩ | h
  · simp only [List.nil_append] at hd hq
    rcases hin with h1 | h1
    · omega
    · rw [hq] at h1; cases h1
  · exact h

/-- C9, witness: `${n:Array}: [1, 2, 3]` gives two tokens, and the comma after `[1`, met
at depth 1, lies inside a returned token; and the text `a`, tab, `b` is one token, not
laid out as the two tokens `a` and `b` around a tab. -/
theorem Split_never_splits_inside_witness :
    Split "$\x7bn:Array\x7d: [1, 2, 3]".toList =
      ["$\x7bn:Array\x7d".toList, "[1, 2, 3]".toList] ∧
    (∃ a t b, "$\x7bn:Array\x7d: [1, 2, 3]".toList = a ++ t ++ b ∧
      t ∈ Split "$\x7bn:Array\x7d: [1, 2, 3]".toList ∧
      a.length ≤ 14 ∧ 14 < a.length + t.length) ∧
    Split ['a', Char.ofNat 9, 'b'] = [['a', Char.ofNat 9, 'b']] ∧
    ¬ Layout true [] ['a', Char.ofNat 9, 'b'] [['a'], ['b']] := by
  refine ⟨by decide, ?_, by decide, fun hl => ?_⟩
  · exact (Split_never_splits_inside "$\x7bn:Array\x7d: [1, 2, 3]".toList).2.2
      "$\x7bn:Array\x7d: [1".toList ',' " 2, 3]".toList (by decide) (by decide)
      (Or.inl (by decide))
  · have h := (Split_never_splits_inside ['a', Char.ofNat 9, 'b']).2.1 _ hl
    revert h
    decide

/-- C10: every token returned by `Split` is non-empty and holds a character that is not
white space, and the tokens occur in the text one after the other in the order returned. -/
theorem Split_tokens_nonempty_in_order (text : Str) :
    (∀ t ∈ Split text, t ≠ [] ∧ ∃ c ∈ t, isSpace c = false) ∧
    InOrder (Split text) text := by
  refine ⟨fun t ht => ?_, (Split_tiling text).inOrder⟩
  have hk : TrimSpace t ≠ [] := by
    have := (List.mem_filter.mp ht).2
    simpa using this
  have hc : ∃ c ∈ t, isSpace c = false := by
    by_contra hno
    apply hk
    rw [TrimSpace_eq_nil_iff]
    intro c hc
    by_contra hsp
    exact hno ⟨c, hc, by simpa using hsp⟩
  have hne : t ≠ [] := by
    obtain ⟨c, hct, _⟩ := hc
    exact List.ne_nil_of_mem hct
  exact ⟨hne, hc⟩

/-- C10, witness: the tokens of `run: 3, name:bob`. -/
theorem Split_tokens_nonempty_in_order_witness :
    Split exampleLine = ["run".toList, "3".toList, "name".toList, "bob".toList] ∧
    ("run".toList ≠ [] ∧ ∃ c ∈ "run".toList, isSpace c = false) ∧
    InOrder (Split exampleLine) exampleLine :=
  ⟨by decide, (Split_tokens_nonempty_in_order exampleLine).1 "run".toList (by decide),
    (Split_tokens_nonempty_in_order exampleLine).2⟩

/-! ## Matching: closed forms of the loop results -/

theorem bindingOf_array_val {o val : Value} {k : Kind} (hko : kindOf o = .ok k)
    (hval : (if k = Kind.String then Except.ok o else firstOfSlice o) = Except.ok val) :
    val = bindingOf Kind.Array o := by
  by_cases hk : k = Kind.String
  · simp only [hk, if_true, Except.ok.injEq] at hval
    subst hval
    cases o with
    | slice xs =>
      simp only [kindOf, Value.reflectKind, Except.ok.injEq] at hko
      rw [hk] at hko
      exact absurd hko (by decide)
    | _ => simp [bindingOf]
  · simp only [hk, if_false] at hval
    cases o with
    | slice xs =>
      cases xs with
      | nil => simp [firstOfSlice, indexAny] at hval
      | cons y ys =>
        simp only [firstOfSlice, indexAny, List.getElem?_cons_zero, Except.ok.injEq] at hval
        subst hval
        simp [bindingOf]
    | _ => simp [firstOfSlice] at hval

/-- What a successful iteration does, for every kind of format token. -/
theorem readStep_ok {outs : List Value} {x : Nat} {w : Str} {s s1 : ReadState}
    (h : readStep outs x w s = .ok s1) :
    ∃ o, outs[x]? = some o ∧
      s1.matchers = s.matchers ++ [fmtToken w] ∧
      s1.scores = s.scores + matchedOne w o ∧
      s1.cnt = s.cnt + (if isVar w = true then 1 else 0) ∧
      s1.vars = if isVar w = true then s.vars.insert (declaredName w) (varOf w s.cnt o)
                else s.vars := by
  by_cases hv : isVar w = true
  · by_cases hk : declaredKind w = Kind.Array
    · obtain ⟨o, k, val, ho, hko, hval, he⟩ := readStep_array hv hk h
      have hb := bindingOf_array_val hko hval
      subst he
      refine ⟨o, ho, ?_, ?_, ?_, ?_⟩
      · simp [fmtToken, hv]
      · simp [matchedOne, hv, hk]
      · simp [hv]
      · simp [hv, varOf, hk, hb]
    · obtain ⟨o, k, ho, _, he⟩ := readStep_var hv hk h
      subst he
      refine ⟨o, ho, ?_, ?_, ?_, ?_⟩
      · simp [fmtToken, hv]
      · simp [matchedOne, hv, hk]
      · simp [hv]
      · simp [hv, varOf, hk, bindingOf]
  · have hv2 : isVar w = false := by simpa using hv
    obtain ⟨o, ho, he⟩ := readStep_literal hv2 h
    subst he
    refine ⟨o, ho, ?_, ?_, ?_, ?_⟩
    · simp [fmtToken, hv2]
    · simp only [matchedOne, hv2, Bool.false_eq_true, if_false]
      split <;> simp
    · simp [hv2]
    · simp [hv2]

/-- The normalized format, the placeholder count and the matched-token counter after a
successful loop. -/
theorem readLoop_summary (outs : List Value) (ws : List Str) :
    ∀ (x : Nat) (s s1 : ReadState), readLoop outs x ws s = .ok s1 →
      s1.matchers = s.matchers ++ ws.map fmtToken ∧
      s1.cnt = s.cnt + ws.countP isVar ∧
      s1.scores = s.scores + matchedCount outs x ws := by
  induction ws with
  | nil =>
    intro x s s1 h
    simp only [readLoop, Except.ok.injEq] at h
    subst h; simp [matchedCount]
  | cons w ws ih =>
    intro x s s1 h
    simp only [readLoop] at h
    cases hs : readStep outs x w s with
    | error e => simp [hs] at h
    | ok s2 =>
      simp only [hs] at h
      obtain ⟨o, ho, hm, hsc, hc, _⟩ := readStep_ok hs
      obtain ⟨im, ic, isc⟩ := ih (x + 1) s2 s1 h
      refine ⟨?_, ?_, ?_⟩
      · rw [im, hm]; simp
      · rw [ic, hc, List.countP_cons]; omega
      · rw [isc, hsc]; simp only [matchedCount, ho]; omega

/-- A successful loop over a list of tokens succeeds on every initial part of it. -/
theorem readLoop_prefix (outs : List Value) (ws1 ws2 : List Str) (x : Nat)
    (s s1 : ReadState) (h : readLoop outs x (ws1 ++ ws2) s = .ok s1) :
    ∃ s0, readLoop outs x ws1 s = .ok s0 ∧ readLoop outs (x + ws1.length) ws2 s0 = .ok s1 := by
  rw [readLoop_append] at h
  cases h1 : readLoop outs x ws1 s with
  | error e => simp [h1] at h
  | ok s0 => exact ⟨s0, rfl, by simpa [h1] using h⟩

/-- The table entry of the last placeholder that declares a name. -/
theorem readLoop_last (outs : List Value) (ws : List Str) :
    ∀ (x : Nat) (s s1 : ReadState), readLoop outs x ws s = .ok s1 →
      ∀ (j : Nat) (w : Str), LastDecl ws j w →
        ∃ o, outs[x + j]? = some o ∧
          s1.vars.get (declaredName w) =
            some (varOf w (s.cnt + (ws.take j).countP isVar) o) := by
  induction ws with
  | nil => intro x s s1 _ j w hl; have := hl.1; simp at this
  | cons w0 ws ih =>
    intro x s s1 h j w hl
    obtain ⟨hj, hv, hlast⟩ := hl
    simp only [readLoop] at h
    cases hs : readStep outs x w0 s with
    | error e => simp [hs] at h
    | ok s2 =>
      simp only [hs] at h
      obtain ⟨o, ho, _, _, hc, hvars⟩ := readStep_ok hs
      cases j with
      | zero =>
        simp only [List.getElem?_cons_zero, Option.some.injEq] at hj
        subst hj
        refine ⟨o, by simpa using ho, ?_⟩
        rw [readLoop_get_other outs (declaredName w0) ws (x + 1) s2 s1 h]
        · rw [hvars]; simp [hv, VarMap.get_insert_self]
        · intro w1 hw1 hv1
          obtain ⟨y, hy, hy2⟩ := List.getElem_of_mem hw1
          exact hlast (y + 1) w1 (by omega)
            (by simp [List.getElem?_cons_succ, List.getElem?_eq_getElem hy, hy2]) hv1
      | succ j1 =>
        simp only [List.getElem?_cons_succ] at hj
        obtain ⟨o1, ho1, hb⟩ := ih (x + 1) s2 s1 h j1 w ⟨hj, hv,
          fun y w1 hy hw1 hv1 => hlast (y + 1) w1 (by omega)
            (by simpa [List.getElem?_cons_succ] using hw1) hv1⟩
        refine ⟨o1, by rw [← ho1]; congr 1; omega, ?_⟩
        rw [hb, hc]
        congr 2
        simp only [List.take_succ_cons, List.countP_cons]
        omega

/-! ### Keys of the binding table -/

theorem VarMap.get_isSome_iff (m : VarMap) (n : Str) :
    (m.get n).isSome = true ↔ n ∈ m.map Prod.fst := by
  unfold VarMap.get
  induction m with
  | nil => simp
  | cons e es ih =>
    by_cases he : e.1 = n
    · rw [List.find?_cons_of_pos _ (by simpa using he)]
      simp [he]
    · rw [List.find?_cons_of_neg _ (by simpa using he), ih]
      simp only [List.map_cons, List.mem_cons]
      constructor
      · intro h; exact Or.inr h
      · rintro (h | h)
        · exact absurd h.symm he
        · exact h

theorem VarMap.keys_insert (m : VarMap) (k : Str) (v : Var) :
    (m.insert k v).map Prod.fst = k :: (m.map Prod.fst).filter (fun n => decide (n ≠ k)) := by
  unfold VarMap.insert
  rw [List.map_cons, List.filter_map]
  rfl

theorem VarMap.mem_keys_insert (m : VarMap) (k n : Str) (v : Var) :
    n ∈ (m.insert k v).map Prod.fst ↔ n = k ∨ n ∈ m.map Prod.fst := by
  rw [VarMap.keys_insert, List.mem_cons, List.mem_filter]
  constructor
  · rintro (h | ⟨h, _⟩)
    · exact Or.inl h
    · exact Or.inr h
  · rintro (h | h)
    · exact Or.inl h
    · by_cases hn : n = k
      · exact Or.inl hn
      · exact Or.inr ⟨h, by simpa using hn⟩

theorem VarMap.nodup_keys_insert (m : VarMap) (k : Str) (v : Var)
    (h : (m.map Prod.fst).Nodup) : ((m.insert k v).map Prod.fst).Nodup := by
  rw [VarMap.keys_insert, List.nodup_cons]
  exact ⟨by simp [List.mem_filter], h.filter _⟩

/-- The keys of the table after a successful loop: the keys it had and the declared names. -/
theorem readLoop_keys (outs : List Value) (ws : List Str) :
    ∀ (x : Nat) (s s1 : ReadState), readLoop outs x ws s = .ok s1 →
      ((s.vars.map Prod.fst).Nodup → (s1.vars.map Prod.fst).Nodup) ∧
      ∀ n, n ∈ s1.vars.map Prod.fst ↔
        n ∈ s.vars.map Prod.fst ∨ ∃ w ∈ ws, isVar w = true ∧ declaredName w = n := by
  induction ws with
  | nil =>
    intro x s s1 h
    simp only [readLoop, Except.ok.injEq] at h
    subst h; simp
  | cons w ws ih =>
    intro x s s1 h
    simp only [readLoop] at h
    cases hs : readStep outs x w s with
    | error e => simp [hs] at h
    | ok s2 =>
      simp only [hs] at h
      obtain ⟨o, _, _, _, _, hvars⟩ := readStep_ok hs
      obtain ⟨ihn, ihk⟩ := ih (x + 1) s2 s1 h
      by_cases hv : isVar w = true
      · simp only [hv, if_true] at hvars
        refine ⟨fun hn => ihn (by rw [hvars]; exact VarMap.nodup_keys_insert _ _ _ hn), ?_⟩
        intro n
        rw [ihk n, hvars, VarMap.mem_keys_insert]
        simp only [List.mem_cons, exists_eq_or_imp, hv, true_and]
        constructor
        · rintro ((h1 | h1) | h1)
          · exact Or.inr (Or.inl h1.symm)
          · exact Or.inl h1
          · exact Or.inr (Or.inr h1)
        · rintro (h1 | h1 | h1)
          · exact Or.inl (Or.inr h1)
          · exact Or.inl (Or.inl h1.symm)
          · exact Or.inr h1
      · simp only [hv, if_false] at hvars
        refine ⟨fun hn => ihn (by rw [hvars]; exact hn), ?_⟩
        intro n
        rw [ihk n, hvars]
        simp [hv]

/-! ## Kind names -/

set_option maxRecDepth 100000 in
theorem kindOfDisplay_KindString : ∀ k : Nat, k < 256 → kindOfDisplay (KindString k) = k := by
  decide
/-! ## Placeholder extraction: the pieces of the body -/

theorem stringsSplitAux_colon (s : Str) :
    ∀ cur : Str, stringsSplitAux ':' cur s =
      (cur ++ beforeColon s) ::
        (if ':' ∈ s then stringsSplitAux ':' [] (afterColon s) else []) := by
  induction s with
  | nil => intro cur; simp [stringsSplitAux, beforeColon]
  | cons c cs ih =>
    intro cur
    by_cases hc : c = ':'
    · subst hc
      simp [stringsSplitAux, beforeColon, afterColon, List.takeWhile, List.dropWhile]
    · have hm : (':' ∈ c :: cs) ↔ (':' ∈ cs) := by
        simp only [List.mem_cons]
        constructor
        · rintro (h | h)
          · exact absurd h.symm hc
          · exact h
        · exact Or.inr
      simp only [stringsSplitAux, hc, if_false, ih (cur ++ [c]), hm, beforeColon, afterColon,
        List.takeWhile_cons, List.dropWhile_cons, ne_eq, not_false_eq_true, decide_True,
        if_true, List.append_assoc, List.singleton_append]

theorem beforeColon_of_not_mem (s : Str) (h : ¬ ':' ∈ s) : beforeColon s = s := by
  unfold beforeColon
  rw [List.takeWhile_eq_self_iff]
  intro c hc
  have : c ≠ ':' := fun h0 => h (h0 ▸ hc)
  simpa using this

theorem trim_placeholder (body : Str) :
    TrimSuffix (TrimPrefix (placeholder body) "$\x7b".toList) "\x7d".toList = body := by
  have h1 : TrimPrefix (placeholder body) "$\x7b".toList = body ++ ['}'] := by
    simp [TrimPrefix, HasPrefix, placeholder, List.isPrefixOf]
  rw [h1]
  have h2 : HasSuffix (body ++ ['}']) ['}'] = true := by
    simp [HasSuffix, List.isSuffixOf, List.isPrefixOf]
  simp [TrimSuffix, h2]

/-- The fields of the `Var` extracted from a placeholder whose body holds a colon. -/
theorem extractVar_placeholder (body : Str) (pos : Nat) (h : ':' ∈ body) :
    (extractVar (placeholder body) pos).Name = beforeColon body ∧
    (extractVar (placeholder body) pos).expectedKind =
      StringToKind (beforeColon (afterColon body)) := by
  have hc : body.contains ':' = true := by simpa using h
  have hs1 := stringsSplitAux_colon body []
  have hs2 := stringsSplitAux_colon (afterColon body) []
  simp only [h, if_true, List.nil_append] at hs1
  rw [hs2] at hs1
  simp only [extractVar, trim_placeholder, hc, if_true, stringsSplit, hs1]
  exact ⟨rfl, rfl⟩
/-! ## Main results: bindings, score and normalized format -/

theorem bindingOf_array_string {o : Value} (h : kindOf o = .ok Kind.String) :
    bindingOf Kind.Array o = o := by
  cases o with
  | slice xs =>
    simp only [kindOf, Value.reflectKind, Except.ok.injEq] at h
    exact absurd h (by decide)
  | _ => simp [bindingOf]

/-- The table entry right after the iteration on a placeholder at index `x`. -/
theorem readLoop_entry_after (outs : List Value) (words : List Str) (s1 : ReadState)
    (h : readLoop outs 0 words ReadState.init = .ok s1) (x : Nat) (w : Str)
    (hw : words[x]? = some w) (hv : isVar w = true) :
    ∃ o s, outs[x]? = some o ∧
      readLoop outs 0 (words.take (x + 1)) ReadState.init = .ok s ∧
      readLoop outs (x + 1) (words.drop (x + 1)) s = .ok s1 ∧
      s.vars.get (declaredName w) = some (varOf w ((words.take x).countP isVar) o) := by
  have hx : x < words.length := by
    by_contra hge
    rw [List.getElem?_eq_none (by omega)] at hw
    cases hw
  have hsplit : words = words.take (x + 1) ++ words.drop (x + 1) :=
    (List.take_append_drop _ _).symm
  have hlen : (words.take (x + 1)).length = x + 1 := by
    rw [List.length_take]; omega
  rw [hsplit] at h
  obtain ⟨s, hs, hrest⟩ := readLoop_prefix outs _ _ 0 ReadState.init s1 h
  rw [hlen, Nat.zero_add] at hrest
  have hl : LastDecl (words.take (x + 1)) x w := by
    refine ⟨?_, hv, ?_⟩
    · rw [List.getElem?_take_of_lt (by omega)]; exact hw
    · intro y w1 hy hw1 _
      rw [List.getElem?_eq_none (by omega)] at hw1
      cases hw1
  obtain ⟨o, ho, hg⟩ := readLoop_last outs _ 0 ReadState.init s hs x w hl
  refine ⟨o, s, by simpa using ho, hs, hrest, ?_⟩
  rw [hg]
  have ht : (words.take (x + 1)).take x = words.take x := by
    rw [List.take_take]; congr 1; omega
  simp [ReadState.init, ht]

/-- The final table entry of the last placeholder that declares a name. -/
theorem Input.Read_last (ev : Str → Option Value) (i : Input) (F I : Str) (res : Input)
    (sc : F64) (h : Input.Read ev i F I = .ok (res, sc)) (x : Nat) (w : Str)
    (hl : LastDecl (Split F) x w) :
    ∃ o, (SplitArgs ev I)[x]? = some o ∧
      res.Get (declaredName w) = some (varOf w (((Split F).take x).countP isVar) o) := by
  obtain ⟨s, hloop, hres, _⟩ := Input.Read_ok_inv ev i F I res sc h
  obtain ⟨o, ho, hg⟩ := readLoop_last (SplitArgs ev I) (Split F) 0 ReadState.init s hloop x w hl
  refine ⟨o, by simpa using ho, ?_⟩
  rw [hres]
  simpa [Input.Get, ReadState.init] using hg

/-- C11: an Array placeholder at index `x` binds the evaluated input token as it is when
its inferred kind is String, and the first element when the token is a non-empty list.
This is the table entry right after the iteration at `x`, and the final entry when no
later placeholder declares the same name. -/
theorem Read_array_placeholder_binds (ev : Str → Option Value) (i : Input) (F I : Str)
    (res : Input) (sc : F64) (h : Input.Read ev i F I = .ok (res, sc))
    (x : Nat) (w : Str) (hw : (Split F)[x]? = some w) (hv : isVar w = true)
    (hk : declaredKind w = Kind.Array) :
    ∃ o s, (SplitArgs ev I)[x]? = some o ∧
      readLoop (SplitArgs ev I) 0 ((Split F).take (x + 1)) ReadState.init = .ok s ∧
      (kindOf o = .ok Kind.String →
        (s.vars.get (declaredName w)).map Var.Value = some o) ∧
      (∀ y ys, o = Value.slice (y :: ys) →
        (s.vars.get (declaredName w)).map Var.Value = some y) ∧
      (LastDecl (Split F) x w → res.Get (declaredName w) = s.vars.get (declaredName w)) := by
  obtain ⟨s1, hloop, hres, _⟩ := Input.Read_ok_inv ev i F I res sc h
  obtain ⟨o, s, ho, hs, hrest, hg⟩ :=
    readLoop_entry_after (SplitArgs ev I) (Split F) s1 hloop x w hw hv
  refine ⟨o, s, ho, hs, ?_, ?_, ?_⟩
  · intro hstr
    rw [hg]
    simp [varOf, hk, bindingOf_array_string hstr]
  · intro y ys hy
    rw [hg, hy]
    simp [varOf, hk, bindingOf]
  · intro hl
    rw [hres]
    simp only [Input.Get]
    apply readLoop_get_other (SplitArgs ev I) (declaredName w) _ (x + 1) s s1 hrest
    intro w1 hw1 hv1
    obtain ⟨y, hy, hy2⟩ := List.getElem_of_mem hw1
    have hy3 : y < (Split F).length - (x + 1) := by simpa [List.length_drop] using hy
    refine hl.2.2 (x + 1 + y) w1 (by omega) ?_ hv1
    rw [← hy2, List.getElem_drop, List.getElem?_eq_getElem]

/-- C11, witness: `${xs:Array}` against `[1, 2, 3]` binds `xs` to 1, and against `hello`
to the string `hello`. -/
theorem Read_array_placeholder_binds_witness :
    (∃ res sc, Read evalLit phArray "[1, 2, 3]".toList = .ok (res, sc) ∧
      (res.Get "xs".toList).map Var.Value = some (Value.int 1)) ∧
    (∃ res sc, Read evalLit phArray "hello".toList = .ok (res, sc) ∧
      (res.Get "xs".toList).map Var.Value = some (Value.str "hello".toList)) := by
  have hn : declaredName phArray = "xs".toList := by decide
  have hl : LastDecl (Split phArray) 0 phArray := by
    refine ⟨by decide, by decide, fun y w1 hy hw1 _ => ?_⟩
    have hlen : (Split phArray).length = 1 := by decide
    rw [List.getElem?_eq_none (by omega)] at hw1
    cases hw1
  constructor
  · obtain ⟨res, sc, h⟩ : ∃ res sc,
        Input.Read evalLit Input.zero phArray "[1, 2, 3]".toList = .ok (res, sc) :=
      ⟨_, _, rfl⟩
    obtain ⟨o, s, ho, _, _, hlist, hfin⟩ := Read_array_placeholder_binds evalLit Input.zero
      phArray "[1, 2, 3]".toList res sc h 0 phArray (by decide) (by decide) (by decide)
    have ho2 : (SplitArgs evalLit "[1, 2, 3]".toList)[0]? =
        some (Value.slice [Value.int 1, Value.int 2, Value.int 3]) := rfl
    rw [ho2] at ho
    have hv := hlist (Value.int 1) [Value.int 2, Value.int 3] (Option.some.inj ho).symm
    rw [← hfin hl, hn] at hv
    exact ⟨res, sc, h, hv⟩
  · obtain ⟨res, sc, h⟩ : ∃ res sc,
        Input.Read evalLit Input.zero phArray "hello".toList = .ok (res, sc) := ⟨_, _, rfl⟩
    obtain ⟨o, s, ho, _, hstr, _, hfin⟩ := Read_array_placeholder_binds evalLit Input.zero
      phArray "hello".toList res sc h 0 phArray (by decide) (by decide) (by decide)
    have ho2 : (SplitArgs evalLit "hello".toList)[0]? = some (Value.str "hello".toList) := rfl
    rw [ho2] at ho
    have ho3 : o = Value.str "hello".toList := (Option.some.inj ho).symm
    subst ho3
    have hv := hstr rfl
    rw [← hfin hl, hn] at hv
    exact ⟨res, sc, h, hv⟩
theorem matchedCount_all_array (outs : List Value) (ws : List Str) :
    ∀ x : Nat, (∀ w ∈ ws, isVar w = true ∧ declaredKind w = Kind.Array) →
      x + ws.length ≤ outs.length → matchedCount outs x ws = ws.length := by
  induction ws with
  | nil => intro x _ _; rfl
  | cons w ws ih =>
    intro x hall hlen
    simp only [List.length_cons] at hlen
    have hx : x < outs.length := by omega
    obtain ⟨hv, hk⟩ := hall w (List.mem_cons_self _ _)
    rw [matchedCount, List.getElem?_eq_getElem hx,
      ih (x + 1) (fun w1 h1 => hall w1 (List.mem_cons_of_mem _ h1)) (by omega)]
    simp [matchedOne, hv, hk]
    omega

/-- C12: in a successful `Read` the iteration on an Array placeholder adds exactly 1 to the
counter of matched tokens, whatever the input token at that index is; the score is the
number of Array placeholders and matched literal tokens over the number of format tokens,
and a non-empty format made of Array placeholders only scores 1. -/
theorem Read_array_placeholder_counts (ev : Str → Option Value) (i : Input) (F I : Str)
    (res : Input) (sc : F64) (h : Input.Read ev i F I = .ok (res, sc)) :
    (∀ (x : Nat) (w : Str), (Split F)[x]? = some w → isVar w = true →
      declaredKind w = Kind.Array →
      ∃ s0 s1, readLoop (SplitArgs ev I) 0 ((Split F).take x) ReadState.init = .ok s0 ∧
        readLoop (SplitArgs ev I) 0 ((Split F).take (x + 1)) ReadState.init = .ok s1 ∧
        s1.scores = s0.scores + 1) ∧
    sc = F64.divNat (matchedCount (SplitArgs ev I) 0 (Split F)) (Split F).length ∧
    ((∀ w ∈ Split F, isVar w = true ∧ declaredKind w = Kind.Array) → Split F ≠ [] →
      sc = F64.fin 1) := by
  obtain ⟨s, hloop, _, hsc⟩ := Input.Read_ok_inv ev i F I res sc h
  obtain ⟨_, _, hscore⟩ := readLoop_summary (SplitArgs ev I) (Split F) 0 ReadState.init s hloop
  have hsc2 : sc = F64.divNat (matchedCount (SplitArgs ev I) 0 (Split F)) (Split F).length := by
    rw [hsc, hscore]; simp [ReadState.init]
  refine ⟨?_, hsc2, ?_⟩
  · intro x w hw hv hk
    have hx : x < (Split F).length := by
      by_contra hge
      rw [List.getElem?_eq_none (by omega)] at hw
      cases hw
    have hsplit : Split F = (Split F).take (x + 1) ++ (Split F).drop (x + 1) :=
      (List.take_append_drop _ _).symm
    have hloop2 := hloop
    rw [hsplit] at hloop2
    obtain ⟨s1, hs1, _⟩ := readLoop_prefix _ _ _ 0 ReadState.init s hloop2
    have htake : (Split F).take (x + 1) = (Split F).take x ++ [w] := by
      rw [List.take_succ, hw]; rfl
    have hs1b := hs1
    rw [htake] at hs1b
    obtain ⟨s0, hs0, hlast⟩ := readLoop_prefix _ _ _ 0 ReadState.init s1 hs1b
    refine ⟨s0, s1, hs0, hs1, ?_⟩
    have hlx : 0 + ((Split F).take x).length = x := by
      rw [List.length_take]; omega
    rw [hlx] at hlast
    simp only [readLoop] at hlast
    cases hstep : readStep (SplitArgs ev I) x w s0 with
    | error e => simp [hstep] at hlast
    | ok s2 =>
      simp only [hstep, Except.ok.injEq] at hlast
      subst hlast
      obtain ⟨o, _, _, hs, _, _⟩ := readStep_ok hstep
      rw [hs]; simp [matchedOne, hv, hk]
  · intro hall hne
    have hlenle : (Split F).length ≤ (SplitArgs ev I).length := by
      by_contra hlt
      obtain ⟨e, he⟩ := readLoop_short (SplitArgs ev I) (Split F) 0 ReadState.init
        (Nat.zero_le _) (by omega)
      rw [he] at hloop; cases hloop
    rw [hsc2, matchedCount_all_array _ _ 0 hall (by omega)]
    have hpos : 0 < (Split F).length := List.length_pos.mpr hne
    exact F64.divNat_self hpos

/-- C12, witness: `${xs:Array} ${ys:Array}` against `[1] hello` scores 1, although the
second token is no list. -/
theorem Read_array_placeholder_counts_witness :
    ∃ res, Read evalLit twoArrays "[1] hello".toList = .ok (res, F64.fin 1) := by
  obtain ⟨res, sc, h⟩ : ∃ res sc,
      Input.Read evalLit Input.zero twoArrays "[1] hello".toList = .ok (res, sc) :=
    ⟨_, _, rfl⟩
  have h1 := (Read_array_placeholder_counts evalLit Input.zero twoArrays "[1] hello".toList
    res sc h).2.2 (by decide) (by decide)
  exact ⟨res, by rw [← h1]; exact h⟩

/-- C13: the result of `Read` does not depend on the receiver: on every `Input`, fresh or
left by earlier calls, it is the result on a fresh `Input` (same score, table, normalized
format and line, or the same fault); so a second call with the same arguments returns what
the first returned. -/
theorem Read_independent_of_receiver (ev : Str → Option Value) (F I : Str) :
    (∀ i : Input, Input.Read ev i F I = Read ev F I) ∧
    (∀ (i i1 : Input) (sc : F64), Input.Read ev i F I = .ok (i1, sc) →
      Input.Read ev i1 F I = .ok (i1, sc)) ∧
    (∀ (i i1 : Input) (sc : F64) (F1 I1 : Str), Input.Read ev i F1 I1 = .ok (i1, sc) →
      Input.Read ev i1 F I = Read ev F I) := by
  have h0 : ∀ i : Input, Input.Read ev i F I = Read ev F I := by
    intro i
    unfold Read Input.Read
    rfl
  refine ⟨h0, ?_, ?_⟩
  · intro i i1 sc h
    rw [h0 i1, ← h0 i]; exact h
  · intro i i1 sc F1 I1 _
    exact h0 i1

/-- C14: after a successful `Read`, `Get(n)` is present exactly for the names that a
placeholder token of the format declares; the keys of `All()` are these names, each once,
and `All()[n]` is the value of `Get(n)`. -/
theorem Read_table_keys (ev : Str → Option Value) (i : Input) (F I : Str)
    (res : Input) (sc : F64) (h : Input.Read ev i F I = .ok (res, sc)) :
    (∀ n, (res.Get n).isSome = true ↔
      ∃ w ∈ Split F, isVar w = true ∧ declaredName w = n) ∧
    (∀ n, n ∈ res.All.map Prod.fst ↔
      ∃ w ∈ Split F, isVar w = true ∧ declaredName w = n) ∧
    (res.All.map Prod.fst).Nodup ∧
    (∀ n, allGet res.All n = (res.Get n).map Var.Value) := by
  obtain ⟨s, hloop, hres, _⟩ := Input.Read_ok_inv ev i F I res sc h
  obtain ⟨hnd, hkeys⟩ := readLoop_keys (SplitArgs ev I) (Split F) 0 ReadState.init s hloop
  have hall : res.All.map Prod.fst = s.vars.map Prod.fst := by
    rw [hres]; simp [Input.All, Function.comp_def]
  refine ⟨?_, ?_, ?_, fun n => allGet_All res n⟩
  · intro n
    rw [hres]
    simp only [Input.Get]
    rw [VarMap.get_isSome_iff, hkeys n]
    simp [ReadState.init]
  · intro n
    rw [hall, hkeys n]
    simp [ReadState.init]
  · rw [hall]
    exact hnd (by simp [ReadState.init])

/-- C14, witness: with the example format `Get` finds `args` and does not find `name`,
which is a literal token. -/
theorem Read_table_keys_witness :
    ∃ res sc, Read evalLit exampleFormat exampleLine = .ok (res, sc) ∧
      (res.Get "args".toList).isSome = true ∧ (res.Get "name".toList).isSome = false ∧
      (res.All.map Prod.fst).Nodup := by
  obtain ⟨res, sc, h⟩ : ∃ res sc,
      Input.Read evalLit Input.zero exampleFormat exampleLine = .ok (res, sc) := ⟨_, _, rfl⟩
  obtain ⟨hget, _, hnd, _⟩ := Read_table_keys evalLit Input.zero exampleFormat exampleLine
    res sc h
  refine ⟨res, sc, h, (hget _).mpr ⟨"$\x7bargs:Int\x7d".toList, by decide, by decide,
    by decide⟩, ?_, hnd⟩
  cases hs : (res.Get "name".toList).isSome with
  | false => rfl
  | true =>
    obtain ⟨w, hw, hv, hn⟩ := (hget _).mp hs
    revert hv hn
    revert w
    decide

theorem VarMap.one_entry (m : VarMap) (n : Str) (hnd : (m.map Prod.fst).Nodup)
    (hmem : n ∈ m.map Prod.fst) :
    (m.filter (fun e => decide (e.1 = n))).length = 1 := by
  induction m with
  | nil => simp at hmem
  | cons e es ih =>
    simp only [List.map_cons, List.nodup_cons] at hnd
    by_cases he : e.1 = n
    · have hno : List.filter (fun e => decide (e.1 = n)) es = [] := by
        rw [List.filter_eq_nil_iff]
        intro a ha hk
        have hk2 : a.1 = n := by simpa using hk
        apply hnd.1
        rw [he, ← hk2]
        exact List.mem_map_of_mem _ ha
      rw [List.filter_cons_of_pos (by simpa using he), hno]
      rfl
    · rw [List.filter_cons_of_neg (by simpa using he)]
      apply ih hnd.2
      simp only [List.map_cons, List.mem_cons] at hmem
      rcases hmem with h1 | h1
      · exact absurd h1.symm he
      · exact h1

/-- C15: after a successful `Read`, the entry of a name is the `Var` built from the last
placeholder token that declares it: its expected kind, format symbol, position among the
placeholders and bound value are those of that token, and the table holds one entry for
the name. -/
theorem Read_last_declaration_wins (ev : Str → Option Value) (i : Input) (F I : Str)
    (res : Input) (sc : F64) (h : Input.Read ev i F I = .ok (res, sc))
    (x : Nat) (w : Str) (hl : LastDecl (Split F) x w) :
    ∃ o v, (SplitArgs ev I)[x]? = some o ∧ res.Get (declaredName w) = some v ∧
      v.Name = declaredName w ∧ v.expectedKind = declaredKind w ∧
      v.fmtValue = KindFmtSymbol (declaredKind w) ∧
      v.Pos = ((Split F).take x).countP isVar ∧
      v.Value = bindingOf (declaredKind w) o ∧
      (res.vars.filter (fun e => decide (e.1 = declaredName w))).length = 1 := by
  obtain ⟨o, ho, hg⟩ := Input.Read_last ev i F I res sc h x w hl
  obtain ⟨s, hloop, hres, _⟩ := Input.Read_ok_inv ev i F I res sc h
  obtain ⟨hnd, hkeys⟩ := readLoop_keys (SplitArgs ev I) (Split F) 0 ReadState.init s hloop
  refine ⟨o, _, ho, hg, rfl, rfl, rfl, rfl, rfl, ?_⟩
  rw [hres]
  apply VarMap.one_entry _ _ (hnd (by simp [ReadState.init]))
  rw [hkeys]
  exact Or.inr ⟨w, List.getElem?_mem hl.1, hl.2.1, rfl⟩

/-- C15, witness: `${a:Int} ${a:String}` against `1 x` leaves one entry for `a`, of kind
String, at position 1, bound to the text `x`. -/
theorem Read_last_declaration_wins_witness :
    ∃ res sc v, Read evalLit twiceA "1 x".toList = .ok (res, sc) ∧
      res.Get "a".toList = some v ∧ v.expectedKind = Kind.String ∧ v.Pos = 1 ∧
      v.Value = Value.str "x".toList ∧
      (res.vars.filter (fun e => decide (e.1 = "a".toList))).length = 1 := by
  obtain ⟨res, sc, h⟩ : ∃ res sc,
      Input.Read evalLit Input.zero twiceA "1 x".toList = .ok (res, sc) := ⟨_, _, rfl⟩
  have hl : LastDecl (Split twiceA) 1 "$\x7ba:String\x7d".toList := by
    refine ⟨by decide, by decide, fun y w1 hy hw1 _ => ?_⟩
    have hlen : (Split twiceA).length = 2 := by decide
    rw [List.getElem?_eq_none (by omega)] at hw1
    cases hw1
  obtain ⟨o, v, ho, hg, _, hk, _, hp, hval, hc⟩ :=
    Read_last_declaration_wins evalLit Input.zero twiceA "1 x".toList res sc h 1 _ hl
  have ho2 : (SplitArgs evalLit "1 x".toList)[1]? = some (Value.str "x".toList) := rfl
  rw [ho2] at ho
  have ho3 : o = Value.str "x".toList := (Option.some.inj ho).symm
  subst ho3
  have hn : declaredName "$\x7ba:String\x7d".toList = "a".toList := by decide
  have hkk : declaredKind "$\x7ba:String\x7d".toList = Kind.String := by decide
  rw [hn] at hg hc
  rw [hkk] at hk hval
  exact ⟨res, sc, v, h, hg, hk, by rw [hp]; decide, by rw [hval]; rfl, hc⟩

/-- C16: after a successful `Read`, `Line()` is the format tokens joined by single spaces,
a literal token as it is and a placeholder token as the format symbol of its declared
kind. -/
theorem Read_Line_eq (ev : Str → Option Value) (i : Input) (F I : Str)
    (res : Input) (sc : F64) (h : Input.Read ev i F I = .ok (res, sc)) :
    res.Line = joinSpace ((Split F).map fmtToken) := by
  obtain ⟨s, hloop, hres, _⟩ := Input.Read_ok_inv ev i F I res sc h
  obtain ⟨hm, _, _⟩ := readLoop_summary (SplitArgs ev I) (Split F) 0 ReadState.init s hloop
  rw [hres]
  simp [Input.Line, hm, ReadState.init]

/-- C16, witness: the example format is normalized to `%s %d name %s`. -/
theorem Read_Line_eq_witness :
    ∃ res sc, Read evalLit exampleFormat exampleLine = .ok (res, sc) ∧
      res.Line = "%s %d name %s".toList := by
  obtain ⟨res, sc, h⟩ : ∃ res sc,
      Input.Read evalLit Input.zero exampleFormat exampleLine = .ok (res, sc) := ⟨_, _, rfl⟩
  have hline := Read_Line_eq evalLit Input.zero exampleFormat exampleLine res sc h
  exact ⟨res, sc, h, by rw [hline]; decide⟩
/-! ## Main results: placeholder extraction and kind names -/

/-- C17, as stated, fails: for the body `a:Int:x` the text after the first colon is
`Int:x`, which is no kind name, while `extractVar` resolves `Int`, the text between the
first and the second colon. -/
theorem extractVar_two_colons :
    afterColon "a:Int:x".toList = "Int:x".toList ∧
    StringToKind (afterColon "a:Int:x".toList) = Kind.Null ∧
    (extractVar (placeholder "a:Int:x".toList) 0).expectedKind = Kind.Int ∧
    (extractVar (placeholder "a:Int:x".toList) 0).expectedKind ≠
      StringToKind (afterColon "a:Int:x".toList) := by
  decide

/-- C17, amended: for a placeholder token whose body contains a colon, `extractVar` splits
the body on every colon: `Name` is the text before the first colon, `expectedKind` is
`StringToKind` of the text between the first colon and the second one (all the text after
the first colon when there is no second one), and `fmtValue` is `KindFmtSymbol` of that
kind. -/
theorem extractVar_splits_on_colons (body : Str) (pos : Nat) (h : ':' ∈ body) :
    (extractVar (placeholder body) pos).Name = beforeColon body ∧
    (extractVar (placeholder body) pos).expectedKind =
      StringToKind (beforeColon (afterColon body)) ∧
    (¬ ':' ∈ afterColon body →
      (extractVar (placeholder body) pos).expectedKind = StringToKind (afterColon body)) ∧
    (extractVar (placeholder body) pos).fmtValue =
      KindFmtSymbol ((extractVar (placeholder body) pos).expectedKind) ∧
    (extractVar (placeholder body) pos).Pos = pos := by
  obtain ⟨hn, hk⟩ := extractVar_placeholder body pos h
  refine ⟨hn, hk, ?_, ?_, extractVar_Pos _ _⟩
  · intro hno
    rw [hk, beforeColon_of_not_mem _ hno]
  · rw [extractVar_fmtValue, extractVar_expectedKind]

/-- C17, witness: the body `n:Int` gives the name `n` and the kind Int. -/
theorem extractVar_splits_on_colons_witness :
    (extractVar (placeholder "n:Int".toList) 0).Name = "n".toList ∧
    (extractVar (placeholder "n:Int".toList) 0).expectedKind = Kind.Int ∧
    (extractVar (placeholder "n:Int".toList) 0).fmtValue = "%d".toList := by
  obtain ⟨hn, hk, _, hf, _⟩ := extractVar_splits_on_colons "n:Int".toList 0 (by decide)
  refine ⟨by rw [hn]; decide, by rw [hk]; decide, ?_⟩
  rw [hf, hk]; decide

/-- C18: on a text that is none of the recognized kind names `StringToKind` returns Null,
the zero kind. -/
theorem StringToKind_unknown (s : Str) (h : ¬ s ∈ kindNames) : StringToKind s = Kind.Null := by
  simp only [kindNames, List.mem_cons, List.mem_singleton, List.not_mem_nil, or_false,
    not_or] at h
  obtain ⟨h1, h2, h3, h4, h5, h6, h7, h8, h9, h10, h11, h12⟩ := h
  simp only [StringToKind, h1, h2, h3, h4, h5, h6, h7, h8, h9, h10, h11, h12, if_false]
  rfl

/-- C18, witness: the placeholder `${x:Bogus}` gets the expected kind Null. -/
theorem StringToKind_unknown_witness :
    StringToKind "Bogus".toList = Kind.Null ∧
    (extractVar (placeholder "x:Bogus".toList) 0).expectedKind = Kind.Null :=
  ⟨StringToKind_unknown "Bogus".toList (by decide), by decide⟩

/-- C19: kind names do not round-trip for Byte, Uint and String: `KindString` writes Byte
as `Uint32` and has no case for Uint and String, which come out as the numerals `3` and
`6`; `StringToKind` reads all three back as Null.  The other eight kinds round-trip. -/
theorem KindString_round_trip_fails :
    KindString Kind.Byte = "Uint32".toList ∧
    StringToKind (KindString Kind.Byte) = Kind.Null ∧ Kind.Null ≠ Kind.Byte ∧
    KindString Kind.Uint = "3".toList ∧
    StringToKind (KindString Kind.Uint) = Kind.Null ∧ Kind.Null ≠ Kind.Uint ∧
    KindString Kind.String = "6".toList ∧
    StringToKind (KindString Kind.String) = Kind.Null ∧ Kind.Null ≠ Kind.String ∧
    (∀ k ∈ [Kind.Null, Kind.Bool, Kind.Int, Kind.Float, Kind.Map, Kind.Array, Kind.Any,
        Kind.RGBHex], StringToKind (KindString k) = k) := by
  decide

/-- C20: `KindString` is injective on the uint8 values, so in particular on the eleven
kinds of the enumeration: two distinct kinds have distinct display names. -/
theorem KindString_injective (k1 k2 : Kind) (h1 : k1 < 256) (h2 : k2 < 256)
    (hne : k1 ≠ k2) : KindString k1 ≠ KindString k2 := by
  intro h
  apply hne
  rw [← kindOfDisplay_KindString k1 h1, ← kindOfDisplay_KindString k2 h2, h]

/-- C20, witness: Uint and Byte, whose names are `3` and `Uint32`; and all the eleven
kinds are uint8 values. -/
theorem KindString_injective_witness :
    KindString Kind.Uint ≠ KindString Kind.Byte ∧ ∀ k ∈ allKinds, k < 256 :=
  ⟨KindString_injective Kind.Uint Kind.Byte (by decide) (by decide) (by decide), by decide⟩

/-! ## Main results: kind inference -/

/-- C21: `kindOf` does not follow the stated classification: every slice is Byte, so the
list `[1, 2, 3]` (a `[]any`) is Byte and not Array; every fixed-size array is Array, also
one of bytes; and a value of another representation gets the number of its reflect kind
(25 for a struct), not Any.  Booleans, integers, floats, text and maps are classified as
stated. -/
theorem kindOf_list_is_Byte :
    SplitArgs evalLit "[1, 2, 3]".toList =
      [Value.slice [Value.int 1, Value.int 2, Value.int 3]] ∧
    kindOf (Value.slice [Value.int 1, Value.int 2, Value.int 3]) = .ok Kind.Byte ∧
    Kind.Byte ≠ Kind.Array ∧
    (∀ tag, kindOf (Value.other ReflectKind.Slice tag) = .ok Kind.Byte) ∧
    (∀ tag, kindOf (Value.other ReflectKind.Array tag) = .ok Kind.Array) ∧
    (∀ tag, kindOf (Value.other ReflectKind.Struct tag) = .ok 25) ∧ (25 : Kind) ≠ Kind.Any ∧
    (∀ b, kindOf (Value.bool b) = .ok Kind.Bool) ∧
    (∀ n, kindOf (Value.int n) = .ok Kind.Int) ∧
    (∀ tag, kindOf (Value.other ReflectKind.Uint tag) = .ok Kind.Uint) ∧
    (∀ f, kindOf (Value.float f) = .ok Kind.Float) ∧
    (∀ s, kindOf (Value.str s) = .ok Kind.String) ∧
    (∀ kvs, kindOf (Value.map kvs) = .ok Kind.Map) := by
  refine ⟨rfl, rfl, by decide, fun _ => rfl, fun _ => rfl, fun _ => rfl, by decide,
    fun _ => rfl, fun _ => rfl, fun _ => rfl, fun _ => rfl, fun _ => rfl, fun _ => rfl⟩

theorem kindOf_ne_Any (v : Value) (h : v.Concrete) : kindOf v ≠ .ok Kind.Any := by
  unfold Value.Concrete at h
  unfold kindOf
  cases hk : v.reflectKind with
  | none => simp
  | some k =>
    rw [hk] at h
    cases k <;> first | (exact absurd rfl h) | (simp only [ne_eq, Except.ok.injEq]; decide)

/-- C22: `kindOf` never returns Any on a value (the dynamic type of a value is no interface
type; on nil it faults).  So in the iteration of `Read` on a placeholder of expected kind
Any, as `${x}` and `${x:Any}` are, the kind comparison is false and neither `score` nor
`scores` grows, while the evaluated token is bound to the name. -/
theorem kindOf_never_Any :
    (∀ v : Value, v.Concrete → kindOf v ≠ .ok Kind.Any) ∧
    declaredKind "$\x7bx\x7d".toList = Kind.Any ∧
    declaredKind "$\x7bx:Any\x7d".toList = Kind.Any ∧
    (∀ (outs : List Value) (x : Nat) (w : Str) (s s1 : ReadState),
      readStep outs x w s = .ok s1 → isVar w = true → declaredKind w = Kind.Any →
      (∀ o, outs[x]? = some o → o.Concrete) →
      ∃ o, outs[x]? = some o ∧ s1.score = s.score ∧ s1.scores = s.scores ∧
        (s1.vars.get (declaredName w)).map Var.Value = some o) := by
  refine ⟨kindOf_ne_Any, by decide, by decide, ?_⟩
  intro outs x w s s1 h hv hk hc
  have hka : declaredKind w ≠ Kind.Array := by rw [hk]; decide
  obtain ⟨o, k, ho, hko, he⟩ := readStep_var hv hka h
  have hne : Kind.Any ≠ k := by
    intro h0
    exact kindOf_ne_Any o (hc o ho) (by rw [hko, h0])
  subst he
  refine ⟨o, ho, ?_, rfl, ?_⟩
  · simp [hk, hne]
  · simp [VarMap.get_insert_self]

/-- C22, witness: `${x}` against the token `7` binds the integer 7 and leaves the score
at 0. -/
theorem kindOf_never_Any_witness :
    kindOf (Value.int 7) ≠ .ok Kind.Any ∧
    ∃ res, Read evalLit "$\x7bx\x7d".toList "7".toList = .ok (res, F64.fin 0) ∧
      (res.Get "x".toList).map Var.Value = some (Value.int 7) := by
  refine ⟨kindOf_never_Any.1 (Value.int 7) (by simp [Value.Concrete, Value.reflectKind]), ?_⟩
  obtain ⟨res, h, hg⟩ : ∃ res, Input.Read evalLit Input.zero "$\x7bx\x7d".toList "7".toList
      = .ok (res, F64.divNat 0 1) ∧ (res.Get "x".toList).map Var.Value = some (Value.int 7) :=
    ⟨_, rfl, rfl⟩
  refine ⟨res, ?_, hg⟩
  rw [Read, h, F64.divNat_zero (by decide)]
/-! ## Main results: unbalanced brackets and quotes in `Split` -/

theorem refDepth_zero_of_no_open (s : Str) (hs : ∀ c ∈ s, c ≠ '{' ∧ c ≠ '[') :
    ∀ pre : Str, refDepth pre = 0 → refDepth (pre ++ s) = 0 := by
  induction s with
  | nil => intro pre h; simpa using h
  | cons c cs ih =>
    intro pre h
    have hc := hs c (List.mem_cons_self _ _)
    have h1 : refDepth (pre ++ [c]) = 0 := by
      rw [refDepth_snoc, h]
      simp only [refDepthStep, hc.1, hc.2, or_self, if_false]
      split <;> rfl
    have := ih (fun x hx => hs x (List.mem_cons_of_mem _ hx)) (pre ++ [c]) h1
    simpa using this

theorem refQuote_of_no_quote (s : Str) (hs : ∀ c ∈ s, c ≠ chApos ∧ c ≠ chQuote) :
    ∀ pre : Str, refQuote (pre ++ s) = refQuote pre := by
  induction s with
  | nil => intro pre; simp
  | cons c cs ih =>
    intro pre
    have hc := hs c (List.mem_cons_self _ _)
    have h1 : refQuote (pre ++ [c]) = refQuote pre := by
      rw [refQuote_snoc]
      simp [refQuoteStep, hc.1, hc.2]
    have := ih (fun x hx => hs x (List.mem_cons_of_mem _ hx)) (pre ++ [c])
    rw [h1] at this
    simpa using this

/-- Without opening brackets and quotes in the rest of the text, no run holds a
separator. -/
theorem refRunsAux_no_sep (rest : Str)
    (hr : ∀ c ∈ rest, c ≠ '{' ∧ c ≠ '[' ∧ c ≠ chApos ∧ c ≠ chQuote) :
    ∀ pre cur : Str, refDepth pre = 0 → refQuote pre = false →
      (∀ c ∈ cur, isSep c = false) →
      ∀ t ∈ refRunsAux pre cur rest, ∀ c ∈ t, isSep c = false := by
  induction rest with
  | nil =>
    intro pre cur _ _ hcur t ht
    simp only [refRunsAux, List.mem_singleton] at ht
    subst ht; exact hcur
  | cons c cs ih =>
    intro pre cur hd hq hcur t ht
    have hc := hr c (List.mem_cons_self _ _)
    have hd1 : refDepth (pre ++ [c]) = 0 := by
      have := refDepth_zero_of_no_open [c] (by
        intro x hx; simp only [List.mem_singleton] at hx; subst hx; exact ⟨hc.1, hc.2.1⟩) pre hd
      simpa using this
    have hq1 : refQuote (pre ++ [c]) = false := by
      have := refQuote_of_no_quote [c] (by
        intro x hx; simp only [List.mem_singleton] at hx; subst hx; exact hc.2.2) pre
      rw [this]; exact hq
    have hrest : ∀ x ∈ cs, x ≠ '{' ∧ x ≠ '[' ∧ x ≠ chApos ∧ x ≠ chQuote :=
      fun x hx => hr x (List.mem_cons_of_mem _ hx)
    have hb : refBoundary pre c = isSep c := by simp [refBoundary, hd, hq]
    simp only [refRunsAux, hb] at ht
    by_cases hs : isSep c = true
    · simp only [hs, if_true, List.mem_cons] at ht
      rcases ht with ht | ht
      · subst ht; exact hcur
      · exact ih hrest (pre ++ [c]) [] hd1 hq1 (by simp) t ht
    · have hs2 : isSep c = false := by simpa using hs
      simp only [hs2, Bool.false_eq_true, if_false] at ht
      refine ih hrest (pre ++ [c]) (cur ++ [c]) hd1 hq1 ?_ t ht
      intro x hx
      rcases List.mem_append.mp hx with h1 | h1
      · exact hcur x h1
      · simp only [List.mem_singleton] at h1; subst h1; exact hs2

/-- C25: in a text without `{`, `[` and quote characters (closing brackets allowed) the
depth stays 0 after every initial part, and `Split` cuts at every space, comma and colon:
no returned token holds one of them. -/
theorem Split_unmatched_closing (text : Str)
    (h : ∀ c ∈ text, c ≠ '{' ∧ c ≠ '[' ∧ c ≠ chApos ∧ c ≠ chQuote) :
    (∀ p r : Str, text = p ++ r → refDepth p = 0 ∧ (stateOf p).lvl = 0 ∧
      (stateOf p).canSplit = true) ∧
    ∀ t ∈ Split text, ∀ c ∈ t, isSep c = false := by
  constructor
  · intro p r he
    have hp : ∀ c ∈ p, c ≠ '{' ∧ c ≠ '[' := by
      intro c hc
      have := h c (by rw [he]; exact List.mem_append_left _ hc)
      exact ⟨this.1, this.2.1⟩
    have hd := refDepth_zero_of_no_open p hp [] (by simp [refDepth])
    simp only [List.nil_append] at hd
    exact ⟨hd, hd, by simp [stateOf, hd]⟩
  · intro t ht
    have ht1 : t ∈ FieldsFunc text splitFn SplitState.init := (List.mem_filter.mp ht).1
    rw [FieldsFunc_eq_refTokenize] at ht1
    have ht2 : t ∈ refRunsAux [] [] text := (List.mem_filter.mp ht1).1
    exact refRunsAux_no_sep text h [] [] (by simp [refDepth]) (by simp [refQuote]) (by simp)
      t ht2

/-- C25, witness: `a] b,c` gives the tokens `a]`, `b` and `c`. -/
theorem Split_unmatched_closing_witness :
    Split "a] b,c".toList = ["a]".toList, "b".toList, "c".toList] ∧
    ∀ t ∈ Split "a] b,c".toList, ∀ c ∈ t, isSep c = false :=
  ⟨by decide, (Split_unmatched_closing "a] b,c".toList (by decide)).2⟩

theorem refQuote_eq_parity (p : Str) :
    refQuote p = decide (p.countP isQuoteChar % 2 = 1) := by
  have gen : ∀ (s : Str) (q : Bool),
      s.foldl refQuoteStep q = (q != decide (s.countP isQuoteChar % 2 = 1)) := by
    intro s
    induction s with
    | nil => intro q; simp
    | cons c cs ih =>
      intro q
      rw [List.foldl_cons, ih, List.countP_cons]
      by_cases hc : c = chApos ∨ c = chQuote
      · have h1 : isQuoteChar c = true := by simpa [isQuoteChar] using hc
        simp only [refQuoteStep, hc, if_true, h1]
        cases q <;> by_cases hp : cs.countP isQuoteChar % 2 = 1 <;>
          simp [hp] <;> omega
      · have h1 : isQuoteChar c = false := by simpa [isQuoteChar] using hc
        simp [refQuoteStep, hc, h1]
  rw [refQuote, gen]
  simp

/-- A stretch of text without boundary goes into the run that is open when it starts. -/
theorem refRunsAux_no_boundary (s2 : Str) :
    ∀ pre cur : Str,
      (∀ r1 c r2, s2 = r1 ++ c :: r2 → refBoundary (pre ++ r1) c = false) →
      refRunsAux pre cur s2 = [cur ++ s2] := by
  induction s2 with
  | nil => intro pre cur _; simp [refRunsAux]
  | cons c cs ih =>
    intro pre cur hb
    have h0 : refBoundary pre c = false := by
      have := hb [] c cs rfl
      simpa using this
    simp only [refRunsAux, h0, Bool.false_eq_true, if_false]
    rw [ih (pre ++ [c]) (cur ++ [c]) (fun r1 x r2 he => by
      have := hb (c :: r1) x r2 (by rw [he]; rfl)
      simpa [List.append_assoc] using this)]
    simp

theorem refRunsAux_tail (s1 s2 : Str) :
    ∀ pre cur : Str,
      (∀ r1 c r2, s2 = r1 ++ c :: r2 → refBoundary (pre ++ s1 ++ r1) c = false) →
      ∃ init cur1, refRunsAux pre cur (s1 ++ s2) = init ++ [cur1 ++ s2] := by
  induction s1 with
  | nil =>
    intro pre cur hb
    refine ⟨[], cur, ?_⟩
    simp only [List.nil_append]
    exact refRunsAux_no_boundary s2 pre cur (by simpa using hb)
  | cons c cs ih =>
    intro pre cur hb
    have hb1 : ∀ r1 x r2, s2 = r1 ++ x :: r2 → refBoundary (pre ++ [c] ++ cs ++ r1) x = false := by
      intro r1 x r2 he
      have := hb r1 x r2 he
      simpa [List.append_assoc] using this
    simp only [List.cons_append, refRunsAux]
    by_cases hbc : refBoundary pre c = true
    · obtain ⟨init, cur1, he⟩ := ih (pre ++ [c]) [] hb1
      exact ⟨cur :: init, cur1, by simp [hbc, he]⟩
    · obtain ⟨init, cur1, he⟩ := ih (pre ++ [c]) (cur ++ [c]) hb1
      exact ⟨init, cur1, by simp [hbc, he]⟩

/-- C26: when the text is `p`, a quote character `q` and `r`, with an even number of quote
characters in `p` and none in `r`, no character of `q` and `r` is a boundary, and the last
token that `Split` returns ends with `q` followed by `r`. -/
theorem Split_unterminated_quote (p r : Str) (q : Char)
    (hq : q = chApos ∨ q = chQuote) (hp : p.countP isQuoteChar % 2 = 0)
    (hr : ∀ c ∈ r, c ≠ chApos ∧ c ≠ chQuote) :
    (∀ r1 c r2, q :: r = r1 ++ c :: r2 → refBoundary (p ++ r1) c = false) ∧
    ∃ t, (Split (p ++ q :: r)).getLast? = some t ∧ (q :: r) <:+ t := by
  have hqp : refQuote p = false := by
    rw [refQuote_eq_parity]; simp [hp]
  have hnb : ∀ r1 c r2, q :: r = r1 ++ c :: r2 → refBoundary (p ++ r1) c = false := by
    intro r1 c r2 he
    cases r1 with
    | nil =>
      simp only [List.nil_append, List.cons.injEq] at he
      obtain ⟨h1, _⟩ := he
      subst h1
      have hns : isSep q = false := by
        rcases hq with h | h <;> subst h <;> decide
      simp [refBoundary, hns]
    | cons d r1 =>
      simp only [List.cons_append, List.cons.injEq] at he
      obtain ⟨h1, h2⟩ := he
      subst h1
      have hr1 : ∀ x ∈ r1, x ≠ chApos ∧ x ≠ chQuote := by
        intro x hx; exact hr x (by rw [h2]; exact List.mem_append_left _ hx)
      have h3 : refQuote (p ++ q :: r1) = true := by
        have h4 := refQuote_of_no_quote r1 hr1 (p ++ [q])
        have h5 : refQuote (p ++ [q]) = true := by
          rw [refQuote_snoc, hqp]; simp [refQuoteStep, hq]
        rw [h5] at h4
        simpa [List.append_assoc] using h4
      simp [refBoundary, h3]
  refine ⟨hnb, ?_⟩
  obtain ⟨init, cur1, he⟩ := refRunsAux_tail p (q :: r) [] [] (by simpa using hnb)
  have hkeep : TrimSpace (cur1 ++ q :: r) ≠ [] := by
    rw [TrimSpace_ne_nil_iff, List.any_eq_true]
    refine ⟨q, by simp, ?_⟩
    rcases hq with h | h <;> subst h <;> decide
  refine ⟨cur1 ++ q :: r, ?_, List.suffix_append _ _⟩
  simp only [Split, FieldsFunc_eq_refTokenize, refTokenize, he, List.filter_append,
    List.filter_cons, List.filter_nil]
  have hne : cur1 ++ q :: r ≠ [] := by simp
  simp [hne, hkeep]

/-- C26, witness: in `a 'b c, d` the quote is never closed, and the last token is
`'b c, d`. -/
theorem Split_unterminated_quote_witness :
    Split (['a', ' '] ++ chApos :: "b c, d".toList) = [['a'], chApos :: "b c, d".toList] ∧
    ∃ t, (Split (['a', ' '] ++ chApos :: "b c, d".toList)).getLast? = some t ∧
      (chApos :: "b c, d".toList) <:+ t :=
  ⟨by decide, (Split_unterminated_quote ['a', ' '] "b c, d".toList chApos (Or.inl rfl)
    (by decide) (by decide)).2⟩
/-! ## Template engine -/

theorem bytesIndex_spec (sep : Str) (s : Str) :
    ∀ n : Nat, bytesIndex s sep = some n →
      s = s.take n ++ sep ++ s.drop (n + sep.length) := by
  induction s with
  | nil =>
    intro n h
    by_cases hs : sep = []
    · subst hs; simp
    · simp [bytesIndex, hs] at h
  | cons c t ih =>
    intro n h
    by_cases hp : sep.isPrefixOf (c :: t) = true
    · simp only [bytesIndex, hp, if_true, Option.some.injEq] at h
      subst h
      have hpre : sep <+: (c :: t) := List.isPrefixOf_iff_prefix.mp hp
      have := List.prefix_iff_eq_append.mp hpre
      simpa using this.symm
    · simp only [bytesIndex, hp, Bool.false_eq_true, if_false, Option.map_eq_some'] at h
      obtain ⟨n1, hn1, hn⟩ := h
      subst hn
      have h1 := ih n1 hn1
      have h2 : n1 + 1 + sep.length = (n1 + sep.length) + 1 := by omega
      rw [h2]
      simp only [List.take_succ_cons, List.drop_succ_cons, List.cons_append, List.cons.injEq,
        true_and]
      simpa [List.append_assoc] using h1

theorem bytesIndex_split (sep s : Str) (n : Nat) (h : bytesIndex s sep = some n) :
    ∃ p r, s = p ++ sep ++ r ∧ s.take n = p ∧ s.drop (n + sep.length) = r :=
  ⟨_, _, bytesIndex_spec sep s n h, rfl, rfl⟩

/-- With no key for any tag of the text, the loop with the keeping callback writes the
text as it is. -/
theorem ExecuteFuncLoop_keep (a b : Str) (m : TplMap) (ha : a ≠ []) :
    ∀ (fuel : Nat) (s w : Str), s.length < fuel →
      (∀ t, (a ++ t ++ b) <:+: s → m t = none) →
      ExecuteFuncLoop a b (fun w tag => keepUnknownTagFunc w a b tag m) fuel s w =
        .ok (w ++ s, none) := by
  intro fuel
  induction fuel with
  | zero => intro s w h; omega
  | succ fuel ih =>
    intro s w hlen hm
    unfold ExecuteFuncLoop
    cases h1 : bytesIndex s a with
    | none => rfl
    | some n =>
      obtain ⟨p, s1, hs, hp, hr⟩ := bytesIndex_split a s n h1
      simp only [hp, hr]
      cases h2 : bytesIndex s1 b with
      | none =>
        simp only [Except.ok.injEq, Prod.mk.injEq, and_true]
        rw [hs]; simp [List.append_assoc]
      | some n2 =>
        obtain ⟨tag, s2, hs1, ht, hr2⟩ := bytesIndex_split b s1 n2 h2
        simp only [ht, hr2]
        have hmt : m tag = none := by
          apply hm
          refine ⟨p, s2, ?_⟩
          rw [hs, hs1]; simp [List.append_assoc]
        have hal : 0 < a.length := List.length_pos.mpr ha
        have hl : s2.length < fuel := by
          have := congrArg List.length hs
          rw [hs1] at this
          simp only [List.length_append] at this
          omega
        have hk : keepUnknownTagFunc (w ++ p) a b tag m =
            .ok (w ++ p ++ a ++ tag ++ b, none) := by
          simp [keepUnknownTagFunc, hmt]
        simp only [hk]
        rw [ih s2 _ hl (fun t hti => hm t (by
          obtain ⟨x, y, hxy⟩ := hti
          refine ⟨p ++ a ++ tag ++ b ++ x, y, ?_⟩
          rw [hs, hs1, ← hxy]; simp [List.append_assoc]))]
        simp only [Except.ok.injEq, Prod.mk.injEq, and_true]
        rw [hs, hs1]; simp [List.append_assoc]

theorem render_cons_cons (f : TagWriter) (text t2 : Str) (ts : List Str) (tag : Str)
    (tags : List Str) (w : Str) :
    render f (text :: t2 :: ts) (tag :: tags) w =
      match f (w ++ text) tag with
      | .error e => .error e
      | .ok (w2, some err) => .ok (w2, some err)
      | .ok (w2, none) => render f (t2 :: ts) tags w2 := by
  simp [render]

/-- The streaming loop writes what the parse of `Reset` describes. -/
theorem ExecuteFuncLoop_eq_render (a b : Str) (f : TagWriter) :
    ∀ (fuel : Nat) (s : Str) (texts0 tags0 texts tags : List Str),
      Template.ResetLoop a b fuel s texts0 tags0 = .ok (texts, tags) →
      ∃ texts1 tags1, texts = texts0 ++ texts1 ∧ tags = tags0 ++ tags1 ∧
        texts1.length = tags1.length + 1 ∧
        ∀ w, ExecuteFuncLoop a b f fuel s w = render f texts1 tags1 w := by
  intro fuel
  induction fuel with
  | zero => intro s texts0 tags0 texts tags h; simp [Template.ResetLoop] at h
  | succ fuel ih =>
    intro s texts0 tags0 texts tags h
    unfold Template.ResetLoop at h
    cases h1 : bytesIndex s a with
    | none =>
      simp only [h1, Except.ok.injEq, Prod.mk.injEq] at h
      refine ⟨[s], [], h.1.symm, by simp [h.2], rfl, fun w => ?_⟩
      simp [ExecuteFuncLoop, h1, render]
    | some n =>
      simp only [h1] at h
      cases h2 : bytesIndex (s.drop (n + a.length)) b with
      | none => simp [h2] at h
      | some n2 =>
        simp only [h2] at h
        obtain ⟨texts1, tags1, ht, hg, hl, hr⟩ := ih _ _ _ _ _ h
        refine ⟨s.take n :: texts1, (s.drop (n + a.length)).take n2 :: tags1,
          by simp [ht], by simp [hg], by simp [hl], fun w => ?_⟩
        cases texts1 with
        | nil => simp at hl
        | cons t2 ts =>
          rw [render_cons_cons]
          simp only [ExecuteFuncLoop, h1, h2]
          cases hf : f (w ++ s.take n) ((s.drop (n + a.length)).take n2) with
          | error e => rfl
          | ok r =>
            obtain ⟨w2, err⟩ := r
            cases err with
            | some e => rfl
            | none => exact hr w2

/-- The frozen loop, followed by the last text, writes what the parsed template
describes. -/
theorem Template_loop_eq_render (t : Template) (f : TagWriter) :
    ∀ (k i : Nat) (w : Str), i + k + 1 = t.texts.length → i + k = t.tags.length →
      (match Template.ExecuteFuncLoop t f k i w with
        | .error e => .error e
        | .ok (w1, some err) => .ok (w1, some err)
        | .ok (w1, none) =>
          match t.texts[i + k]? with
          | none => .error TplFault.indexOutOfRange
          | some text => .ok (w1 ++ text, none)) =
        render f (t.texts.drop i) (t.tags.drop i) w := by
  intro k
  induction k with
  | zero =>
    intro i w h1 _
    have hi : i < t.texts.length := by omega
    have hd : t.texts.drop i = [t.texts[i]] := by
      rw [List.drop_eq_getElem_cons hi, List.drop_of_length_le (by omega)]
    simp [Template.ExecuteFuncLoop, List.getElem?_eq_getElem hi, hd, render]
  | succ k ih =>
    intro i w h1 h2
    have hi : i < t.texts.length := by omega
    have hi1 : i + 1 < t.texts.length := by omega
    have hj : i < t.tags.length := by omega
    have hd : t.texts.drop i = t.texts[i] :: t.texts[i + 1] :: t.texts.drop (i + 1 + 1) := by
      rw [List.drop_eq_getElem_cons hi, List.drop_eq_getElem_cons hi1]
    have hd1 : t.texts.drop (i + 1) = t.texts[i + 1] :: t.texts.drop (i + 1 + 1) :=
      List.drop_eq_getElem_cons hi1
    have hg : t.tags.drop i = t.tags[i] :: t.tags.drop (i + 1) := List.drop_eq_getElem_cons hj
    rw [hd, hg, render_cons_cons, ← hd1]
    simp only [Template.ExecuteFuncLoop, List.getElem?_eq_getElem hi,
      List.getElem?_eq_getElem hj]
    cases hf : f (w ++ t.texts[i]) t.tags[i] with
    | error e => rfl
    | ok r =>
      obtain ⟨w2, err⟩ := r
      cases err with
      | some e => rfl
      | none =>
        have := ih (i + 1) w2 (by omega) (by omega)
        have hidx : i + 1 + k = i + (k + 1) := by omega
        rw [hidx] at this
        exact this

/-- For every callback the frozen engine returns what the streaming engine returns. -/
theorem Template_agrees (template a b : Str) (f : TagWriter) (t : Template)
    (h : NewTemplate template a b = .ok t) :
    Template.ExecuteFuncString t f = ExecuteFuncString template a b f := by
  unfold NewTemplate Template.Reset at h
  by_cases ha : a = []
  · simp [ha] at h
  by_cases hb : b = []
  · simp [ha, hb] at h
  simp only [ha, hb, if_false] at h
  by_cases hc : bytesCount template a = 0
  · simp only [hc, if_true, Except.ok.injEq] at h
    subst h
    simp [Template.ExecuteFuncString, Template.ExecuteFuncStringWithErr, Template.ExecuteFunc,
      ExecuteFuncString, ExecuteFuncStringWithErr, hc]
  · simp only [hc, if_false] at h
    cases hl : Template.ResetLoop a b (template.length + 1) template [] [] with
    | error e => simp [hl] at h
    | ok r =>
      obtain ⟨texts, tags⟩ := r
      simp only [hl, Except.ok.injEq] at h
      obtain ⟨texts1, tags1, ht, hg, hlen, hr⟩ :=
        ExecuteFuncLoop_eq_render a b f _ _ _ _ _ _ hl
      simp only [List.nil_append] at ht hg
      subst ht hg
      have hfro : Template.ExecuteFunc t [] f = render f texts tags [] := by
        have hne : texts.length ≠ 0 := by omega
        have := Template_loop_eq_render t f (texts.length - 1) 0 []
          (by rw [← h]; simp; omega) (by rw [← h]; simp; omega)
        rw [← h] at this ⊢
        simp only [Template.ExecuteFunc, hne, if_false]
        simpa using this
      simp only [Template.ExecuteFuncString, Template.ExecuteFuncStringWithErr, hfro,
        ExecuteFuncString, ExecuteFuncStringWithErr, hc, if_false, ExecuteFunc, hr]
/-- With strings and byte slices as values, `stdTagFunc` writes and returns no error. -/
theorem stdTagFunc_ok (m : TplMap)
    (hm : ∀ k v, m k = some v → (∃ s, v = TplValue.str s) ∨ (∃ s, v = TplValue.bytes s))
    (w tag : Str) : ∃ w2, stdTagFunc w tag m = .ok (w2, none) := by
  unfold stdTagFunc
  cases hv : m tag with
  | none => exact ⟨w, rfl⟩
  | some v =>
    rcases hm tag v hv with ⟨s, hs⟩ | ⟨s, hs⟩ <;> subst hs <;> exact ⟨w ++ s, rfl⟩

/-- With a non-empty start tag and a callback that never fails, the streaming loop ends
within the fuel and returns no error. -/
theorem ExecuteFuncLoop_ok (a b : Str) (f : TagWriter) (ha : a ≠ [])
    (hf : ∀ w tag, ∃ w2, f w tag = .ok (w2, none)) :
    ∀ (fuel : Nat) (s w : Str), s.length < fuel →
      ∃ out, ExecuteFuncLoop a b f fuel s w = .ok (out, none) := by
  intro fuel
  induction fuel with
  | zero => intro s w h; omega
  | succ fuel ih =>
    intro s w hlen
    unfold ExecuteFuncLoop
    cases h1 : bytesIndex s a with
    | none => exact ⟨_, rfl⟩
    | some n =>
      obtain ⟨p, s1, hs, hp, hr⟩ := bytesIndex_split a s n h1
      simp only [hp, hr]
      cases h2 : bytesIndex s1 b with
      | none => exact ⟨_, rfl⟩
      | some n2 =>
        obtain ⟨tag, s2, hs1, ht, hr2⟩ := bytesIndex_split b s1 n2 h2
        simp only [ht, hr2]
        obtain ⟨w2, hw2⟩ := hf (w ++ p) tag
        have hal : 0 < a.length := List.length_pos.mpr ha
        have hl : s2.length < fuel := by
          have := congrArg List.length hs
          rw [hs1] at this
          simp only [List.length_append] at this
          omega
        simp only [hw2]
        exact ih s2 w2 hl

/-- With no key for any tag that the loop cuts out, the loop with the keeping callback
writes the text as it is. -/
theorem ExecuteFuncLoop_keep_tags (a b : Str) (m : TplMap) (ha : a ≠ []) :
    ∀ (fuel : Nat) (s w : Str), s.length < fuel →
      (∀ t ∈ tagsLoop a b fuel s, m t = none) →
      ExecuteFuncLoop a b (fun w tag => keepUnknownTagFunc w a b tag m) fuel s w =
        .ok (w ++ s, none) := by
  intro fuel
  induction fuel with
  | zero => intro s w h; omega
  | succ fuel ih =>
    intro s w hlen hm
    unfold ExecuteFuncLoop
    unfold tagsLoop at hm
    cases h1 : bytesIndex s a with
    | none => rfl
    | some n =>
      obtain ⟨p, s1, hs, hp, hr⟩ := bytesIndex_split a s n h1
      simp only [h1, hp, hr] at hm ⊢
      cases h2 : bytesIndex s1 b with
      | none =>
        simp only [Except.ok.injEq, Prod.mk.injEq, and_true]
        rw [hs]; simp [List.append_assoc]
      | some n2 =>
        obtain ⟨tag, s2, hs1, ht, hr2⟩ := bytesIndex_split b s1 n2 h2
        simp only [h2, ht, hr2] at hm ⊢
        have hmt : m tag = none := hm tag (List.mem_cons_self _ _)
        have hal : 0 < a.length := List.length_pos.mpr ha
        have hl : s2.length < fuel := by
          have := congrArg List.length hs
          rw [hs1] at this
          simp only [List.length_append] at this
          omega
        have hk : keepUnknownTagFunc (w ++ p) a b tag m =
            .ok (w ++ p ++ a ++ tag ++ b, none) := by
          simp [keepUnknownTagFunc, hmt]
        simp only [hk]
        rw [ih s2 _ hl (fun t hti => hm t (List.mem_cons_of_mem _ hti))]
        simp only [Except.ok.injEq, Prod.mk.injEq, and_true]
        rw [hs, hs1]; simp [List.append_assoc]

/-- Every tag that the loop cuts out stands in the text between a start tag and an end
tag. -/
theorem tagsLoop_infix (a b : Str) :
    ∀ (fuel : Nat) (s : Str) (t : Str), t ∈ tagsLoop a b fuel s → (a ++ t ++ b) <:+: s := by
  intro fuel
  induction fuel with
  | zero => intro s t h; simp [tagsLoop] at h
  | succ fuel ih =>
    intro s t h
    unfold tagsLoop at h
    cases h1 : bytesIndex s a with
    | none => simp [h1] at h
    | some n =>
      obtain ⟨p, s1, hs, hp, hr⟩ := bytesIndex_split a s n h1
      simp only [h1, hr] at h
      cases h2 : bytesIndex s1 b with
      | none => simp [h2] at h
      | some n2 =>
        obtain ⟨tag, s2, hs1, ht, hr2⟩ := bytesIndex_split b s1 n2 h2
        simp only [h2, ht, hr2, List.mem_cons] at h
        rcases h with h | h
        · subst h
          exact ⟨p, s2, by rw [hs, hs1]; simp [List.append_assoc]⟩
        · obtain ⟨x, y, hxy⟩ := ih s2 t h
          exact ⟨p ++ a ++ tag ++ b ++ x, y, by rw [hs, hs1, ← hxy]; simp [List.append_assoc]⟩

/-- The tags that `Reset` collects are those of `tagsLoop`. -/
theorem ResetLoop_tags (a b : Str) :
    ∀ (fuel : Nat) (s : Str) (texts tags texts2 tags2 : List Str),
      Template.ResetLoop a b fuel s texts tags = .ok (texts2, tags2) →
      tags2 = tags ++ tagsLoop a b fuel s := by
  intro fuel
  induction fuel with
  | zero => intro s texts tags texts2 tags2 h; simp [Template.ResetLoop] at h
  | succ fuel ih =>
    intro s texts tags texts2 tags2 h
    unfold Template.ResetLoop at h
    unfold tagsLoop
    cases h1 : bytesIndex s a with
    | none =>
      simp only [h1, Except.ok.injEq, Prod.mk.injEq] at h
      simp [h.2]
    | some n =>
      simp only [h1] at h ⊢
      cases h2 : bytesIndex (s.drop (n + a.length)) b with
      | none => simp [h2] at h
      | some n2 =>
        simp only [h2] at h ⊢
        rw [ih _ _ _ _ _ h]
        simp

theorem bytesIndex_of_count_zero (s sep : Str) (hs : sep ≠ [])
    (h : bytesCount s sep = 0) : bytesIndex s sep = none := by
  simp only [bytesCount, hs, if_false, bytesCountAux] at h
  cases h1 : bytesIndex s sep with
  | none => rfl
  | some n => simp [h1] at h

/-- The tags of a parsed template, the field `tags` that `NewTemplate` fills, are the tags
of `templateTags`. -/
theorem NewTemplate_tags (template startTag endTag : Str) (t : Template)
    (h : NewTemplate template startTag endTag = .ok t) :
    t.tags = templateTags template startTag endTag := by
  unfold NewTemplate Template.Reset at h
  by_cases ha : startTag = []
  · simp [ha] at h
  · by_cases hb : endTag = []
    · simp [ha, hb] at h
    · by_cases hc : bytesCount template startTag = 0
      · simp only [ha, hb, hc, if_false, if_true, Except.ok.injEq] at h
        subst h
        simp [templateTags, tagsLoop, bytesIndex_of_count_zero template startTag ha hc,
          Template.zero]
      · simp only [ha, hb, hc, if_false] at h
        cases hl : Template.ResetLoop startTag endTag (template.length + 1) template [] [] with
        | error e => simp [hl] at h
        | ok p =>
          obtain ⟨texts, tags⟩ := p
          simp only [hl, Except.ok.injEq] at h
          subst h
          have := ResetLoop_tags startTag endTag _ _ _ _ _ _ hl
          simpa [templateTags] using this

/-! ## Main results: template engine -/

/-- C23: with a non-empty start tag and end tag and a map that has no key equal to a tag
of the template (a text that the engine cuts out between a start tag and the next end
tag), `ExecuteStringStd` returns the template unchanged, also when a start tag has no end
tag after it. -/
theorem ExecuteStringStd_keeps_unknown (template startTag endTag : Str) (m : TplMap)
    (ha : startTag ≠ []) (_hb : endTag ≠ [])
    (hm : ∀ tag ∈ templateTags template startTag endTag, m tag = none) :
    ExecuteStringStd template startTag endTag m = .ok template := by
  unfold ExecuteStringStd ExecuteFuncString ExecuteFuncStringWithErr
  by_cases hc : bytesCount template startTag = 0
  · simp [hc]
  · simp only [hc, if_false, ExecuteFunc]
    rw [ExecuteFuncLoop_keep_tags startTag endTag m ha _ _ _ (Nat.lt_succ_self _) hm]
    simp

/-- C23, witness: the map with the single key `k` and the template `a<<k>b<c`, whose only
tag is `<k` and whose last start tag has no end tag: the template comes back unchanged,
although `k` stands between a start tag and an end tag. -/
theorem ExecuteStringStd_keeps_unknown_witness :
    templateTags "a<<k>b<c".toList ['<'] ['>'] = ["<k".toList] ∧
    mapK ['k'] = some (TplValue.str ['V']) ∧
    ExecuteStringStd "a<<k>b<c".toList ['<'] ['>'] mapK = .ok "a<<k>b<c".toList :=
  ⟨by decide, rfl,
    ExecuteStringStd_keeps_unknown "a<<k>b<c".toList ['<'] ['>'] mapK (by decide)
      (by decide) (fun tag h => by
        have ht : templateTags "a<<k>b<c".toList ['<'] ['>'] = ["<k".toList] := by decide
        rw [ht, List.mem_singleton] at h
        subst h
        rfl)⟩

/-- C24: when `NewTemplate` succeeds on a template with non-empty tags and the values of
the map are strings or byte slices, the frozen `ExecuteString` and the streaming
`ExecuteString` return the same text, without fault. -/
theorem Template_ExecuteString_agrees (template startTag endTag : Str) (m : TplMap)
    (t : Template) (ha : startTag ≠ []) (_hb : endTag ≠ [])
    (h : NewTemplate template startTag endTag = .ok t)
    (hm : ∀ k v, m k = some v → (∃ s, v = TplValue.str s) ∨ (∃ s, v = TplValue.bytes s)) :
    t.ExecuteString m = ExecuteString template startTag endTag m ∧
    ∃ out, ExecuteString template startTag endTag m = .ok out := by
  refine ⟨Template_agrees template startTag endTag _ t h, ?_⟩
  unfold ExecuteString ExecuteFuncString ExecuteFuncStringWithErr
  by_cases hc : bytesCount template startTag = 0
  · exact ⟨template, by simp [hc]⟩
  · obtain ⟨out, ho⟩ := ExecuteFuncLoop_ok startTag endTag (fun w tag => stdTagFunc w tag m)
      ha (stdTagFunc_ok m hm) (template.length + 1) template [] (Nat.lt_succ_self _)
    exact ⟨out, by simp [hc, ExecuteFunc, ho]⟩

/-- C24, witness: the template `a<k>b<z>c` with `k` bound to `V` gives `aVbc` in both
engines. -/
theorem Template_ExecuteString_agrees_witness :
    ∃ t, NewTemplate "a<k>b<z>c".toList ['<'] ['>'] = .ok t ∧
      t.ExecuteString mapK = .ok "aVbc".toList ∧
      ExecuteString "a<k>b<z>c".toList ['<'] ['>'] mapK = .ok "aVbc".toList := by
  obtain ⟨t, ht⟩ : ∃ t, NewTemplate "a<k>b<z>c".toList ['<'] ['>'] = .ok t := ⟨_, rfl⟩
  have hs : ExecuteString "a<k>b<z>c".toList ['<'] ['>'] mapK = .ok "aVbc".toList := rfl
  have hagree := (Template_ExecuteString_agrees "a<k>b<z>c".toList ['<'] ['>'] mapK t
    (by decide) (by decide) ht (by
      intro k v hkv
      unfold mapK at hkv
      split at hkv
      · exact Or.inl ⟨['V'], (Option.some.inj hkv).symm⟩
      · cases hkv)).1
  exact ⟨t, ht, by rw [hagree]; exact hs, hs⟩

end Hyprstereo
